import Mathlib

/-!
# A verification development for the recursive DNS resolver `mhashemm/dns`

Shallow embedding of the wire codec (`dns.go`), the answer cache (`cache.go`)
and the root helpers of the resolver (`resolve.go`), followed by theorems
about them.

Modelling conventions

* A Go `string` and a Go `[]byte` are lists of bytes (`List Nat`, each element
  below 256).  A slice is taken to have its capacity equal to its length.
* `uint16` arithmetic is arithmetic on `Nat` reduced modulo `65536`.
* A run-time panic (index or slice bounds out of range) is the result
  `Err.outOfRange`.  Recursion and loops that Go does not bound are given a
  fuel argument; running out of it is the result `Err.outOfFuel`.
* Go maps are functions into `Option`.
* Time is counted in whole nanoseconds (`time.Duration`); the conversion to
  `float64` seconds is taken to be exact.
-/

set_option linter.dupNamespace false

namespace Dns

/-- Go strings and byte slices. -/
abbrev Str := List Nat

/-- The bytes of an ASCII literal. -/
def str (s : String) : Str := s.toList.map Char.toNat

/-- Outcomes that are not a normal return. -/
inductive Err where
  | outOfRange
  | outOfFuel
  deriving DecidableEq, Repr

/-- Reduction of a natural number to `uint16`. -/
def u16 (n : Nat) : Nat := n % 65536

/-- Subtraction `a - b` of two `uint16` values, which wraps around below zero. -/
def u16sub (a b : Nat) : Nat :=
  if b % 65536 ≤ a % 65536 then a % 65536 - b % 65536 else 65536 - (b % 65536 - a % 65536)

/-! ## dns.go : data model -/

/-- `type resourceRecord struct` (the field `Type` is written `Type_`). -/
structure resourceRecord where
  Name : Str
  Data : Str
  Class : Nat
  Type_ : Nat
  Ttl : Int
  deriving DecidableEq, Repr

/-- `type header struct`. -/
structure header where
  ID : Nat
  Flags : Nat
  QDCOUNT : Nat
  ANCOUNT : Nat
  NSCOUNT : Nat
  ARCOUNT : Nat
  deriving DecidableEq, Repr

/-- `type question struct` (the field `Type` is written `Type_`). -/
structure question where
  Name : Str
  Type_ : Nat
  Class : Nat
  deriving DecidableEq, Repr

/-- `type message struct`. -/
structure message where
  Header : header
  Question : List question
  Answer : List resourceRecord
  Authority : List resourceRecord
  Additional : List resourceRecord
  deriving DecidableEq, Repr

/-- The zero value `message{}`. -/
def message.zero : message :=
  { Header := { ID := 0, Flags := 0, QDCOUNT := 0, ANCOUNT := 0, NSCOUNT := 0, ARCOUNT := 0 },
    Question := [], Answer := [], Authority := [], Additional := [] }

/-- `var supportedTypes`. -/
def supportedTypes (t : Nat) : Bool := t = 1 || t = 2 || t = 28 || t = 41

/-- The two library conversions between IP literals and packed addresses.
`addrSlice s` is `netip.ParseAddr(s)` followed by `AsSlice()` (the empty slice
when the literal does not parse; `BitLen()/8` is the length of that slice),
`ipString b` is `net.IP(b).String()`. -/
structure IPLib where
  addrSlice : Str → List Nat
  ipString : List Nat → Str

/-! ## dns.go : big-endian fields -/

/-- Big-endian bytes of a `uint16`, as `binary.Write` emits them. -/
def be16 (v : Nat) : List Nat := [v / 256 % 256, v % 256]

/-- Big-endian bytes of a 32-bit word. -/
def be32 (v : Nat) : List Nat := [v / 16777216 % 256, v / 65536 % 256, v / 256 % 256, v % 256]

/-- The 32-bit two's complement word of an `int32`. -/
def int32Bits (t : Int) : Nat := (t % 4294967296).toNat

/-- Conversion `int32(x)` of a `uint32`. -/
def toInt32 (v : Nat) : Int :=
  if v % 4294967296 < 2147483648 then (v % 4294967296 : Nat) else ((v % 4294967296 : Nat) : Int) - 4294967296

/-- Slice expression `buf[lo:hi]`. -/
def slice (buf : List Nat) (lo hi : Nat) : Except Err (List Nat) :=
  if lo ≤ hi ∧ hi ≤ buf.length then .ok ((buf.drop lo).take (hi - lo)) else .error .outOfRange

/-- `binary.BigEndian.Uint16`. -/
def beUint16 (b : List Nat) : Except Err Nat :=
  match b with
  | b0 :: b1 :: _ => .ok (b0 * 256 + b1)
  | _ => .error .outOfRange

/-- `binary.BigEndian.Uint32`. -/
def beUint32 (b : List Nat) : Except Err Nat :=
  match b with
  | b0 :: b1 :: b2 :: b3 :: _ => .ok (b0 * 16777216 + b1 * 65536 + b2 * 256 + b3)
  | _ => .error .outOfRange

/-- Reading `binary.BigEndian.Uint16(buf[at : at+2])` with a `uint16` cursor. -/
def readU16 (buf : List Nat) (pos : Nat) : Except Err Nat :=
  match slice buf pos (u16 (pos + 2)) with
  | .error e => .error e
  | .ok b => beUint16 b

/-- Reading `binary.BigEndian.Uint32(buf[at : at+4])` with a `uint16` cursor. -/
def readU32 (buf : List Nat) (pos : Nat) : Except Err Nat :=
  match slice buf pos (u16 (pos + 4)) with
  | .error e => .error e
  | .ok b => beUint32 b

/-! ## dns.go : names -/

/-- ASCII lower-casing of one byte. -/
def lowerByte (c : Nat) : Nat := if 65 ≤ c ∧ c ≤ 90 then c + 32 else c

/-- `strings.ToLower`.  On a string of ASCII bytes Go maps the letters
`A`..`Z` bytewise; on any other string it maps Unicode code points, which is
left to the argument `ul`. -/
def ToLower (ul : Str → Str) (s : Str) : Str :=
  if s.all (fun c => decide (c < 128)) then s.map lowerByte else ul s

/-- The loop of `parseLabel`: `ll` is the cursor, `label` the builder.  The
result is the built string (before the final lower-casing) and the cursor. -/
def parseLabelLoop (ul : Str → Str) (buf : List Nat) : Nat → Nat → Str → Except Err (Str × Nat)
  | 0, _, _ => .error .outOfFuel
  | fuel + 1, ll, label =>
    match buf.get? ll with
    | none => .error .outOfRange
    | some l =>
      let ll1 := u16 (ll + 1)
      if l = 0 then .ok (label, ll1)
      else if l / 64 = 3 then
        match slice buf (u16sub ll1 1) (u16 (ll1 + 1)) with
        | .error e => .error e
        | .ok b =>
          match beUint16 b with
          | .error e => .error e
          | .ok v =>
            match parseLabelLoop ul buf fuel (v % 16384) [] with
            | .error e => .error e
            | .ok (label1, _) => .ok (label ++ ToLower ul label1, u16 (ll1 + 1))
      else
        match slice buf ll1 (u16 (ll1 + l)) with
        | .error e => .error e
        | .ok p => parseLabelLoop ul buf fuel (u16 (ll1 + l)) (label ++ p ++ [46])

/-- `func parseLabel(from uint16, buf []byte) (string, uint16)`. -/
def parseLabel (ul : Str → Str) (fuel : Nat) (pos : Nat) (buf : List Nat) : Except Err (Str × Nat) :=
  match parseLabelLoop ul buf fuel pos [] with
  | .error e => .error e
  | .ok (label, ll) => .ok (ToLower ul label, u16sub ll pos)

/-- The compression table `map[string]uint16`. -/
abbrev NsCache := Str → Option Nat

/-- `func addToNsCache`: the updated table and the two results. -/
def addToNsCache (nsCache : NsCache) (s : Str) (pos : Nat) : NsCache × Nat × Bool :=
  if s = [] then (nsCache, 0, false)
  else
    match nsCache s with
    | none =>
      if 12 ≤ pos then
        (fun k => if k = s then some (pos ||| 49152) else nsCache k, pos ||| 49152, true)
      else (nsCache, 0, false)
    | some cachedPos => (nsCache, cachedPos, true)

/-- `strings.Split(label, ".")`. -/
def splitDot : Str → List Str
  | [] => [[]]
  | c :: cs =>
    if c = 46 then [] :: splitDot cs
    else
      match splitDot cs with
      | [] => [[c]]
      | p :: ps => (c :: p) :: ps

/-- The `for _, p := range parts` loop of `labelBytes`; `l` is the running
length, `buf` the local buffer. -/
def labelBytesLoop (label : Str) (compress : Bool) (offset : Nat) :
    List Str → Nat → NsCache → List Nat → Except Err (List Nat × NsCache)
  | [], _, nsCache, buf => .ok (buf, nsCache)
  | p :: ps, l, nsCache, buf =>
    if p = [] then .ok (buf ++ [0], nsCache)
    else
      let buf1 := buf ++ [p.length % 256] ++ p
      let l1 := u16 (l + u16 (u16 p.length + 1))
      if label.length < l1 then .error .outOfRange
      else
        let s := label.drop l1
        match (if compress then nsCache s else none) with
        | some pos => .ok (buf1 ++ be16 pos, nsCache)
        | none => labelBytesLoop label compress offset ps l1 (addToNsCache nsCache s (u16 (offset + l1))).1 buf1

/-- `func labelBytes(label string, nsCache map[string]uint16, compress bool, offset uint16) []byte`. -/
def labelBytes (label : Str) (nsCache : NsCache) (compress : Bool) (offset : Nat) :
    Except Err (List Nat × NsCache) :=
  if label = [] then .ok ([0], nsCache)
  else
    match (if compress then nsCache label else none) with
    | some pos => .ok (be16 pos, nsCache)
    | none =>
      labelBytesLoop label compress offset (splitDot label) 0 (addToNsCache nsCache label offset).1 []

/-! ## dns.go : serialization -/

/-- `func (rr resourceRecord) WriteTo(buf *bytes.Buffer, nsCache map[string]uint16)`:
the buffer and the table after the call. -/
def resourceRecord.WriteTo (ip : IPLib) (rr : resourceRecord) (buf : List Nat) (nsCache : NsCache) :
    Except Err (List Nat × NsCache) :=
  match labelBytes rr.Name nsCache true (u16 buf.length) with
  | .error e => .error e
  | .ok (b, ns1) =>
    let buf1 := buf ++ b ++ be16 rr.Type_ ++ be16 rr.Class ++ be32 (int32Bits rr.Ttl)
    if rr.Type_ = 1 ∨ rr.Type_ = 28 then
      .ok (buf1 ++ be16 (ip.addrSlice rr.Data).length ++ ip.addrSlice rr.Data, ns1)
    else if rr.Type_ = 2 then
      match labelBytes rr.Data ns1 true (u16 (buf1.length + 2)) with
      | .error e => .error e
      | .ok (b2, ns2) => .ok (buf1 ++ be16 b2.length ++ b2, ns2)
    else if rr.Type_ = 41 then .ok (buf1 ++ [0, 0], ns1)
    else .ok (buf1, ns1)

/-- `func (h header) WriteTo(buf *bytes.Buffer)`. -/
def header.WriteTo (h : header) (buf : List Nat) : List Nat :=
  buf ++ be16 h.ID ++ be16 h.Flags ++ be16 h.QDCOUNT ++ be16 h.ANCOUNT ++ be16 h.NSCOUNT ++ be16 h.ARCOUNT

/-- `func (q question) WriteTo(buf *bytes.Buffer, nsCache map[string]uint16)`. -/
def question.WriteTo (q : question) (buf : List Nat) (nsCache : NsCache) :
    Except Err (List Nat × NsCache) :=
  match labelBytes q.Name nsCache false (u16 buf.length) with
  | .error e => .error e
  | .ok (b, ns1) => .ok (buf ++ b ++ be16 q.Type_ ++ be16 q.Class, ns1)

/-- The loop `for _, q := range m.Question { q.WriteTo(buf, nsCache) }`. -/
def writeQuestions : List question → List Nat → NsCache → Except Err (List Nat × NsCache)
  | [], buf, nsCache => .ok (buf, nsCache)
  | q :: qs, buf, nsCache =>
    match q.WriteTo buf nsCache with
    | .error e => .error e
    | .ok (buf1, ns1) => writeQuestions qs buf1 ns1

/-- The loop `for _, rr := range section { rr.WriteTo(buf, nsCache) }`. -/
def writeRRs (ip : IPLib) : List resourceRecord → List Nat → NsCache → Except Err (List Nat × NsCache)
  | [], buf, nsCache => .ok (buf, nsCache)
  | rr :: rrs, buf, nsCache =>
    match rr.WriteTo ip buf nsCache with
    | .error e => .error e
    | .ok (buf1, ns1) => writeRRs ip rrs buf1 ns1

/-- The body of `message.Bytes`, keeping the final compression table as well. -/
def message.encode (ip : IPLib) (m : message) : Except Err (List Nat × NsCache) :=
  let h : header :=
    { m.Header with
      QDCOUNT := u16 m.Question.length, ANCOUNT := u16 m.Answer.length,
      NSCOUNT := u16 m.Authority.length, ARCOUNT := u16 m.Additional.length }
  match writeQuestions m.Question (h.WriteTo []) (fun _ => none) with
  | .error e => .error e
  | .ok (b1, n1) =>
    match writeRRs ip m.Answer b1 n1 with
    | .error e => .error e
    | .ok (b2, n2) =>
      match writeRRs ip m.Authority b2 n2 with
      | .error e => .error e
      | .ok (b3, n3) => writeRRs ip m.Additional b3 n3

/-- `func (m message) Bytes() []byte`. -/
def message.Bytes (ip : IPLib) (m : message) : Except Err (List Nat) :=
  match m.encode ip with
  | .error e => .error e
  | .ok (b, _) => .ok b

/-! ## dns.go : parsing -/

/-- `func parseHeader(buf []byte) header`. -/
def parseHeader (buf : List Nat) : Except Err header :=
  match readU16 buf 0, readU16 buf 2, readU16 buf 4, readU16 buf 6, readU16 buf 8, readU16 buf 10 with
  | .ok a, .ok b, .ok c, .ok d, .ok e, .ok f =>
    .ok { ID := a, Flags := b, QDCOUNT := c, ANCOUNT := d, NSCOUNT := e, ARCOUNT := f }
  | _, _, _, _, _, _ => .error .outOfRange

/-- The loop of `parseQuestion`: the questions read and the final cursor. -/
def parseQuestionLoop (ul : Str → Str) (fuel : Nat) (buf : List Nat) :
    Nat → Nat → Except Err (List question × Nat)
  | 0, ql => .ok ([], ql)
  | n + 1, ql =>
    match parseLabel ul fuel ql buf with
    | .error e => .error e
    | .ok (label, ll) =>
      let ql1 := u16 (ql + ll)
      match readU16 buf ql1 with
      | .error e => .error e
      | .ok ty =>
        let ql2 := u16 (ql1 + 2)
        match readU16 buf ql2 with
        | .error e => .error e
        | .ok cl =>
          match parseQuestionLoop ul fuel buf n (u16 (ql2 + 2)) with
          | .error e => .error e
          | .ok (qs, ql3) => .ok ({ Name := label, Type_ := ty, Class := cl } :: qs, ql3)

/-- `func parseQuestion(from uint16, buf []byte, qdCount uint16) ([]question, uint16)`. -/
def parseQuestion (ul : Str → Str) (fuel : Nat) (pos : Nat) (buf : List Nat) (qdCount : Nat) :
    Except Err (List question × Nat) :=
  match parseQuestionLoop ul fuel buf qdCount pos with
  | .error e => .error e
  | .ok (qs, ql) => .ok (qs, u16sub ql pos)

/-- `func parseRData(buf []byte, from uint16, rdLen uint16, rtype uint16) string`. -/
def parseRData (ul : Str → Str) (ip : IPLib) (fuel : Nat) (buf : List Nat) (pos rdLen rtype : Nat) :
    Except Err Str :=
  if rtype = 1 ∨ rtype = 28 then
    match slice buf pos (u16 (pos + rdLen)) with
    | .error e => .error e
    | .ok b => .ok (ip.ipString b)
  else if rtype = 2 then
    match parseLabel ul fuel pos buf with
    | .error e => .error e
    | .ok (data, _) => .ok data
  else .ok []

/-- The loop of `parseRRs`: the records kept and the final cursor. -/
def parseRRsLoop (ul : Str → Str) (ip : IPLib) (fuel : Nat) (buf : List Nat) :
    Nat → Nat → Except Err (List resourceRecord × Nat)
  | 0, rrl => .ok ([], rrl)
  | n + 1, rrl =>
    match parseLabel ul fuel rrl buf with
    | .error e => .error e
    | .ok (label, ll) =>
      let r1 := u16 (rrl + ll)
      match readU16 buf r1 with
      | .error e => .error e
      | .ok ty =>
        let r2 := u16 (r1 + 2)
        match readU16 buf r2 with
        | .error e => .error e
        | .ok cl =>
          let r3 := u16 (r2 + 2)
          match readU32 buf r3 with
          | .error e => .error e
          | .ok ttl =>
            let r4 := u16 (r3 + 4)
            match readU16 buf r4 with
            | .error e => .error e
            | .ok rdLen =>
              let r5 := u16 (r4 + 2)
              match parseRData ul ip fuel buf r5 rdLen ty with
              | .error e => .error e
              | .ok data =>
                match parseRRsLoop ul ip fuel buf n (u16 (r5 + rdLen)) with
                | .error e => .error e
                | .ok (rrs, r6) =>
                  let rr : resourceRecord :=
                    { Name := label, Data := data, Class := cl, Type_ := ty, Ttl := toInt32 ttl }
                  if supportedTypes ty then .ok (rr :: rrs, r6) else .ok (rrs, r6)

/-- `func parseRRs(from uint16, buf []byte, count uint16) ([]resourceRecord, uint16)`. -/
def parseRRs (ul : Str → Str) (ip : IPLib) (fuel : Nat) (pos : Nat) (buf : List Nat) (count : Nat) :
    Except Err (List resourceRecord × Nat) :=
  match parseRRsLoop ul ip fuel buf count pos with
  | .error e => .error e
  | .ok (rrs, rrl) => .ok (rrs, u16sub rrl pos)

/-- `func parseMessage(buf []byte) (*message, uint16)`. -/
def parseMessage (ul : Str → Str) (ip : IPLib) (fuel : Nat) (buf : List Nat) : Except Err (message × Nat) :=
  match parseHeader buf with
  | .error e => .error e
  | .ok h =>
    match parseQuestion ul fuel 12 buf h.QDCOUNT with
    | .error e => .error e
    | .ok (que, l1) =>
      let ml1 := u16 (12 + l1)
      match parseRRs ul ip fuel ml1 buf h.ANCOUNT with
      | .error e => .error e
      | .ok (ans, l2) =>
        let ml2 := u16 (ml1 + l2)
        match parseRRs ul ip fuel ml2 buf h.NSCOUNT with
        | .error e => .error e
        | .ok (aut, l3) =>
          let ml3 := u16 (ml2 + l3)
          match parseRRs ul ip fuel ml3 buf h.ARCOUNT with
          | .error e => .error e
          | .ok (add, l4) =>
            .ok ({ Header := h, Question := que, Answer := ans, Authority := aut, Additional := add },
              u16 (ml3 + l4))

/-! ## cache.go -/

/-- `type cachedRR struct`; `createdAt` is a time stamp in nanoseconds. -/
structure cachedRR where
  rr : resourceRecord
  createdAt : Int
  deriving DecidableEq, Repr

/-- `type cache struct`: the map from domain to cached records (the mutex is
not modelled, calls are sequential). -/
structure cache where
  cache : Str → Option (List cachedRR)

/-- The empty cache `make(map[string][]cachedRR)`. -/
def cache.empty : Dns.cache := { cache := fun _ => none }

/-- The loop of `Get` that selects `minTtlCrr`, started from `crrs[0]`. -/
def minTtlLoop : List cachedRR → cachedRR → cachedRR
  | [], m => m
  | crr :: rest, m => minTtlLoop rest (if crr.rr.Ttl < m.rr.Ttl then crr else m)

/-- The value of `minTtlCrr` after the loop, for a non-empty entry. -/
def minTtlCrr : List cachedRR → Option cachedRR
  | [] => none
  | c0 :: rest => some (minTtlLoop (c0 :: rest) c0)

/-- Nanoseconds in a second. -/
def nsPerSec : Int := 1000000000

/-- The conversion `int32(t)` of the age `t` in seconds: truncation toward
zero (reduced to 32 bits where Go leaves the result to the implementation). -/
def ageInt32 (d : Int) : Int := toInt32 (int32Bits (Int.tdiv d nsPerSec))

/-- The statement `rr.Ttl -= int32(t)` on an `int32`. -/
def subTtl (ttl : Int) (d : Int) : Int := toInt32 (int32Bits (ttl - ageInt32 d))

/-- The second loop of `Get`: the answer section. -/
def answerLoop (d : Int) : List cachedRR → List resourceRecord
  | [] => []
  | crr :: rest =>
    let rr : resourceRecord := { crr.rr with Ttl := subTtl crr.rr.Ttl d }
    if crr.rr.Type_ = 1 ∨ crr.rr.Type_ = 28 then rr :: answerLoop d rest else answerLoop d rest

/-- `func (c *cache) remove(domain string)`. -/
def cache.remove (c : Dns.cache) (domain : Str) : Dns.cache :=
  { cache := fun k => if k = domain then none else c.cache k }

/-- `func (c *cache) Get(domain string) (*message, bool)` at time `now`:
the result (`none` is `(nil, false)`, `some m` is `(m, true)`, an error is the
panic of `crrs[0]`) and the cache after the call. -/
def cache.Get (c : Dns.cache) (now : Int) (domain : Str) : Except Err (Option message) × Dns.cache :=
  match c.cache domain with
  | none => (.ok none, c)
  | some crrs =>
    match minTtlCrr crrs with
    | none => (.error .outOfRange, c)
    | some m =>
      let t := now - m.createdAt
      if t > m.rr.Ttl * nsPerSec then (.ok none, c.remove domain)
      else (.ok (some { message.zero with Answer := answerLoop t crrs }), c)

/-- The loop of `Add`; `stamp i` is the value of `time.Now()` in iteration `i`. -/
def addLoop (stamp : Nat → Int) : List resourceRecord → Nat → List cachedRR
  | [], _ => []
  | rr :: rest, i =>
    if rr.Ttl ≤ 0 then addLoop stamp rest (i + 1)
    else { rr := rr, createdAt := stamp i } :: addLoop stamp rest (i + 1)

/-- `func (c *cache) Add(domain string, rrs []resourceRecord)`. -/
def cache.Add (c : Dns.cache) (stamp : Nat → Int) (domain : Str) (rrs : List resourceRecord) : Dns.cache :=
  { cache := fun k => if k = domain then some (addLoop stamp rrs 0) else c.cache k }

/-- Cache states reachable from the empty cache by `Add`, `Get` and `remove`. -/
inductive cache.Reachable : Dns.cache → Prop where
  | empty : cache.Reachable cache.empty
  | add (c : Dns.cache) (stamp : Nat → Int) (domain : Str) (rrs : List resourceRecord) :
      cache.Reachable c → cache.Reachable (c.Add stamp domain rrs)
  | get (c : Dns.cache) (now : Int) (domain : Str) :
      cache.Reachable c → cache.Reachable (c.Get now domain).2
  | remove (c : Dns.cache) (domain : Str) :
      cache.Reachable c → cache.Reachable (c.remove domain)

/-! ## root.go and resolve.go -/

/-- `type Zone struct`. -/
structure Zone where
  Name : Str
  RRs : Nat → Option (List resourceRecord)

/-- `type Root struct` (the field `SOA`, which the resolver never reads, is
left out). -/
structure Root where
  Zones : Str → Option Zone

/-- The map read `zone.RRs[t]`, which is `nil` for a missing key. -/
def Zone.rrs (z : Zone) (t : Nat) : List resourceRecord := (z.RRs t).getD []

/-- The errors built with `fmt.Errorf` in `resolve.go`, named as in the
specification. -/
inductive ResolveErr where
  | ZoneNotFound (name : Str)
  | TypeNotServed (name : Str) (type : Nat)
  | RecursionLimitExceeded (name : Str)
  | AuthorityUnresolvable (name : Str)
  | UpstreamIOError
  deriving DecidableEq, Repr

/-- The loop of `topLevelDomain`; the argument is `i + 1`. -/
def topLevelDomainLoop (domain : Str) : Nat → Str × Bool
  | 0 => (domain, true)
  | i + 1 =>
    if domain.get? i = some 46 then (domain.drop (i + 1), false)
    else topLevelDomainLoop domain i

/-- `func topLevelDomain(domain string) (string, bool)`. -/
def topLevelDomain (domain : Str) : Str × Bool :=
  topLevelDomainLoop domain (domain.length - 1)

/-- The loop of `resolveTopLevelDomain` that fills `m.Additional`. -/
def additionalLoop (root : Root) : List resourceRecord → List resourceRecord → List resourceRecord
  | [], acc => acc
  | rr :: rest, acc =>
    match root.Zones rr.Data with
    | none => additionalLoop root rest acc
    | some authZone => additionalLoop root rest ((acc ++ authZone.rrs 1) ++ authZone.rrs 28)

/-- `func resolveTopLevelDomain(tld string) (*message, error)`. -/
def resolveTopLevelDomain (root : Root) (tld : Str) : Except ResolveErr message :=
  match root.Zones tld with
  | none => .error (.ZoneNotFound tld)
  | some zone =>
    .ok { message.zero with
      Authority := [] ++ zone.rrs 2
      Additional := additionalLoop root (zone.rrs 2) [] }

/-! ## Concrete inputs used by the witnesses -/

/-- A sample address record. -/
def sampleA (name : String) (ttl : Int) : resourceRecord :=
  { Name := str name, Data := str "192.0.2.1", Class := 1, Type_ := 1, Ttl := ttl }

/-- A sample name-server record. -/
def sampleNS (name target : String) (ttl : Int) : resourceRecord :=
  { Name := str name, Data := str target, Class := 1, Type_ := 2, Ttl := ttl }

/-- A root store with the zone `com.` served by `a.gtld-servers.net.` (which
has an address) and by `b.gtld-servers.net.` (which has no zone). -/
def sampleRoot : Root :=
  { Zones := fun k =>
      if k = str "com." then
        some { Name := str "com.",
               RRs := fun t => if t = 2 then
                 some [sampleNS "com." "a.gtld-servers.net." 172800,
                       sampleNS "com." "b.gtld-servers.net." 172800] else none }
      else if k = str "a.gtld-servers.net." then
        some { Name := str "a.gtld-servers.net.",
               RRs := fun t => if t = 1 then some [sampleA "a.gtld-servers.net." 172800] else none }
      else none }

/-- A cache holding one entry for `example.com.`, stored at time 0. -/
def sampleCache : Dns.cache :=
  cache.empty.Add (fun _ => 0) (str "example.com.")
    [sampleA "example.com." 300, sampleNS "example.com." "ns.example.com." 60, sampleA "example.com." 0]

/-! ## Names on the wire: predicates used to state the codec theorems -/

/-- The text of a name made of the labels `ls`: each label followed by a dot
(the empty list is the root, the empty string). -/
def joinLabels : List Str → Str
  | [] => []
  | l :: ls => l ++ [46] ++ joinLabels ls

/-- A label of 1 to 63 ASCII bytes, none of them a dot. -/
def WfLabel (l : Str) : Prop := 1 ≤ l.length ∧ l.length ≤ 63 ∧ ∀ c ∈ l, c < 128 ∧ c ≠ 46

instance WfLabel.decidable (l : Str) : Decidable (WfLabel l) := by
  unfold WfLabel
  infer_instance

/-- A name of the data model: the text of a list of well-formed labels. -/
def WfName (s : Str) : Prop := ∃ ls : List Str, (∀ l ∈ ls, WfLabel l) ∧ s = joinLabels ls

/-- The bytes `bs` stand in `buf` at offset `pos`. -/
def IsAt (buf : List Nat) (pos : Nat) (bs : List Nat) : Prop :=
  ∃ pre post, buf = pre ++ bs ++ post ∧ pre.length = pos

/-- `Enc buf pos ls e n`: at offset `pos` of `buf` stands an encoding of the
name with labels `ls`, as a run of length-prefixed labels closed by a zero
byte or by a compression pointer to such an encoding; `e` is the offset after
the bytes of this occurrence (a pointer closes it), `n` counts the labels,
pointers and terminator met on the way. -/
inductive Enc (buf : List Nat) : Nat → List Str → Nat → Nat → Prop where
  | nil (pos : Nat) : IsAt buf pos [0] → Enc buf pos [] (pos + 1) 1
  | label (pos : Nat) (l : Str) (ls : List Str) (e n : Nat) :
      WfLabel l → IsAt buf pos (l.length :: l) → Enc buf (pos + 1 + l.length) ls e n →
      Enc buf pos (l :: ls) e (n + 1)
  | ptr (pos t : Nat) (ls : List Str) (e0 n : Nat) :
      t < 16384 → IsAt buf pos [192 + t / 256, t % 256] → Enc buf t ls e0 n →
      Enc buf pos ls (pos + 2) (n + 1)

/-- The table entry `key ↦ v` is sound in `buf`: `v` is a pointer word to an
offset past the header at which the name `key` is encoded, and the name is
shorter than the buffer. -/
def ValidEntry (buf : List Nat) (key : Str) (v : Nat) : Prop :=
  ∃ (ls : List Str) (t e n : Nat), ls ≠ [] ∧ key = joinLabels ls ∧ v = t + 49152 ∧
    12 ≤ t ∧ t < 16384 ∧ Enc buf t ls e n ∧ key.length < buf.length

/-- Every entry of the compression table is sound in `buf`. -/
def CacheOK (buf : List Nat) (nsCache : NsCache) : Prop :=
  ∀ key v, nsCache key = some v → ValidEntry buf key v

/-- The uncompressed wire form of a name: its length-prefixed labels and the
closing zero byte. -/
def plainEncode : List Str → List Nat
  | [] => [0]
  | l :: ls => l.length :: l ++ plainEncode ls

/-- Names written one after another at the end of a buffer through
`labelBytes` with compression and one shared table: the final buffer, the
final table, and the offset at which each name starts. -/
def writeNames : List Str → List Nat → NsCache → Except Err (List Nat × NsCache × List Nat)
  | [], buf, nsCache => .ok (buf, nsCache, [])
  | name :: rest, buf, nsCache =>
    match labelBytes name nsCache true (u16 buf.length) with
    | .error e => .error e
    | .ok (b, ns1) =>
      match writeNames rest (buf ++ b) ns1 with
      | .error e => .error e
      | .ok (out, ns2, offs) => .ok (out, ns2, buf.length :: offs)

/-- A message buffer with three names sharing suffixes, written after a
12-byte header. -/
def sampleNames : List Str := [str "www.Example.com.", str "example.com.", str "mail.example.COM."]

/-- A 12-byte header followed by a compression pointer at offset 12 that
points to offset 12. -/
def loopBuf : List Nat := List.replicate 12 0 ++ [192, 12]

/-- Offset of the last pointer of a chain of `d` pointers (of the name itself
when `d = 0`). -/
def chainStart (d : Nat) : Nat := if d = 0 then 12 else 13 + 2 * d

/-- A chain of `d` pointers, each pointing to the previous one, the first to
offset 12. -/
def chainPtrs : Nat → List Nat
  | 0 => []
  | d + 1 => chainPtrs d ++ be16 (chainStart d + 49152)

/-- A 12-byte header, the name `a.` at offset 12, and a chain of `d` pointers
that ends at that name. -/
def chainBuf (d : Nat) : List Nat := List.replicate 12 0 ++ [1, 97, 0] ++ chainPtrs d

/-! ## Messages of the data model and their parsed form -/

/-- A question as the parser returns it: the name in lower case. -/
def question.norm (q : question) : question := { q with Name := q.Name.map lowerByte }

/-- A record as the parser returns it: the owner name, and the target name of
an NS record, in lower case. -/
def resourceRecord.norm (rr : resourceRecord) : resourceRecord :=
  { rr with
    Name := rr.Name.map lowerByte
    Data := if rr.Type_ = 2 then rr.Data.map lowerByte else rr.Data }

/-- A message as the parser returns it: the four counts set to the section
lengths and every name in lower case. -/
def message.norm (m : message) : message :=
  { Header :=
      { m.Header with
        QDCOUNT := m.Question.length, ANCOUNT := m.Answer.length,
        NSCOUNT := m.Authority.length, ARCOUNT := m.Additional.length }
    Question := m.Question.map question.norm
    Answer := m.Answer.map resourceRecord.norm
    Authority := m.Authority.map resourceRecord.norm
    Additional := m.Additional.map resourceRecord.norm }

/-- A question of the data model: a well-formed name, type and class in the
`uint16` range. -/
def WfQuestion (q : question) : Prop := WfName q.Name ∧ q.Type_ < 65536 ∧ q.Class < 65536

/-- A record of the data model, of a supported type: a well-formed owner
name, class and TTL in the range of their Go types, and data that fits the
type: for A and AAAA an IP literal in the form `net.IP.String` prints, for NS
a well-formed name, for OPT nothing. -/
def WfRR (ip : IPLib) (rr : resourceRecord) : Prop :=
  WfName rr.Name ∧ rr.Class < 65536 ∧ -2147483648 ≤ rr.Ttl ∧ rr.Ttl ≤ 2147483647 ∧
    (((rr.Type_ = 1 ∨ rr.Type_ = 28) ∧ ip.ipString (ip.addrSlice rr.Data) = rr.Data ∧
        (ip.addrSlice rr.Data).length ≤ 16) ∨
      (rr.Type_ = 2 ∧ WfName rr.Data) ∨
      (rr.Type_ = 41 ∧ rr.Data = []))

/-- A message of the data model built from supported types only. -/
def WfMessage (ip : IPLib) (m : message) : Prop :=
  m.Header.ID < 65536 ∧ m.Header.Flags < 65536 ∧
    m.Question.length < 65536 ∧ m.Answer.length < 65536 ∧
    m.Authority.length < 65536 ∧ m.Additional.length < 65536 ∧
    (∀ q ∈ m.Question, WfQuestion q) ∧ (∀ rr ∈ m.Answer, WfRR ip rr) ∧
    (∀ rr ∈ m.Authority, WfRR ip rr) ∧ (∀ rr ∈ m.Additional, WfRR ip rr)

/-- Putting one more record in front of the result of the rest of the loop of
`parseRRs`. -/
def consRR (rr : resourceRecord) :
    Except Err (List resourceRecord × Nat) → Except Err (List resourceRecord × Nat)
  | .error e => .error e
  | .ok (rrs, r6) => .ok (rr :: rrs, r6)

/-- Putting one more question in front of the result of the rest of the loop
of `parseQuestion`. -/
def consQ (q : question) :
    Except Err (List question × Nat) → Except Err (List question × Nat)
  | .error e => .error e
  | .ok (qs, ql) => .ok (q :: qs, ql)

/-- A stand-in for the address library on the one literal used in the sample
messages: `192.0.2.1` and its four bytes. -/
def sampleIP : IPLib :=
  { addrSlice := fun s => if s = str "192.0.2.1" then [192, 0, 2, 1] else []
    ipString := fun b => if b = [192, 0, 2, 1] then str "192.0.2.1" else str "<nil>" }

/-- A response with all four sections, mixed letter case, shared suffixes, a
negative TTL and an empty OPT record owned by the root name. -/
def sampleMessage : message :=
  { Header := { ID := 4660, Flags := 33152, QDCOUNT := 0, ANCOUNT := 0, NSCOUNT := 0, ARCOUNT := 0 }
    Question := [{ Name := str "Example.com.", Type_ := 1, Class := 1 }]
    Answer := [sampleA "example.com." 300]
    Authority := [sampleNS "com." "ns.Example.com." (-5)]
    Additional :=
      [{ Name := [], Data := [], Class := 4096, Type_ := 41, Ttl := 0 }, sampleA "ns.Example.com." 300] }

/-- A message whose only record is an OPT record that carries data. -/
def optDataMessage : message :=
  { message.zero with
    Additional := [{ Name := [], Data := str "x", Class := 4096, Type_ := 41, Ttl := 0 }] }

/-- A message whose only question has a name with one label of 200 bytes. -/
def longLabelMessage : message :=
  { message.zero with
    Question := [{ Name := List.replicate 200 97 ++ [46], Type_ := 1, Class := 1 }] }

/-- A question for the root name. -/
def rootQuestion : question := { Name := [], Type_ := 1, Class := 1 }

/-- A message with `2^16` questions. -/
def manyQuestionsMessage : message :=
  { message.zero with Question := List.replicate 65536 rootQuestion }

/-- A message whose question section fills the buffer up to offset 16397 and
whose two answers have the same owner name `b.`. -/
def bigMessage : message :=
  { message.zero with
    Question := List.replicate 3277 rootQuestion
    Answer := [sampleA "b." 60, sampleA "b." 60] }

/-! ## dns.go : header flags -/

/-- `func (h header) QR() bool`. -/
def header.QR (h : header) : Bool := (h.Flags >>> 15) == 1

/-- `func (h *header) SetQR(v uint16)`. -/
def header.SetQR (h : header) (v : Nat) : header :=
  if v > 1 then h
  else
    let v1 := u16 (v <<< 15)
    if v1 = 0 then { h with Flags := h.Flags &&& ((v1 ^^^ 65535) >>> 1) }
    else { h with Flags := h.Flags ||| v1 }

/-- `func (h header) OPCODE() uint8`. -/
def header.OPCODE (h : header) : Nat := ((h.Flags >>> 11) &&& 0b1111) % 256

/-- `func (h header) AA() bool`. -/
def header.AA (h : header) : Bool := ((h.Flags >>> 10) &&& 0b1) == 1

/-- `func (h header) TC() bool`. -/
def header.TC (h : header) : Bool := ((h.Flags >>> 9) &&& 0b1) == 1

/-- `func (h header) RD() bool`. -/
def header.RD (h : header) : Bool := ((h.Flags >>> 8) &&& 0b1) == 1

/-- `func (h *header) SetRD(v uint16)`. -/
def header.SetRD (h : header) (v : Nat) : header :=
  if v > 1 then h
  else
    let v1 := u16 (v <<< 8)
    if v1 = 0 then { h with Flags := h.Flags &&& 0b1111111011111111 }
    else { h with Flags := h.Flags ||| v1 }

/-- `func (h header) RA() bool`. -/
def header.RA (h : header) : Bool := ((h.Flags >>> 7) &&& 0b1) == 1

/-- `func (h *header) SetRA(v uint16)`. -/
def header.SetRA (h : header) (v : Nat) : header :=
  if v > 1 then h
  else
    let v1 := u16 (v <<< 7)
    if v1 = 0 then { h with Flags := h.Flags &&& 0b1111111101111111 }
    else { h with Flags := h.Flags ||| v1 }

/-- `func (h header) Z() uint8`. -/
def header.Z (h : header) : Nat := ((h.Flags >>> 4) &&& 0b111) % 256

/-- `func (h header) RCODE() uint8`. -/
def header.RCODE (h : header) : Nat := (h.Flags &&& 0b1111) % 256

/-- The value of a flag as a number. -/
def bit (b : Bool) : Nat := if b then 1 else 0

/-! ## resolve.go : resolve and ask -/

/-- The surroundings of the resolver: the root store, the libraries used by
the codec, the fuel handed to `parseMessage`, the upstream servers (`request
addr payload` is the result of the Go function `request`, `none` when it
returns an error), the random source (`intn k n` is the outcome of the `k`-th
draw, made with bound `n`) and the clock (`clock k` is the `k`-th reading, in
nanoseconds). -/
structure Env where
  root : Root
  ul : Str → Str
  ip : IPLib
  parseFuel : Nat
  request : Str → List Nat → Option (List Nat)
  intn : Nat → Nat → Nat
  clock : Nat → Int

/-- The state the resolver works on: the global `answerCache`, the number of
random draws and of clock readings made so far, and the calls of `request`
made so far, oldest first. -/
structure World where
  answerCache : Dns.cache
  draws : Nat
  ticks : Nat
  sent : List (Str × List Nat)

/-- The run-time panics of `resolve` and `ask`: a panic inside the codec or
the cache, `rand.Intn(0)`, the dereference of a nil `*Zone`, and an index out
of range. -/
inductive Panic where
  | codec (e : Err)
  | intnArg
  | nilZone
  | index
  deriving DecidableEq, Repr

/-- How a call of `resolve` or `ask` ends: it returns a message, it returns an
error, it panics, or it is still running when the fuel of the model (the
number of nested calls) is used up. -/
inductive Outcome where
  | ret (m : message)
  | fail (e : ResolveErr)
  | panic (p : Panic)
  | outOfFuel
  deriving DecidableEq, Repr

/-- One draw `rand.Intn(n)` for `n > 0`. -/
def World.draw (env : Env) (w : World) (n : Nat) : Nat × World :=
  (env.intn w.draws n % n, { w with draws := w.draws + 1 })

/-- The call `answerCache.Get(domain)`. -/
def World.cacheGet (env : Env) (w : World) (domain : Str) : Except Err (Option message) × World :=
  ((w.answerCache.Get (env.clock w.ticks) domain).1,
    { w with answerCache := (w.answerCache.Get (env.clock w.ticks) domain).2, ticks := w.ticks + 1 })

/-- The call `answerCache.Add(domain, rrs)`. -/
def World.cacheAdd (env : Env) (w : World) (domain : Str) (rrs : List resourceRecord) : World :=
  { w with
    answerCache := w.answerCache.Add (fun i => env.clock (w.ticks + i)) domain rrs
    ticks := w.ticks + rrs.length }

/-- The call `request(addr, payload)` is recorded. -/
def World.send (w : World) (addr : Str) (payload : List Nat) : World :=
  { w with sent := w.sent ++ [(addr, payload)] }

/-- The loop over `m.Additional` in `ask`: the first record of type A named
like the target of the chosen authority. -/
def findGlue (target : Str) : List resourceRecord → Option resourceRecord
  | [] => none
  | rr :: rest => if rr.Name = target ∧ rr.Type_ = 1 then some rr else findGlue target rest

/-- The query message built by `ask`. -/
def askQuery (id : Nat) (q : question) (rd : Bool) : message :=
  { message.zero with
    Header :=
      if rd then
        (header.SetQR { ID := u16 id, Flags := 0, QDCOUNT := 0, ANCOUNT := 0, NSCOUNT := 0,
                        ARCOUNT := 0 } 0).SetRD 1
      else
        header.SetQR { ID := u16 id, Flags := 0, QDCOUNT := 0, ANCOUNT := 0, NSCOUNT := 0,
                       ARCOUNT := 0 } 0
    Question := [q] }

/-- The two mutually recursive functions of `resolve.go`, as one call. -/
inductive Call where
  | resolve (q : question) (rd : Bool)
  | ask (addr : Str) (q : question) (rd : Bool) (depth : Nat)

/-- The bodies of `func resolve(q question, rd bool) (*message, error)` and
`func ask(addr string, q question, rd bool, depth int) (*message, error)`;
the fuel bounds the number of nested calls. -/
def run (env : Env) : Nat → Call → World → Outcome × World
  | 0, _, w => (.outOfFuel, w)
  | fuel + 1, .resolve q rd, w =>
    match w.cacheGet env q.Name with
    | (.error e, w1) => (.panic (.codec e), w1)
    | (.ok (some m), w1) => (.ret m, w1)
    | (.ok none, w1) =>
      match resolveTopLevelDomain env.root (topLevelDomain q.Name).1 with
      | .error e => (.fail e, w1)
      | .ok m =>
        if (topLevelDomain q.Name).2 || !rd then (.ret m, w1)
        else if m.Authority.length = 0 then (.panic .intnArg, w1)
        else
          match m.Authority.get? (w1.draw env m.Authority.length).1 with
          | none => (.panic .index, (w1.draw env m.Authority.length).2)
          | some owner =>
            match env.root.Zones owner.Data with
            | none => (.panic .nilZone, (w1.draw env m.Authority.length).2)
            | some zone =>
              match zone.RRs q.Type_ with
              | none =>
                (.fail (.TypeNotServed owner.Name q.Type_), (w1.draw env m.Authority.length).2)
              | some ownerRRs =>
                if ownerRRs.length = 0 then
                  (.panic .intnArg, (w1.draw env m.Authority.length).2)
                else
                  match ownerRRs.get?
                    (((w1.draw env m.Authority.length).2).draw env ownerRRs.length).1 with
                  | none =>
                    (.panic .index,
                      (((w1.draw env m.Authority.length).2).draw env ownerRRs.length).2)
                  | some owner2 =>
                    match run env fuel (.ask owner2.Data q true 0)
                      (((w1.draw env m.Authority.length).2).draw env ownerRRs.length).2 with
                    | (.ret m2, w4) => (.ret m2, w4.cacheAdd env q.Name m2.Answer)
                    | r => r
  | fuel + 1, .ask addr q rd depth, w =>
    if 69 ≤ depth then (.fail (.RecursionLimitExceeded q.Name), w)
    else
      match (askQuery (w.draw env 65536).1 q rd).Bytes env.ip with
      | .error e => (.panic (.codec e), (w.draw env 65536).2)
      | .ok payload =>
        match env.request addr payload with
        | none =>
          (.fail .UpstreamIOError,
            ((w.draw env 65536).2.send addr payload))
        | some res =>
          match parseMessage env.ul env.ip env.parseFuel res with
          | .error e =>
            (.panic (.codec e),
              ((w.draw env 65536).2.send addr payload))
          | .ok (m, _) =>
            if !rd || decide (m.Answer.length > 0) || decide (m.Authority.length ≤ 0) then
              (.ret m,
                ((w.draw env 65536).2.send addr payload))
            else
              match m.Authority.get?
                (World.draw env ((w.draw env 65536).2.send addr payload) m.Authority.length).1 with
              | none =>
                (.panic .index,
                  (World.draw env ((w.draw env 65536).2.send addr payload)
                    m.Authority.length).2)
              | some auth =>
                match findGlue auth.Data m.Additional with
                | some rr =>
                  run env fuel (.ask rr.Data q rd (depth + 1))
                    (World.draw env ((w.draw env 65536).2.send addr payload)
                      m.Authority.length).2
                | none =>
                  match run env fuel (.resolve { Name := auth.Data, Type_ := 1, Class := 1 } true)
                    (World.draw env ((w.draw env 65536).2.send addr payload)
                      m.Authority.length).2 with
                  | (.ret m2, w4) =>
                    if m2.Header.ANCOUNT = 0 then (.fail (.AuthorityUnresolvable auth.Data), w4)
                    else
                      match m2.Answer.head? with
                      | none => (.panic .index, w4)
                      | some a => run env fuel (.ask a.Data q rd (depth + 1)) w4
                  | r => r

/-- `func resolve(q question, rd bool) (*message, error)`. -/
def resolve (env : Env) (fuel : Nat) (q : question) (rd : Bool) (w : World) : Outcome × World :=
  run env fuel (.resolve q rd) w

/-- `func ask(addr string, q question, rd bool, depth int) (*message, error)`. -/
def ask (env : Env) (fuel : Nat) (addr : Str) (q : question) (rd : Bool) (depth : Nat)
    (w : World) : Outcome × World :=
  run env fuel (.ask addr q rd depth) w

/-- The loop of `handler` over the questions of the request. -/
def handlerLoop (env : Env) (fuel : Nat) : List question → message → World → Outcome × World
  | [], m, w => (.ret m, w)
  | q :: qs, m, w =>
    match resolve env fuel q m.Header.RD w with
    | (.ret r, w1) =>
      handlerLoop env fuel qs
        { m with
          Answer := m.Answer ++ r.Answer
          Authority := m.Authority ++ r.Authority
          Additional := m.Additional ++ r.Additional } w1
    | (.fail _, w1) => handlerLoop env fuel qs m w1
    | r => r

/-- `func handler(m *message)`: the message after the call. -/
def handler (env : Env) (fuel : Nat) (m : message) (w : World) : Outcome × World :=
  handlerLoop env fuel m.Question { m with Header := (m.Header.SetQR 1).SetRA 1 } w

/-! ## Concrete resolver set-ups used by the witnesses -/

/-- The state at start-up: an empty cache, nothing drawn, read or sent. -/
def World.init : World := { answerCache := cache.empty, draws := 0, ticks := 0, sent := [] }

/-- The sample root store, with upstream servers that never answer, a random
source that always yields 0 and a clock that stands still. -/
def sampleEnv : Env :=
  { root := sampleRoot, ul := id, ip := sampleIP, parseFuel := 64,
    request := fun _ _ => none, intn := fun _ _ => 0, clock := fun _ => 0 }

/-- A request with recursion desired and one question, for the NS records of `com.`. -/
def sampleQuery : message :=
  { message.zero with
    Header := { ID := 7, Flags := 256, QDCOUNT := 1, ANCOUNT := 0, NSCOUNT := 0, ARCOUNT := 0 }
    Question := [{ Name := str "com.", Type_ := 2, Class := 1 }] }

/-- A root store whose only zone, `localhost.`, has an address record and no
NS record. -/
def addressOnlyRoot : Root :=
  { Zones := fun k =>
      if k = str "localhost." then
        some { Name := str "localhost.",
               RRs := fun t => if t = 1 then some [sampleA "localhost." 86400] else none }
      else none }

/-- A root store in which `com.` is served by `a.gtld-servers.net.`, a zone
with one address record. -/
def servedRoot : Root :=
  { Zones := fun k =>
      if k = str "com." then
        some { Name := str "com.",
               RRs := fun t => if t = 2 then
                 some [sampleNS "com." "a.gtld-servers.net." 172800] else none }
      else if k = str "a.gtld-servers.net." then
        some { Name := str "a.gtld-servers.net.",
               RRs := fun t => if t = 1 then some [sampleA "a.gtld-servers.net." 172800] else none }
      else none }

/-- A referral for `example.com.` to `ns.example.com.`, with the address of
that server as glue. -/
def glueReferral : message :=
  { message.zero with
    Header := { ID := 0, Flags := 33024, QDCOUNT := 0, ANCOUNT := 0, NSCOUNT := 0, ARCOUNT := 0 }
    Authority := [sampleNS "example.com." "ns.example.com." 3600]
    Additional := [sampleA "ns.example.com." 3600] }

/-- The same referral without the glue record. -/
def bareReferral : message :=
  { message.zero with
    Header := { ID := 0, Flags := 33024, QDCOUNT := 0, ANCOUNT := 0, NSCOUNT := 0, ARCOUNT := 0 }
    Authority := [sampleNS "example.com." "ns.example.com." 3600] }

/-- The bytes of a message, empty if it cannot be written. -/
def wire (m : message) : List Nat :=
  match m.Bytes sampleIP with
  | .ok b => b
  | .error _ => []

/-- The root store `servedRoot` with upstream servers that answer every query
with the bytes `res`. -/
def constEnv (res : List Nat) : Env :=
  { root := servedRoot, ul := id, ip := sampleIP, parseFuel := 64,
    request := fun _ _ => some res, intn := fun _ _ => 0, clock := fun _ => 0 }

/-- A state whose cache holds the address of `ns.example.com.`, stored at time 0. -/
def glueCachedWorld : World :=
  { World.init with
    answerCache := cache.empty.Add (fun _ => 0) (str "ns.example.com.")
      [sampleA "ns.example.com." 300] }

/-- The question for the address of `example.com.`. -/
def sampleQuestion : question := { Name := str "example.com.", Type_ := 1, Class := 1 }

/-! ## The resource records on the wire, as the specification counts them -/

/-- The `count` records that stand on the wire from offset `pos` on, supported
or not, each with the number of bytes it takes: the length of the encoded
owner name, the 10 bytes of type, class, TTL and RDLENGTH, and RDLENGTH bytes
of data. Offsets are `uint16` values. -/
def wireRecords (ul : Str → Str) (ip : IPLib) (fuel : Nat) (buf : List Nat) :
    Nat → Nat → Except Err (List (resourceRecord × Nat))
  | 0, _ => .ok []
  | n + 1, pos =>
    match parseLabel ul fuel pos buf with
    | .error e => .error e
    | .ok (label, ll) =>
      match readU16 buf (u16 (pos + ll)) with
      | .error e => .error e
      | .ok ty =>
        match readU16 buf (u16 (pos + ll + 2)) with
        | .error e => .error e
        | .ok cl =>
          match readU32 buf (u16 (pos + ll + 4)) with
          | .error e => .error e
          | .ok ttl =>
            match readU16 buf (u16 (pos + ll + 8)) with
            | .error e => .error e
            | .ok rdLen =>
              match parseRData ul ip fuel buf (u16 (pos + ll + 10)) rdLen ty with
              | .error e => .error e
              | .ok data =>
                match wireRecords ul ip fuel buf n (u16 (pos + (ll + 10 + rdLen))) with
                | .error e => .error e
                | .ok rest =>
                  .ok (({ Name := label, Data := data, Class := cl, Type_ := ty,
                          Ttl := toInt32 ttl }, ll + 10 + rdLen) :: rest)

/-- What the specification says `parseRRs` returns, given the records on the
wire: the supported ones in wire order, and the sum of the sizes of all of
them. -/
def keptRecords (rs : List (resourceRecord × Nat)) : List resourceRecord × Nat :=
  ((rs.map Prod.fst).filter (fun rr => supportedTypes rr.Type_), (rs.map Prod.snd).sum)

/-- One record of the unsupported type 99 at offset 0, whose RDLENGTH field
holds 65535. -/
def wrapBuf : List Nat := [0, 0, 99, 0, 1, 0, 0, 0, 0, 255, 255]

/-! ## dns.go : SetRCODE -/

/-- `func (h *header) SetRCODE(v uint16)`. -/
def header.SetRCODE (h : header) (v : Nat) : header :=
  if v > 15 then h
  else { h with Flags := h.Flags &&& (v ||| 0b1111111111110000) }

/-! # Theorems -/

/-! ## resolve.go : topLevelDomain -/

theorem topLevelDomainLoop_none (d : Str) (k : Nat) (h : ∀ i, i < k → d.get? i ≠ some 46) :
    topLevelDomainLoop d k = (d, true) := by
  induction k with
  | zero => rfl
  | succ k ih =>
    have hk : d.get? k ≠ some 46 := h k (Nat.lt_succ_self k)
    simp only [topLevelDomainLoop, hk, if_false]
    exact ih (fun i hi => h i (Nat.lt_succ_of_lt hi))

theorem topLevelDomainLoop_some (d : Str) (k : Nat) (h : ∃ i, i < k ∧ d.get? i = some 46) :
    ∃ j, j < k ∧ d.get? j = some 46 ∧ (∀ i, i < k → d.get? i = some 46 → i ≤ j) ∧
      topLevelDomainLoop d k = (d.drop (j + 1), false) := by
  induction k with
  | zero => obtain ⟨i, hi, _⟩ := h; omega
  | succ k ih =>
    by_cases hk : d.get? k = some 46
    · refine ⟨k, Nat.lt_succ_self k, hk, fun i hi _ => Nat.le_of_lt_succ hi, ?_⟩
      simp only [topLevelDomainLoop, hk, if_true]
    · obtain ⟨i, hi, hi46⟩ := h
      have hik : i < k := by
        rcases Nat.lt_succ_iff_lt_or_eq.mp hi with h1 | h1
        · exact h1
        · subst h1; exact absurd hi46 hk
      obtain ⟨j, hj, hj46, hmax, heq⟩ := ih ⟨i, hik, hi46⟩
      refine ⟨j, Nat.lt_succ_of_lt hj, hj46, ?_, ?_⟩
      · intro i2 hi2 h46
        rcases Nat.lt_succ_iff_lt_or_eq.mp hi2 with h1 | h1
        · exact hmax i2 h1 h46
        · subst h1; exact absurd h46 hk
      · simp only [topLevelDomainLoop, hk, if_false]
        exact heq

/-- C8. `topLevelDomain d` returns everything after the last dot found at an
index `0 ≤ i ≤ len(d) - 2`, with `false`; without such a dot it returns
`(d, true)`.  In particular `"example.com."` gives `("com.", false)`,
`"com."` gives `("com.", true)` and `"x"` gives `("x", true)`. -/
theorem topLevelDomain_spec (d : Str) :
    ((∃ i, i + 2 ≤ d.length ∧ d.get? i = some 46) →
      ∃ j, j + 2 ≤ d.length ∧ d.get? j = some 46 ∧
        (∀ i, i + 2 ≤ d.length → d.get? i = some 46 → i ≤ j) ∧
        topLevelDomain d = (d.drop (j + 1), false)) ∧
    ((¬ ∃ i, i + 2 ≤ d.length ∧ d.get? i = some 46) → topLevelDomain d = (d, true)) ∧
    topLevelDomain (str "example.com.") = (str "com.", false) ∧
    topLevelDomain (str "com.") = (str "com.", true) ∧
    topLevelDomain (str "x") = (str "x", true) := by
  refine ⟨?_, ?_, by decide, by decide, by decide⟩
  · rintro ⟨i, hi, h46⟩
    obtain ⟨j, hj, hj46, hmax, heq⟩ :=
      topLevelDomainLoop_some d (d.length - 1) ⟨i, by omega, h46⟩
    exact ⟨j, by omega, hj46, fun i2 hi2 h2 => hmax i2 (by omega) h2, heq⟩
  · intro h
    apply topLevelDomainLoop_none
    intro i hi h46
    exact h ⟨i, by omega, h46⟩

/-- C9 (as stated, refuted). On `"a.b.c."` the code returns the last label
`("c.", false)`, not the parent `("b.c.", false)`. -/
theorem topLevelDomain_abc_not_parent :
    topLevelDomain (str "a.b.c.") = (str "c.", false) ∧
    topLevelDomain (str "a.b.c.") ≠ (str "b.c.", false) := by
  decide

/-- C9 (amended). For every name that ends in `.l.` with a dot-free `l`
(a dot-terminated name of at least two labels), `topLevelDomain` returns the
last label with its dot, `(l ++ ".", false)`, whatever precedes it. -/
theorem topLevelDomain_last_label (pre l : Str) (hl : 46 ∉ l) :
    topLevelDomain (pre ++ [46] ++ l ++ [46]) = (l ++ [46], false) := by
  have hlen : (pre ++ [46] ++ l ++ [46]).length - 1 = pre.length + 1 + l.length := by
    simp only [List.length_append, List.length_singleton]; omega
  have hdot : (pre ++ [46] ++ l ++ [46]).get? pre.length = some 46 := by
    have e : pre ++ [46] ++ l ++ [46] = pre ++ (46 :: (l ++ [46])) := by simp
    rw [e, List.get?_eq_getElem?, List.getElem?_append_right (Nat.le_refl _)]
    simp
  obtain ⟨j, hj, hj46, hmax, heq⟩ :=
    topLevelDomainLoop_some (pre ++ [46] ++ l ++ [46]) ((pre ++ [46] ++ l ++ [46]).length - 1)
      ⟨pre.length, by rw [hlen]; omega, hdot⟩
  have hge : pre.length ≤ j := hmax pre.length (by rw [hlen]; omega) hdot
  have hjeq : j = pre.length := by
    by_contra hne
    have hgt : pre.length + 1 ≤ j := by omega
    rw [hlen] at hj
    have h1 : (pre ++ [46] ++ l ++ [46]).get? j = l.get? (j - (pre.length + 1)) := by
      have e : pre ++ [46] ++ l ++ [46] = (pre ++ [46]) ++ (l ++ [46]) := by simp
      rw [e, List.get?_eq_getElem?, List.get?_eq_getElem?,
        List.getElem?_append_right (by simp; omega)]
      simp only [List.length_append, List.length_singleton]
      rw [List.getElem?_append_left (by omega)]
    rw [h1] at hj46
    exact hl (List.get?_mem hj46)
  unfold topLevelDomain
  rw [heq, hjeq]
  have e : pre ++ [46] ++ l ++ [46] = (pre ++ [46]) ++ (l ++ [46]) := by simp
  rw [e]
  have : (pre ++ [46]).length = pre.length + 1 := by simp
  rw [← this, List.drop_left]

theorem topLevelDomain_last_label_witness :
    46 ∉ str "com" ∧
    topLevelDomain (str "www.example" ++ [46] ++ str "com" ++ [46]) = (str "com" ++ [46], false) :=
  ⟨by decide, topLevelDomain_last_label (str "www.example") (str "com") (by decide)⟩

/-! ## resolve.go : resolveTopLevelDomain -/

theorem additionalLoop_eq (root : Root) (rrs acc : List resourceRecord) :
    additionalLoop root rrs acc =
      acc ++ (rrs.map (fun rr =>
        match root.Zones rr.Data with
        | none => []
        | some z => z.rrs 1 ++ z.rrs 28)).flatten := by
  induction rrs generalizing acc with
  | nil => simp [additionalLoop]
  | cons rr rest ih =>
    cases hz : root.Zones rr.Data with
    | none => simp [additionalLoop, hz, ih]
    | some z => simp [additionalLoop, hz, ih]

/-- C10. `resolveTopLevelDomain tld` fails exactly when `tld` is not a key of
`root.Zones`, and then with `ZoneNotFound`; otherwise it returns a message
with empty Question and Answer, the zone's NS records as Authority, and as
Additional the A records followed by the AAAA records of the zone of each NS
target in order, targets without a zone being skipped. -/
theorem resolveTopLevelDomain_spec (root : Root) (tld : Str) :
    ((∃ e, resolveTopLevelDomain root tld = .error e) ↔ root.Zones tld = none) ∧
    (root.Zones tld = none → resolveTopLevelDomain root tld = .error (.ZoneNotFound tld)) ∧
    (∀ zone, root.Zones tld = some zone →
      resolveTopLevelDomain root tld = .ok
        { Header := message.zero.Header
          Question := []
          Answer := []
          Authority := zone.rrs 2
          Additional := ((zone.rrs 2).map (fun rr =>
            match root.Zones rr.Data with
            | none => []
            | some z => z.rrs 1 ++ z.rrs 28)).flatten }) := by
  refine ⟨?_, ?_, ?_⟩
  · cases hz : root.Zones tld with
    | none => simp [resolveTopLevelDomain, hz]
    | some z => simp [resolveTopLevelDomain, hz]
  · intro hz
    simp [resolveTopLevelDomain, hz]
  · intro zone hz
    simp [resolveTopLevelDomain, hz, additionalLoop_eq, message.zero]

/-! ## cache.go -/

theorem toInt32_int32Bits (x : Int) (h1 : -2147483648 ≤ x) (h2 : x ≤ 2147483647) :
    toInt32 (int32Bits x) = x := by
  unfold toInt32 int32Bits
  have hnn : 0 ≤ x % 4294967296 := Int.emod_nonneg x (by norm_num)
  have hlt : x % 4294967296 < 4294967296 := Int.emod_lt_of_pos x (by norm_num)
  have hcast : (((x % 4294967296).toNat : Nat) : Int) = x % 4294967296 := Int.toNat_of_nonneg hnn
  have hmod : (x % 4294967296).toNat % 4294967296 = (x % 4294967296).toNat := by
    apply Nat.mod_eq_of_lt
    omega
  rw [hmod]
  split
  · omega
  · omega

theorem minTtlLoop_spec (l : List cachedRR) (m : cachedRR) :
    (minTtlLoop l m = m ∨ minTtlLoop l m ∈ l) ∧ (minTtlLoop l m).rr.Ttl ≤ m.rr.Ttl ∧
      ∀ x ∈ l, (minTtlLoop l m).rr.Ttl ≤ x.rr.Ttl := by
  induction l generalizing m with
  | nil => simp [minTtlLoop]
  | cons c rest ih =>
    by_cases hc : c.rr.Ttl < m.rr.Ttl
    · simp only [minTtlLoop, hc, if_true]
      obtain ⟨hmem, hle, hall⟩ := ih c
      refine ⟨?_, by omega, ?_⟩
      · rcases hmem with h | h
        · rw [h]; exact Or.inr (List.mem_cons_self _ _)
        · exact Or.inr (List.mem_cons_of_mem _ h)
      · intro x hx
        rcases List.mem_cons.mp hx with h | h
        · subst h; exact hle
        · exact hall x h
    · simp only [minTtlLoop, hc, if_false]
      obtain ⟨hmem, hle, hall⟩ := ih m
      refine ⟨?_, hle, ?_⟩
      · rcases hmem with h | h
        · exact Or.inl h
        · exact Or.inr (List.mem_cons_of_mem _ h)
      · intro x hx
        rcases List.mem_cons.mp hx with h | h
        · subst h; omega
        · exact hall x h

theorem minTtlCrr_spec (crrs : List cachedRR) (m : cachedRR) (hm : minTtlCrr crrs = some m) :
    m ∈ crrs ∧ ∀ x ∈ crrs, m.rr.Ttl ≤ x.rr.Ttl := by
  cases crrs with
  | nil => simp [minTtlCrr] at hm
  | cons c0 rest =>
    simp only [minTtlCrr, Option.some.injEq] at hm
    subst hm
    obtain ⟨hmem, _, hall⟩ := minTtlLoop_spec (c0 :: rest) c0
    refine ⟨?_, hall⟩
    rcases hmem with h | h
    · rw [h]; exact List.mem_cons_self _ _
    · exact h

theorem ageInt32_eq (t : Int) (h0 : 0 ≤ t) (h1 : t / nsPerSec ≤ 2147483647) :
    ageInt32 t = t / nsPerSec := by
  unfold ageInt32
  have hdiv : Int.tdiv t nsPerSec = t / nsPerSec :=
    Int.tdiv_eq_ediv h0 (by unfold nsPerSec; norm_num)
  rw [hdiv]
  have hnn : 0 ≤ t / nsPerSec := Int.ediv_nonneg h0 (by unfold nsPerSec; norm_num)
  exact toInt32_int32Bits _ (by omega) h1

theorem answerLoop_eq (t : Int) (crrs : List cachedRR) (h0 : 0 ≤ t)
    (hr : ∀ x ∈ crrs, t / nsPerSec ≤ x.rr.Ttl ∧ x.rr.Ttl ≤ 2147483647) :
    answerLoop t crrs =
      (crrs.filter (fun x => decide (x.rr.Type_ = 1 ∨ x.rr.Type_ = 28))).map
        (fun x => { x.rr with Ttl := x.rr.Ttl - t / nsPerSec }) := by
  induction crrs with
  | nil => simp [answerLoop]
  | cons c rest ih =>
    have hc := hr c (List.mem_cons_self _ _)
    have hrest := ih (fun x hx => hr x (List.mem_cons_of_mem _ hx))
    have hnn : 0 ≤ t / nsPerSec := Int.ediv_nonneg h0 (by unfold nsPerSec; norm_num)
    have hsub : subTtl c.rr.Ttl t = c.rr.Ttl - t / nsPerSec := by
      unfold subTtl
      rw [ageInt32_eq t h0 (by omega)]
      exact toInt32_int32Bits _ (by omega) (by omega)
    by_cases hty : c.rr.Type_ = 1 ∨ c.rr.Type_ = 28
    · simp only [answerLoop, hty, if_true, hsub, hrest, List.filter_cons, decide_True,
        List.map_cons]
    · simp only [answerLoop, hty, if_false, hrest, List.filter_cons, decide_False]
      simp

theorem div_le_of_le_mul (t tau : Int) (h : t ≤ tau * nsPerSec) : t / nsPerSec ≤ tau := by
  have hpos : (0 : Int) < nsPerSec := by unfold nsPerSec; norm_num
  have := Int.ediv_le_ediv hpos h
  rwa [Int.mul_ediv_cancel _ (ne_of_gt hpos)] at this

/-- C4. When the entry of `d` is non-empty and the age of the record chosen as
`minTtlCrr` (a record of the entry with the smallest TTL) lies between 0 and
that TTL, `Get d` is a hit whose Answer lists exactly the stored records of
type 1 or 28, in stored order, each with its TTL lowered by the whole seconds
of that age; with an age below one second the TTLs are the original ones. -/
theorem cache_Get_hit (c : Dns.cache) (now : Int) (d : Str) (crrs : List cachedRR) (m : cachedRR)
    (hc : c.cache d = some crrs) (hm : minTtlCrr crrs = some m)
    (hrange : ∀ x ∈ crrs, -2147483648 ≤ x.rr.Ttl ∧ x.rr.Ttl ≤ 2147483647)
    (h0 : 0 ≤ now - m.createdAt) (h1 : now - m.createdAt ≤ m.rr.Ttl * nsPerSec) :
    m ∈ crrs ∧ (∀ x ∈ crrs, m.rr.Ttl ≤ x.rr.Ttl) ∧
    (c.Get now d).1 = .ok (some { message.zero with
      Answer := (crrs.filter (fun x => decide (x.rr.Type_ = 1 ∨ x.rr.Type_ = 28))).map
        (fun x => { x.rr with Ttl := x.rr.Ttl - (now - m.createdAt) / nsPerSec }) }) ∧
    (now - m.createdAt < nsPerSec →
      (c.Get now d).1 = .ok (some { message.zero with
        Answer := (crrs.filter (fun x => decide (x.rr.Type_ = 1 ∨ x.rr.Type_ = 28))).map
          (fun x => x.rr) })) := by
  obtain ⟨hmem, hmin⟩ := minTtlCrr_spec crrs m hm
  have hdiv : (now - m.createdAt) / nsPerSec ≤ m.rr.Ttl := div_le_of_le_mul _ _ h1
  have hans := answerLoop_eq (now - m.createdAt) crrs h0
    (fun x hx => ⟨le_trans hdiv (hmin x hx), (hrange x hx).2⟩)
  have hget : (c.Get now d).1 = .ok (some { message.zero with
      Answer := (crrs.filter (fun x => decide (x.rr.Type_ = 1 ∨ x.rr.Type_ = 28))).map
        (fun x => { x.rr with Ttl := x.rr.Ttl - (now - m.createdAt) / nsPerSec }) }) := by
    have hnot : ¬ (now - m.createdAt > m.rr.Ttl * nsPerSec) := not_lt.mpr h1
    simp only [cache.Get, hc, hm, hnot, if_false, hans]
  refine ⟨hmem, hmin, hget, ?_⟩
  intro hlt
  have hzero : (now - m.createdAt) / nsPerSec = 0 :=
    Int.ediv_eq_zero_of_lt h0 hlt
  rw [hget, hzero]
  simp

theorem cache_Get_hit_witness :
    (0 : Int) ≤ 42500000000 - 0 ∧
    (sampleCache.Get 42500000000 (str "example.com.")).1 = .ok (some { message.zero with
      Answer := [{ sampleA "example.com." 300 with Ttl := 258 }] }) := by
  have h := cache_Get_hit sampleCache 42500000000 (str "example.com.")
    [{ rr := sampleA "example.com." 300, createdAt := 0 },
     { rr := sampleNS "example.com." "ns.example.com." 60, createdAt := 0 }]
    { rr := sampleNS "example.com." "ns.example.com." 60, createdAt := 0 }
    (by decide) (by decide) (by decide) (by decide) (by decide)
  refine ⟨by decide, ?_⟩
  rw [h.2.2.1]
  rfl

/-- C5. For a non-empty entry of `d` whose `minTtlCrr` has the smallest TTL
`tau`: when the age of that record exceeds `tau`, `Get d` is a miss and the
cache afterwards has no entry for `d` and the same entries for every other
domain; when the age is at most `tau` the cache is left as it was. -/
theorem cache_Get_expiry (c : Dns.cache) (now : Int) (d : Str) (crrs : List cachedRR) (m : cachedRR)
    (hc : c.cache d = some crrs) (hm : minTtlCrr crrs = some m) :
    (m ∈ crrs ∧ ∀ x ∈ crrs, m.rr.Ttl ≤ x.rr.Ttl) ∧
    (now - m.createdAt > m.rr.Ttl * nsPerSec →
      (c.Get now d).1 = .ok none ∧ (c.Get now d).2.cache d = none ∧
      ∀ k, k ≠ d → (c.Get now d).2.cache k = c.cache k) ∧
    (now - m.createdAt ≤ m.rr.Ttl * nsPerSec →
      (c.Get now d).2 = c ∧ (c.Get now d).2.cache d = some crrs) := by
  refine ⟨minTtlCrr_spec crrs m hm, ?_, ?_⟩
  · intro hgt
    simp only [cache.Get, hc, hm, hgt, if_true, cache.remove, true_and]
    intro k hk
    simp [hk]
  · intro hle
    have hnot : ¬ (now - m.createdAt > m.rr.Ttl * nsPerSec) := not_lt.mpr hle
    simp only [cache.Get, hc, hm, hnot, if_false, true_and]

theorem cache_Get_expiry_witness :
    (sampleCache.Get 60000000001 (str "example.com.")).1 = .ok none ∧
    (sampleCache.Get 60000000001 (str "example.com.")).2.cache (str "example.com.") = none ∧
    (sampleCache.Get 60000000000 (str "example.com.")).2 = sampleCache := by
  have h := cache_Get_expiry sampleCache 60000000001 (str "example.com.")
    [{ rr := sampleA "example.com." 300, createdAt := 0 },
     { rr := sampleNS "example.com." "ns.example.com." 60, createdAt := 0 }]
    { rr := sampleNS "example.com." "ns.example.com." 60, createdAt := 0 }
    (by decide) (by decide)
  have h2 := cache_Get_expiry sampleCache 60000000000 (str "example.com.")
    [{ rr := sampleA "example.com." 300, createdAt := 0 },
     { rr := sampleNS "example.com." "ns.example.com." 60, createdAt := 0 }]
    { rr := sampleNS "example.com." "ns.example.com." 60, createdAt := 0 }
    (by decide) (by decide)
  have hgt := h.2.1 (by decide)
  exact ⟨hgt.1, hgt.2.1, (h2.2.2 (by decide)).1⟩

theorem addLoop_nil_of_nonpos (stamp : Nat → Int) (rrs : List resourceRecord) (i : Nat)
    (h : ∀ rr ∈ rrs, rr.Ttl ≤ 0) : addLoop stamp rrs i = [] := by
  induction rrs generalizing i with
  | nil => rfl
  | cons rr rest ih =>
    have hrr : rr.Ttl ≤ 0 := h rr (List.mem_cons_self _ _)
    simp only [addLoop, hrr, if_true]
    exact ih (i + 1) (fun x hx => h x (List.mem_cons_of_mem _ hx))

theorem addLoop_pos (stamp : Nat → Int) (rrs : List resourceRecord) (i : Nat) :
    ∀ x ∈ addLoop stamp rrs i, 0 < x.rr.Ttl := by
  induction rrs generalizing i with
  | nil => simp [addLoop]
  | cons rr rest ih =>
    by_cases hrr : rr.Ttl ≤ 0
    · simp only [addLoop, hrr, if_true]
      exact ih (i + 1)
    · simp only [addLoop, hrr, if_false]
      intro x hx
      rcases List.mem_cons.mp hx with h | h
      · subst h; simpa using hrr
      · exact ih (i + 1) x h

theorem addLoop_map_rr (stamp : Nat → Int) (rrs : List resourceRecord) (i : Nat) :
    (addLoop stamp rrs i).map (fun x => x.rr) = rrs.filter (fun rr => decide (0 < rr.Ttl)) := by
  induction rrs generalizing i with
  | nil => rfl
  | cons rr rest ih =>
    by_cases hrr : rr.Ttl ≤ 0
    · have hn : ¬ 0 < rr.Ttl := not_lt.mpr hrr
      simp only [addLoop, hrr, if_true, List.filter_cons, hn, decide_False]
      simpa using ih (i + 1)
    · have hp : 0 < rr.Ttl := not_le.mp hrr
      simp only [addLoop, hrr, if_false, List.filter_cons, hp, decide_True, List.map_cons,
        if_true]
      rw [ih (i + 1)]

/-- C6 (evaluation of the code). After `Add d rrs` with no record of positive
TTL the entry of `d` is an empty slice, and the next `Get d` does not return a
miss: it indexes `crrs[0]` and panics. -/
theorem cache_Get_after_rejected_Add_panics (c : Dns.cache) (stamp : Nat → Int) (d : Str)
    (rrs : List resourceRecord) (now : Int) (h : ∀ rr ∈ rrs, rr.Ttl ≤ 0) :
    (c.Add stamp d rrs).cache d = some [] ∧
    ((c.Add stamp d rrs).Get now d).1 = .error .outOfRange ∧
    ((c.Add stamp d rrs).Get now d).1 ≠ .ok none := by
  have hentry : (c.Add stamp d rrs).cache d = some [] := by
    simp [cache.Add, addLoop_nil_of_nonpos stamp rrs 0 h]
  have hget : ((c.Add stamp d rrs).Get now d).1 = .error .outOfRange := by
    simp only [cache.Get, hentry, minTtlCrr]
  refine ⟨hentry, hget, ?_⟩
  rw [hget]
  simp

theorem cache_Get_after_rejected_Add_panics_witness :
    ((cache.empty.Add (fun _ => 0) (str "example.com.") []).Get 1 (str "example.com.")).1
        = .error .outOfRange ∧
    ((cache.empty.Add (fun _ => 0) (str "example.com.")
        [sampleA "example.com." 0, sampleA "example.com." (-7)]).Get 1 (str "example.com.")).1
        = .error .outOfRange :=
  ⟨(cache_Get_after_rejected_Add_panics cache.empty (fun _ => 0) (str "example.com.") [] 1
      (by decide)).2.1,
   (cache_Get_after_rejected_Add_panics cache.empty (fun _ => 0) (str "example.com.")
      [sampleA "example.com." 0, sampleA "example.com." (-7)] 1 (by decide)).2.1⟩

theorem cache_Get_state (c : Dns.cache) (now : Int) (d : Str) :
    (c.Get now d).2 = c ∨ (c.Get now d).2 = c.remove d := by
  cases hcd : c.cache d with
  | none => left; simp only [cache.Get, hcd]
  | some crrs =>
    cases hm : minTtlCrr crrs with
    | none => left; simp only [cache.Get, hcd, hm]
    | some m =>
      by_cases ht : now - m.createdAt > m.rr.Ttl * nsPerSec
      · right; simp only [cache.Get, hcd, hm, ht, if_true]
      · left; simp only [cache.Get, hcd, hm, ht, if_false]

theorem cache_stored_ttl_pos (c : Dns.cache) (h : cache.Reachable c) :
    ∀ d crrs, c.cache d = some crrs → ∀ x ∈ crrs, 0 < x.rr.Ttl := by
  induction h with
  | empty => intro d crrs hd; simp [cache.empty] at hd
  | add c stamp domain rrs _ ih =>
    intro d crrs hd
    by_cases hk : d = domain
    · simp only [cache.Add, hk, if_true, Option.some.injEq] at hd
      subst hd
      exact addLoop_pos stamp rrs 0
    · simp only [cache.Add, hk, if_false] at hd
      exact ih d crrs hd
  | get c now domain _ ih =>
    intro d crrs hd
    rcases cache_Get_state c now domain with hs | hs
    · rw [hs] at hd; exact ih d crrs hd
    · rw [hs] at hd
      by_cases hk : d = domain
      · simp [cache.remove, hk] at hd
      · simp only [cache.remove, hk, if_false] at hd
        exact ih d crrs hd
  | remove c domain _ ih =>
    intro d crrs hd
    by_cases hk : d = domain
    · simp [cache.remove, hk] at hd
    · simp only [cache.remove, hk, if_false] at hd
      exact ih d crrs hd

/-- C7. In every cache state reachable from the empty cache by `Add`, `Get`
and `remove`, every stored record has a positive TTL; and `Add d rrs` makes
the entry of `d` exactly the records of `rrs` with positive TTL, in input
order, whatever was stored before, leaving the other domains untouched. -/
theorem cache_invariant (c : Dns.cache) (h : cache.Reachable c) :
    (∀ d crrs, c.cache d = some crrs → ∀ x ∈ crrs, 0 < x.rr.Ttl) ∧
    (∀ (stamp : Nat → Int) (d : Str) (rrs : List resourceRecord),
      (∃ crrs, (c.Add stamp d rrs).cache d = some crrs ∧
        crrs.map (fun x => x.rr) = rrs.filter (fun rr => decide (0 < rr.Ttl))) ∧
      ∀ k, k ≠ d → (c.Add stamp d rrs).cache k = c.cache k) := by
  refine ⟨cache_stored_ttl_pos c h, ?_⟩
  intro stamp d rrs
  refine ⟨⟨addLoop stamp rrs 0, by simp [cache.Add], addLoop_map_rr stamp rrs 0⟩, ?_⟩
  intro k hk
  simp [cache.Add, hk]

theorem cache_invariant_witness :
    cache.Reachable sampleCache ∧
    (∀ d crrs, sampleCache.cache d = some crrs → ∀ x ∈ crrs, 0 < x.rr.Ttl) :=
  ⟨cache.Reachable.add _ _ _ _ cache.Reachable.empty,
   (cache_invariant sampleCache (cache.Reachable.add _ _ _ _ cache.Reachable.empty)).1⟩

/-! ## dns.go : reading bytes at an offset -/

theorem u16_of_lt (n : Nat) (h : n < 65536) : u16 n = n := Nat.mod_eq_of_lt h

theorem IsAt.bound {buf : List Nat} {pos : Nat} {bs : List Nat} (h : IsAt buf pos bs) :
    pos + bs.length ≤ buf.length := by
  obtain ⟨pre, post, rfl, rfl⟩ := h
  simp only [List.length_append]
  omega

theorem IsAt.append_right {buf : List Nat} {pos : Nat} {bs : List Nat} (h : IsAt buf pos bs)
    (ext : List Nat) : IsAt (buf ++ ext) pos bs := by
  obtain ⟨pre, post, rfl, rfl⟩ := h
  exact ⟨pre, post ++ ext, by simp, rfl⟩

theorem IsAt.self (pre bs : List Nat) : IsAt (pre ++ bs) pre.length bs :=
  ⟨pre, [], by simp, rfl⟩

theorem IsAt.left {buf : List Nat} {pos : Nat} {as bs : List Nat} (h : IsAt buf pos (as ++ bs)) :
    IsAt buf pos as := by
  obtain ⟨pre, post, rfl, rfl⟩ := h
  exact ⟨pre, bs ++ post, by simp, rfl⟩

theorem IsAt.right {buf : List Nat} {pos : Nat} {as bs : List Nat} (h : IsAt buf pos (as ++ bs)) :
    IsAt buf (pos + as.length) bs := by
  obtain ⟨pre, post, rfl, rfl⟩ := h
  exact ⟨pre ++ as, post, by simp, by simp⟩

theorem IsAt.get?_eq {buf : List Nat} {pos : Nat} {b : Nat} {bs : List Nat}
    (h : IsAt buf pos (b :: bs)) : buf.get? pos = some b := by
  obtain ⟨pre, post, rfl, rfl⟩ := h
  rw [List.get?_eq_getElem?, List.append_assoc, List.getElem?_append_right (Nat.le_refl _)]
  simp

theorem IsAt.slice_eq {buf : List Nat} {pos : Nat} {bs : List Nat} (h : IsAt buf pos bs) :
    slice buf pos (pos + bs.length) = .ok bs := by
  have hb := h.bound
  obtain ⟨pre, post, rfl, rfl⟩ := h
  unfold slice
  rw [if_pos ⟨Nat.le_add_right _ _, hb⟩]
  have : pre.length + bs.length - pre.length = bs.length := by omega
  rw [this, List.append_assoc, List.drop_left, List.take_left]

theorem lowerByte_lt {c : Nat} (h : c < 128) : lowerByte c < 128 := by
  unfold lowerByte; split <;> omega

theorem lowerByte_idem (c : Nat) : lowerByte (lowerByte c) = lowerByte c := by
  unfold lowerByte
  by_cases h : 65 ≤ c ∧ c ≤ 90
  · rw [if_pos h]; rw [if_neg (by omega)]
  · rw [if_neg h, if_neg h]

theorem ToLower_ascii (ul : Str → Str) (s : Str) (h : ∀ c ∈ s, c < 128) :
    ToLower ul s = s.map lowerByte := by
  unfold ToLower
  rw [if_pos]
  simpa using h

theorem joinLabels_ascii (ls : List Str) (h : ∀ l ∈ ls, WfLabel l) :
    ∀ c ∈ joinLabels ls, c < 128 := by
  induction ls with
  | nil => simp [joinLabels]
  | cons l ls ih =>
    intro c hc
    simp only [joinLabels, List.mem_append, List.mem_singleton] at hc
    rcases hc with (hc | hc) | hc
    · exact ((h l (List.mem_cons_self _ _)).2.2 c hc).1
    · omega
    · exact ih (fun x hx => h x (List.mem_cons_of_mem _ hx)) c hc

theorem Enc.bounds {buf : List Nat} {pos : Nat} {ls : List Str} {e n : Nat}
    (h : Enc buf pos ls e n) : pos < e ∧ e ≤ buf.length ∧ 1 ≤ n := by
  induction h with
  | nil pos h0 => have := h0.bound; simp at this; omega
  | label pos l ls e n _ hat _ ih => have := hat.bound; simp at this; omega
  | ptr pos t ls e0 n _ hat _ _ => have := hat.bound; simp at this; omega

theorem Enc.enc_extend {buf : List Nat} {pos : Nat} {ls : List Str} {e n : Nat}
    (h : Enc buf pos ls e n) (ext : List Nat) : Enc (buf ++ ext) pos ls e n := by
  induction h with
  | nil pos h0 => exact Enc.nil pos (h0.append_right ext)
  | label pos l ls e n hwf hat _ ih => exact Enc.label pos l ls e n hwf (hat.append_right ext) ih
  | ptr pos t ls e0 n ht hat _ ih => exact Enc.ptr pos t ls e0 n ht (hat.append_right ext) ih

theorem Enc.wf {buf : List Nat} {pos : Nat} {ls : List Str} {e n : Nat}
    (h : Enc buf pos ls e n) : ∀ l ∈ ls, WfLabel l := by
  induction h with
  | nil pos h0 => simp
  | label pos l ls e n hwf _ _ ih =>
    intro x hx
    rcases List.mem_cons.mp hx with h1 | h1
    · rw [h1]; exact hwf
    · exact ih x h1
  | ptr pos t ls e0 n _ _ _ ih => exact ih

/-- Decoding an encoded name: the loop of `parseLabel` returns the text of
the name up to letter case and stops right after the occurrence. -/
theorem parseLabelLoop_of_Enc (ul : Str → Str) {buf : List Nat} {pos : Nat} {ls : List Str}
    {e n : Nat} (h : Enc buf pos ls e n) (hlen : buf.length ≤ 65535) :
    ∀ fuel, n ≤ fuel → ∀ acc : Str, ∃ raw : Str,
      parseLabelLoop ul buf fuel pos acc = .ok (acc ++ raw, e) ∧
      (∀ c ∈ raw, c < 128) ∧ raw.map lowerByte = (joinLabels ls).map lowerByte := by
  induction h with
  | nil pos h0 =>
    intro fuel hf acc
    obtain ⟨k, rfl⟩ : ∃ k, fuel = k + 1 := ⟨fuel - 1, by omega⟩
    have hb := h0.bound
    simp only [List.length_singleton] at hb
    refine ⟨[], ?_, by simp, by simp [joinLabels]⟩
    simp only [parseLabelLoop, h0.get?_eq, if_true, List.append_nil]
    rw [u16_of_lt _ (by omega)]
  | label pos l ls e n hwf hat _ ih =>
    intro fuel hf acc
    obtain ⟨k, rfl⟩ : ∃ k, fuel = k + 1 := ⟨fuel - 1, by omega⟩
    have hb := hat.bound
    simp only [List.length_cons] at hb
    obtain ⟨raw, hraw, hascii, hlow⟩ := ih k (by omega) (acc ++ l ++ [46])
    have hsl : slice buf (pos + 1) (pos + 1 + l.length) = .ok l := by
      have := (@IsAt.right _ _ [l.length] l hat).slice_eq
      simpa using this
    have h1 : l.length ≠ 0 := by have := hwf.1; omega
    have h2 : ¬ l.length / 64 = 3 := by have := hwf.2.1; omega
    refine ⟨l ++ [46] ++ raw, ?_, ?_, ?_⟩
    · simp only [parseLabelLoop, hat.get?_eq, h1, h2, if_false]
      rw [u16_of_lt (pos + 1) (by omega), u16_of_lt (pos + 1 + l.length) (by omega), hsl]
      simp only []
      rw [hraw]
      simp
    · intro c hc
      simp only [List.mem_append, List.mem_singleton] at hc
      rcases hc with (hc | hc) | hc
      · exact (hwf.2.2 c hc).1
      · omega
      · exact hascii c hc
    · simp only [joinLabels, List.map_append, hlow]
  | ptr pos t ls e0 n ht hat henc ih =>
    intro fuel hf acc
    obtain ⟨k, rfl⟩ : ∃ k, fuel = k + 1 := ⟨fuel - 1, by omega⟩
    have hb := hat.bound
    simp only [List.length_cons, List.length_singleton, List.length_nil] at hb
    obtain ⟨raw, hraw, hascii, hlow⟩ := ih k (by omega) []
    have hsl : slice buf pos (pos + 2) = .ok [192 + t / 256, t % 256] := by
      have := hat.slice_eq
      simpa using this
    have h1 : 192 + t / 256 ≠ 0 := by omega
    have h2 : (192 + t / 256) / 64 = 3 := by omega
    have hv : ((192 + t / 256) * 256 + t % 256) % 16384 = t := by omega
    refine ⟨raw.map lowerByte, ?_, ?_, ?_⟩
    · simp only [parseLabelLoop, hat.get?_eq, h1, h2, if_false, if_true]
      rw [u16_of_lt (pos + 1) (by omega)]
      have e1 : u16sub (pos + 1) 1 = pos := by unfold u16sub; split <;> omega
      rw [e1, u16_of_lt (pos + 1 + 1) (by omega), show pos + 1 + 1 = pos + 2 from rfl, hsl]
      simp only [beUint16, hv]
      rw [hraw]
      simp only [List.nil_append, ToLower_ascii ul raw hascii]
    · intro c hc
      obtain ⟨c0, hc0, rfl⟩ := List.mem_map.mp hc
      exact lowerByte_lt (hascii c0 hc0)
    · rw [← hlow]
      simp [lowerByte_idem]

/-- Decoding an encoded name with `parseLabel`. -/
theorem parseLabel_of_Enc (ul : Str → Str) {buf : List Nat} {pos : Nat} {ls : List Str}
    {e n : Nat} (h : Enc buf pos ls e n) (hlen : buf.length ≤ 65535) (fuel : Nat) (hf : n ≤ fuel) :
    parseLabel ul fuel pos buf = .ok ((joinLabels ls).map lowerByte, e - pos) := by
  obtain ⟨raw, hraw, hascii, hlow⟩ := parseLabelLoop_of_Enc ul h hlen fuel hf []
  have hb := h.bounds
  unfold parseLabel
  rw [hraw]
  simp only [List.nil_append, ToLower_ascii ul raw hascii, hlow]
  have : u16sub e pos = e - pos := by unfold u16sub; split <;> omega
  rw [this]

/-! ## dns.go : labelBytes -/

theorem or_pointer_bits (pos : Nat) (h : pos < 16384) : pos ||| 49152 = pos + 49152 := by
  have := @Nat.mul_add_lt_is_or 14 pos (by norm_num; exact h) 3
  norm_num at this
  rw [Nat.lor_comm, ← this, Nat.add_comm]

theorem be16_pointer (t : Nat) (h : t < 16384) : be16 (t + 49152) = [192 + t / 256, t % 256] := by
  unfold be16
  congr 1
  · omega
  · congr 1; omega

theorem splitDot_append_dot (l rest : Str) (h : 46 ∉ l) :
    splitDot (l ++ 46 :: rest) = l :: splitDot rest := by
  induction l with
  | nil => simp [splitDot]
  | cons c l ih =>
    have hc : c ≠ 46 := fun hc => h (by rw [hc]; exact List.mem_cons_self _ _)
    have hl : 46 ∉ l := fun hl => h (List.mem_cons_of_mem _ hl)
    show splitDot (c :: (l ++ 46 :: rest)) = (c :: l) :: splitDot rest
    rw [splitDot]
    simp only [hc, if_false, ih hl]

theorem WfLabel.no_dot {l : Str} (h : WfLabel l) : 46 ∉ l := fun hm => (h.2.2 46 hm).2 rfl

theorem WfLabel.ne_nil {l : Str} (h : WfLabel l) : l ≠ [] := by
  intro hl
  have := h.1
  rw [hl] at this
  simp at this

theorem splitDot_joinLabels (ls : List Str) (h : ∀ l ∈ ls, WfLabel l) :
    splitDot (joinLabels ls) = ls ++ [[]] := by
  induction ls with
  | nil => simp [joinLabels, splitDot]
  | cons l ls ih =>
    have hl := h l (List.mem_cons_self _ _)
    have hls := ih (fun x hx => h x (List.mem_cons_of_mem _ hx))
    have e : joinLabels (l :: ls) = l ++ 46 :: joinLabels ls := by simp [joinLabels]
    rw [e, splitDot_append_dot l _ hl.no_dot, hls]
    rfl

theorem joinLabels_inj (ls ls2 : List Str) (h : ∀ l ∈ ls, WfLabel l) (h2 : ∀ l ∈ ls2, WfLabel l)
    (heq : joinLabels ls = joinLabels ls2) : ls = ls2 := by
  have e1 := splitDot_joinLabels ls h
  have e2 := splitDot_joinLabels ls2 h2
  rw [heq, e2] at e1
  exact (List.append_cancel_right e1).symm

theorem joinLabels_cons_length (l : Str) (ls : List Str) :
    (joinLabels (l :: ls)).length = l.length + 1 + (joinLabels ls).length := by
  simp [joinLabels]; omega

theorem joinLabels_ne_nil {ls : List Str} (h : ls ≠ []) : joinLabels ls ≠ [] := by
  cases ls with
  | nil => exact absurd rfl h
  | cons l ls => simp [joinLabels]

theorem ValidEntry.key_ne_nil {buf : List Nat} {key : Str} {v : Nat} (h : ValidEntry buf key v) :
    key ≠ [] := by
  obtain ⟨ls, t, e, n, hne, hkey, _⟩ := h
  rw [hkey]; exact joinLabels_ne_nil hne

theorem ValidEntry.entry_extend {buf : List Nat} {key : Str} {v : Nat} (h : ValidEntry buf key v)
    (ext : List Nat) : ValidEntry (buf ++ ext) key v := by
  obtain ⟨ls, t, e, n, hne, hkey, hv, h12, ht, henc, hklen⟩ := h
  exact ⟨ls, t, e, n, hne, hkey, hv, h12, ht, henc.enc_extend ext,
    by rw [List.length_append]; omega⟩

theorem CacheOK.table_extend {buf : List Nat} {ns : NsCache} (h : CacheOK buf ns) (ext : List Nat) :
    CacheOK (buf ++ ext) ns := fun key v hk => (h key v hk).entry_extend ext

/-- The loop of `labelBytes` returns on well-formed labels, and its output
extends the local buffer. -/
theorem labelBytesLoop_ok (label : Str) (compress : Bool) (offset : Nat) (rs : List Str)
    (hwf : ∀ l ∈ rs, WfLabel l) :
    ∀ (l : Nat) (ns : NsCache) (out : List Nat), l + (joinLabels rs).length ≤ label.length →
      ∃ b ns2, labelBytesLoop label compress offset (rs ++ [[]]) l ns out = .ok (out ++ b, ns2) ∧
        1 ≤ b.length := by
  induction rs with
  | nil =>
    intro l ns out _
    exact ⟨[0], ns, by simp [labelBytesLoop], by simp⟩
  | cons p rs ih =>
    intro l ns out hl
    have hp := hwf p (List.mem_cons_self _ _)
    have hrs := ih (fun x hx => hwf x (List.mem_cons_of_mem _ hx))
    have hlen := joinLabels_cons_length p rs
    have hl1 : u16 (l + u16 (u16 p.length + 1)) ≤ l + p.length + 1 := by
      unfold u16; have := hp.2.1; omega
    have hnp : ¬ label.length < u16 (l + u16 (u16 p.length + 1)) := by omega
    simp only [List.cons_append, labelBytesLoop, hp.ne_nil, if_false, hnp, List.append_eq]
    cases hlook : (if compress = true then ns (label.drop (u16 (l + u16 (u16 p.length + 1)))) else none) with
    | some pos =>
      refine ⟨[p.length % 256] ++ p ++ be16 pos, ns, by simp, by simp⟩
    | none =>
      obtain ⟨b, ns2, hb, hb1⟩ := hrs (u16 (l + u16 (u16 p.length + 1)))
        (addToNsCache ns (label.drop (u16 (l + u16 (u16 p.length + 1))))
          (u16 (offset + u16 (l + u16 (u16 p.length + 1))))).1
        (out ++ [p.length % 256] ++ p) (by omega)
      refine ⟨[p.length % 256] ++ p ++ b, ns2, ?_, by simp⟩
      simp only []
      rw [hb]
      simp

theorem addToNsCache_apply (ns : NsCache) (s : Str) (pos : Nat) (h12 : 12 ≤ pos)
    (hlt : pos < 16384) (key : Str) :
    (addToNsCache ns s pos).1 key =
      if key = s ∧ s ≠ [] ∧ ns s = none then some (pos + 49152) else ns key := by
  unfold addToNsCache
  by_cases hs : s = []
  · simp [hs]
  · cases hns : ns s with
    | some v => simp [hs]
    | none =>
      simp only [hs, if_false, h12, if_true, or_pointer_bits pos hlt]
      by_cases hk : key = s
      · simp [hk, hs, hns]
      · simp [hk]

theorem drop_joinLabels_cons (label : Str) (l : Nat) (p : Str) (rs : List Str)
    (h : label.drop l = joinLabels (p :: rs)) : label.drop (l + p.length + 1) = joinLabels rs := by
  have e : label.drop (l + p.length + 1) = (label.drop l).drop (p.length + 1) := by
    rw [List.drop_drop, Nat.add_assoc]
  rw [e, h]
  have e2 : joinLabels (p :: rs) = (p ++ [46]) ++ joinLabels rs := by simp [joinLabels]
  rw [e2]
  exact List.drop_left' (by simp)

/-- Soundness of the loop of `labelBytes`: what it appends at the end of the
buffer `B0 ++ out` is an encoding of the remaining labels, and the entries it
adds to the table are sound once the loop is over. -/
theorem labelBytesLoop_sound (label : Str) (compress : Bool) (B0 : List Nat)
    (h12 : 12 ≤ B0.length) (rs : List Str) (hwf : ∀ l ∈ rs, WfLabel l) :
    ∀ (l : Nat) (ns : NsCache) (out b : List Nat) (ns2 : NsCache),
      labelBytesLoop label compress B0.length (rs ++ [[]]) l ns out = .ok (out ++ b, ns2) →
      out.length = l → l + (joinLabels rs).length = label.length →
      label.drop l = joinLabels rs →
      B0.length + l + b.length ≤ 16384 →
      (∀ key v, ns key = some v → key ≠ []) →
      (∀ key v, ns key = some v → ValidEntry B0 key v ∨ (joinLabels rs).length < key.length ∨
        (key = joinLabels rs ∧ v = B0.length + l + 49152)) →
      (∃ n, Enc (B0 ++ out ++ b) (B0.length + l) rs (B0.length + l + b.length) n) ∧
      (joinLabels rs).length < B0.length + b.length ∧
      (∀ key v, ns2 key = some v → key ≠ []) ∧
      (∀ key v, ns2 key = some v →
        ValidEntry (B0 ++ out ++ b) key v ∨ (joinLabels rs).length < key.length) ∧
      (∀ key, (joinLabels rs).length < key.length → ns2 key = ns key) := by
  induction rs with
  | nil =>
    intro l ns out b ns2 hres hout _ _ _ hne hinv
    simp only [List.nil_append, labelBytesLoop, if_true, Except.ok.injEq, Prod.mk.injEq,
      List.append_cancel_left_eq] at hres
    obtain ⟨hb, hns⟩ := hres
    subst hb; subst hns
    refine ⟨⟨1, ?_⟩, by simp [joinLabels], hne, ?_, fun _ _ => rfl⟩
    · have := @Enc.nil (B0 ++ out ++ [0]) (B0.length + l)
        ⟨B0 ++ out, [], by simp, by simp [hout]⟩
      simpa using this
    · intro key v hk
      rcases hinv key v hk with h | h | h
      · left
        rw [List.append_assoc]
        exact h.entry_extend _
      · right; exact h
      · exact absurd h.1 (hne key v hk)
  | cons p rs ih =>
    intro l ns out b ns2 hres hout hlen hdrop hsize hne hinv
    have hp := hwf p (List.mem_cons_self _ _)
    have hwfrs : ∀ x ∈ rs, WfLabel x := fun x hx => hwf x (List.mem_cons_of_mem _ hx)
    have hjl := joinLabels_cons_length p rs
    have hp63 := hp.2.1
    have hl1 : u16 (l + u16 (u16 p.length + 1)) = l + p.length + 1 := by
      unfold u16; omega
    have hpm : p.length % 256 = p.length := by omega
    have hnp : ¬ label.length < l + p.length + 1 := by omega
    have hdrop1 := drop_joinLabels_cons label l p rs hdrop
    have hoff : u16 (B0.length + (l + p.length + 1)) = B0.length + (l + p.length + 1) := by
      unfold u16; omega
    simp only [List.cons_append, labelBytesLoop, hp.ne_nil, if_false, hl1, hnp, hpm, hdrop1,
      hoff, List.append_eq] at hres
    cases hlook : (if compress = true then ns (joinLabels rs) else none) with
    | some pos =>
      rw [hlook] at hres
      simp only [Except.ok.injEq, Prod.mk.injEq] at hres
      obtain ⟨hb, hns⟩ := hres
      subst hns
      have hb2 : b = [p.length] ++ p ++ be16 pos := by
        have : out ++ ([p.length] ++ p ++ be16 pos) = out ++ b := by
          rw [← hb]; simp
        exact (List.append_cancel_left this).symm
      have hnspos : ns (joinLabels rs) = some pos := by
        by_cases hc : compress = true
        · simpa [hc] using hlook
        · simp [hc] at hlook
      have hvalid : ValidEntry B0 (joinLabels rs) pos := by
        rcases hinv _ _ hnspos with h | h | h
        · exact h
        · omega
        · have := congrArg List.length h.1
          omega
      obtain ⟨ls, t, e, n, hlsne, hkey, hv, ht12, ht, henc, hklen⟩ := hvalid
      have hls : ls = rs := (joinLabels_inj rs ls hwfrs henc.wf hkey).symm
      subst hls
      have hbe : be16 pos = [192 + t / 256, t % 256] := by rw [hv]; exact be16_pointer t ht
      rw [hbe] at hb2
      subst hb2
      have hptr : Enc (B0 ++ out ++ ([p.length] ++ p ++ [192 + t / 256, t % 256]))
          (B0.length + l + 1 + p.length) ls (B0.length + l + 1 + p.length + 2) (n + 1) := by
        refine Enc.ptr _ t ls e n ht ?_ ?_
        · exact ⟨B0 ++ out ++ ([p.length] ++ p), [], by simp, by simp [hout]; omega⟩
        · rw [List.append_assoc]
          exact henc.enc_extend _
      have hlab := @Enc.label (B0 ++ out ++ ([p.length] ++ p ++ [192 + t / 256, t % 256]))
        (B0.length + l) p ls _ _ hp
        ⟨B0 ++ out, [192 + t / 256, t % 256], by simp, by simp [hout]⟩ hptr
      have e2 : B0.length + l + ([p.length] ++ p ++ [192 + t / 256, t % 256]).length
          = B0.length + l + 1 + p.length + 2 := by simp; omega
      have hlenb : (joinLabels (p :: ls)).length
          < B0.length + ([p.length] ++ p ++ [192 + t / 256, t % 256]).length := by
        rw [hkey] at hklen
        simp only [List.length_append, List.length_cons, List.length_nil]
        omega
      refine ⟨⟨n + 1 + 1, by rw [e2]; exact hlab⟩, hlenb, hne, ?_, fun _ _ => rfl⟩
      intro key v hk
      rcases hinv key v hk with h | h | h
      · left
        rw [List.append_assoc]
        exact h.entry_extend _
      · right; exact h
      · left
        refine ⟨p :: ls, B0.length + l, _, _, by simp, h.1, h.2, by omega, by omega, hlab, ?_⟩
        rw [h.1]
        simp only [List.length_append] at hlenb ⊢
        omega
    | none =>
      rw [hlook] at hres
      simp only [] at hres
      have hlt : B0.length + (l + p.length + 1) < 16384 := by
        obtain ⟨b3, ns3, hb3, hb31⟩ := labelBytesLoop_ok label compress B0.length rs hwfrs
          (l + p.length + 1)
          (addToNsCache ns (joinLabels rs) (B0.length + (l + p.length + 1))).1
          (out ++ [p.length] ++ p) (by omega)
        rw [hb3] at hres
        simp only [Except.ok.injEq, Prod.mk.injEq] at hres
        have := congrArg List.length hres.1
        simp at this
        omega
      obtain ⟨b3, ns3, hb3, hb31⟩ := labelBytesLoop_ok label compress B0.length rs hwfrs
        (l + p.length + 1)
        (addToNsCache ns (joinLabels rs) (B0.length + (l + p.length + 1))).1
        (out ++ [p.length] ++ p) (by omega)
      have hres2 := hres
      rw [hb3] at hres2
      simp only [Except.ok.injEq, Prod.mk.injEq] at hres2
      obtain ⟨hbeq, hnseq⟩ := hres2
      subst hnseq
      have hb2 : b = [p.length] ++ p ++ b3 := by
        have : out ++ ([p.length] ++ p ++ b3) = out ++ b := by
          rw [← hbeq]; simp
        exact (List.append_cancel_left this).symm
      subst hb2
      have hadd := addToNsCache_apply ns (joinLabels rs) (B0.length + (l + p.length + 1))
        (by omega) hlt
      have hIH := ih hwfrs (l + p.length + 1)
        (addToNsCache ns (joinLabels rs) (B0.length + (l + p.length + 1))).1
        (out ++ [p.length] ++ p) b3 ns3 hb3 (by simp [hout]; omega) (by omega) hdrop1
        (by simp at hsize; omega)
        (by
          intro key v hk
          rw [hadd] at hk
          by_cases hc : key = joinLabels rs ∧ joinLabels rs ≠ [] ∧ ns (joinLabels rs) = none
          · rw [hc.1]; exact hc.2.1
          · rw [if_neg hc] at hk; exact hne key v hk)
        (by
          intro key v hk
          rw [hadd] at hk
          by_cases hc : key = joinLabels rs ∧ joinLabels rs ≠ [] ∧ ns (joinLabels rs) = none
          · rw [if_pos hc] at hk
            right; right
            exact ⟨hc.1, by simp at hk; omega⟩
          · rw [if_neg hc] at hk
            rcases hinv key v hk with h | h | h
            · left; exact h
            · right; left; omega
            · right; left
              have := congrArg List.length h.1
              omega)
      obtain ⟨⟨n, henc⟩, hlen3, hne3, hval3, hsame3⟩ := hIH
      have hbuf : B0 ++ (out ++ [p.length] ++ p) ++ b3 = B0 ++ out ++ ([p.length] ++ p ++ b3) := by
        simp
      rw [hbuf] at henc hval3
      have hlab := @Enc.label (B0 ++ out ++ ([p.length] ++ p ++ b3))
        (B0.length + l) p rs _ _ hp
        ⟨B0 ++ out, b3, by simp, by simp [hout]⟩
        (by
          have e3 : B0.length + l + 1 + p.length = B0.length + (l + p.length + 1) := by omega
          rw [e3]; exact henc)
      have e2 : B0.length + l + ([p.length] ++ p ++ b3).length
          = B0.length + (l + p.length + 1) + b3.length := by simp; omega
      have hlenb : (joinLabels (p :: rs)).length < B0.length + ([p.length] ++ p ++ b3).length := by
        simp only [List.length_append, List.length_cons, List.length_nil]
        omega
      refine ⟨⟨n + 1, by rw [e2]; exact hlab⟩, hlenb, hne3, ?_, ?_⟩
      · intro key v hk
        rcases hval3 key v hk with h | h
        · left; exact h
        · have hk2 : ns key = some v := by
            have h1 := hsame3 key h
            rw [h1, hadd] at hk
            have hc : ¬ (key = joinLabels rs ∧ joinLabels rs ≠ [] ∧ ns (joinLabels rs) = none) := by
              intro hc
              have := congrArg List.length hc.1
              omega
            rwa [if_neg hc] at hk
          rcases hinv key v hk2 with h2 | h2 | h2
          · left
            rw [List.append_assoc]
            exact h2.entry_extend _
          · right; exact h2
          · left
            refine ⟨p :: rs, B0.length + l, _, _, by simp, h2.1, h2.2, by omega, by omega, hlab, ?_⟩
            rw [h2.1]
            simp only [List.length_append] at hlenb ⊢
            omega
      · intro key hkey
        have h1 := hsame3 key (by omega)
        rw [h1, hadd]
        have hc : ¬ (key = joinLabels rs ∧ joinLabels rs ≠ [] ∧ ns (joinLabels rs) = none) := by
          intro hc
          have := congrArg List.length hc.1
          omega
        rw [if_neg hc]

/-- Soundness of `labelBytes`: on a well-formed name it returns, and when the
bytes are appended to a buffer of which `offset` is the length, they encode
the name there and the table stays sound. -/
theorem labelBytes_sound (ls : List Str) (hwf : ∀ l ∈ ls, WfLabel l) (ns : NsCache)
    (compress : Bool) (off : Nat) :
    ∃ b ns2, labelBytes (joinLabels ls) ns compress off = .ok (b, ns2) ∧ 1 ≤ b.length ∧
      ∀ B0 : List Nat, off = B0.length → 12 ≤ B0.length → B0.length + b.length ≤ 16384 →
        CacheOK B0 ns →
        (∃ n, Enc (B0 ++ b) B0.length ls (B0.length + b.length) n) ∧ CacheOK (B0 ++ b) ns2 ∧
        (joinLabels ls).length < B0.length + b.length := by
  cases ls with
  | nil =>
    refine ⟨[0], ns, by simp [labelBytes, joinLabels], by simp, ?_⟩
    intro B0 _ _ _ hok
    exact ⟨⟨1, Enc.nil _ (IsAt.self B0 [0])⟩, hok.table_extend _, by simp [joinLabels]⟩
  | cons p rs =>
    have hne : joinLabels (p :: rs) ≠ [] := joinLabels_ne_nil (by simp)
    cases hlook : (if compress = true then ns (joinLabels (p :: rs)) else none) with
    | some pos =>
      refine ⟨be16 pos, ns, by simp only [labelBytes, hne, if_false, hlook], by simp [be16], ?_⟩
      intro B0 _ _ _ hok
      have hnspos : ns (joinLabels (p :: rs)) = some pos := by
        by_cases hc : compress = true
        · simpa [hc] using hlook
        · simp [hc] at hlook
      obtain ⟨ls, t, e, n, _, hkey, hv, _, ht, henc, hklen⟩ := hok _ _ hnspos
      have hls : ls = p :: rs := (joinLabels_inj _ ls hwf henc.wf hkey).symm
      subst hls
      have hbe : be16 pos = [192 + t / 256, t % 256] := by rw [hv]; exact be16_pointer t ht
      rw [hbe]
      refine ⟨⟨n + 1, ?_⟩, hok.table_extend _, by omega⟩
      exact Enc.ptr _ t _ e n ht (IsAt.self B0 _) (henc.enc_extend _)
    | none =>
      obtain ⟨b, ns2, hb, hb1⟩ := labelBytesLoop_ok (joinLabels (p :: rs)) compress off (p :: rs)
        hwf 0 (addToNsCache ns (joinLabels (p :: rs)) off).1 [] (by omega)
      simp only [List.nil_append] at hb
      refine ⟨b, ns2, ?_, hb1, ?_⟩
      · simp only [labelBytes, hne, if_false, hlook, splitDot_joinLabels (p :: rs) hwf]
        exact hb
      · intro B0 hoff h12 hsize hok
        subst hoff
        have hadd := addToNsCache_apply ns (joinLabels (p :: rs)) B0.length h12 (by omega)
        have hs := labelBytesLoop_sound (joinLabels (p :: rs)) compress B0 h12 (p :: rs) hwf 0
          (addToNsCache ns (joinLabels (p :: rs)) B0.length).1 [] b ns2
          (by simpa using hb) rfl (by omega) rfl (by omega)
          (by
            intro key v hk
            rw [hadd] at hk
            by_cases hc : key = joinLabels (p :: rs) ∧ joinLabels (p :: rs) ≠ [] ∧
                ns (joinLabels (p :: rs)) = none
            · rw [hc.1]; exact hne
            · rw [if_neg hc] at hk; exact (hok key v hk).key_ne_nil)
          (by
            intro key v hk
            rw [hadd] at hk
            by_cases hc : key = joinLabels (p :: rs) ∧ joinLabels (p :: rs) ≠ [] ∧
                ns (joinLabels (p :: rs)) = none
            · rw [if_pos hc] at hk
              right; right
              exact ⟨hc.1, by simp at hk; omega⟩
            · rw [if_neg hc] at hk
              left; exact hok key v hk)
        obtain ⟨⟨n, henc⟩, hlenb, _, hval, hsame⟩ := hs
        simp only [List.append_nil, Nat.add_zero] at henc hval
        refine ⟨⟨n, henc⟩, ?_, hlenb⟩
        intro key v hk
        rcases hval key v hk with h | h
        · exact h
        · have h1 := hsame key h
          rw [h1, hadd] at hk
          have hc : ¬ (key = joinLabels (p :: rs) ∧ joinLabels (p :: rs) ≠ [] ∧
              ns (joinLabels (p :: rs)) = none) := by
            intro hc
            have := congrArg List.length hc.1
            omega
          rw [if_neg hc] at hk
          exact (hok key v hk).entry_extend _

/-! ## dns.go : compression is sound (names written one after another) -/

theorem plainEncode_length (ls : List Str) : (plainEncode ls).length = (joinLabels ls).length + 1 := by
  induction ls with
  | nil => rfl
  | cons l ls ih => simp [plainEncode, joinLabels, ih]

theorem Enc_plainEncode (pre : List Nat) (ls : List Str) (hwf : ∀ l ∈ ls, WfLabel l)
    (post : List Nat) :
    Enc (pre ++ plainEncode ls ++ post) pre.length ls (pre.length + (plainEncode ls).length)
      (ls.length + 1) := by
  induction ls generalizing pre with
  | nil => exact Enc.nil _ ⟨pre, post, rfl, rfl⟩
  | cons l ls ih =>
    have hl := hwf l (List.mem_cons_self _ _)
    have h := ih (pre ++ (l.length :: l)) (fun x hx => hwf x (List.mem_cons_of_mem _ hx))
    have e1 : pre ++ (l.length :: l) ++ plainEncode ls ++ post
        = pre ++ plainEncode (l :: ls) ++ post := by simp [plainEncode]
    have e2 : (pre ++ (l.length :: l)).length = pre.length + 1 + l.length := by simp; omega
    have e3 : pre.length + 1 + l.length + (plainEncode ls).length
        = pre.length + (plainEncode (l :: ls)).length := by simp [plainEncode]; omega
    rw [e1, e2, e3] at h
    exact Enc.label _ l ls _ _ hl ⟨pre, plainEncode ls ++ post, by simp [plainEncode], rfl⟩ h

theorem labelBytesLoop_plain (label : Str) (offset : Nat) (rs : List Str)
    (hwf : ∀ l ∈ rs, WfLabel l) :
    ∀ (l : Nat) (ns : NsCache) (out : List Nat), l + (joinLabels rs).length ≤ label.length →
      ∃ ns2, labelBytesLoop label false offset (rs ++ [[]]) l ns out
        = .ok (out ++ plainEncode rs, ns2) := by
  induction rs with
  | nil =>
    intro l ns out _
    exact ⟨ns, by simp [labelBytesLoop, plainEncode]⟩
  | cons p rs ih =>
    intro l ns out hl
    have hp := hwf p (List.mem_cons_self _ _)
    have hlen := joinLabels_cons_length p rs
    have hp63 := hp.2.1
    have hl1 : u16 (l + u16 (u16 p.length + 1)) ≤ l + p.length + 1 := by
      unfold u16; omega
    have hnp : ¬ label.length < u16 (l + u16 (u16 p.length + 1)) := by omega
    have hpm : p.length % 256 = p.length := by omega
    obtain ⟨ns2, h2⟩ := ih (fun x hx => hwf x (List.mem_cons_of_mem _ hx))
      (u16 (l + u16 (u16 p.length + 1)))
      (addToNsCache ns (label.drop (u16 (l + u16 (u16 p.length + 1))))
        (u16 (offset + u16 (l + u16 (u16 p.length + 1))))).1
      (out ++ [p.length] ++ p) (by omega)
    refine ⟨ns2, ?_⟩
    simp only [List.cons_append, labelBytesLoop, hp.ne_nil, if_false, hnp, hpm, List.append_eq,
      Bool.false_eq_true]
    rw [h2]
    simp [plainEncode]

theorem labelBytes_plain (ls : List Str) (hwf : ∀ l ∈ ls, WfLabel l) (ns : NsCache) (offset : Nat) :
    ∃ ns2, labelBytes (joinLabels ls) ns false offset = .ok (plainEncode ls, ns2) := by
  cases ls with
  | nil => exact ⟨ns, by simp [labelBytes, joinLabels, plainEncode]⟩
  | cons p rs =>
    have hne : joinLabels (p :: rs) ≠ [] := joinLabels_ne_nil (by simp)
    obtain ⟨ns2, h2⟩ := labelBytesLoop_plain (joinLabels (p :: rs)) offset (p :: rs) hwf 0
      (addToNsCache ns (joinLabels (p :: rs)) offset).1 [] (by omega)
    refine ⟨ns2, ?_⟩
    simp only [labelBytes, hne, if_false, Bool.false_eq_true, splitDot_joinLabels (p :: rs) hwf]
    simpa using h2

/-- Soundness of a run of `labelBytes` calls sharing one table. -/
theorem writeNames_sound (names : List Str) (hwf : ∀ name ∈ names, WfName name) :
    ∀ (buf : List Nat) (ns : NsCache),
      ∃ ext ns2 offs, writeNames names buf ns = .ok (buf ++ ext, ns2, offs) ∧
        offs.length = names.length ∧
        ((buf ++ ext).length ≤ 16384 → 12 ≤ buf.length → CacheOK buf ns →
          ∃ n, ∀ p ∈ names.zip offs, ∃ ls e m, p.1 = joinLabels ls ∧ (∀ l ∈ ls, WfLabel l) ∧
            Enc (buf ++ ext) p.2 ls e m ∧ m ≤ n ∧ p.1.length < (buf ++ ext).length) := by
  induction names with
  | nil =>
    intro buf ns
    exact ⟨[], ns, [], by simp [writeNames], rfl, fun _ _ _ => ⟨0, by simp⟩⟩
  | cons name rest ih =>
    intro buf ns
    obtain ⟨ls, hls, hname⟩ := hwf name (List.mem_cons_self _ _)
    obtain ⟨b, ns1, hb, hb1, hsound⟩ := labelBytes_sound ls hls ns true (u16 buf.length)
    obtain ⟨ext, ns2, offs, hw, hoffs, hrest⟩ :=
      ih (fun x hx => hwf x (List.mem_cons_of_mem _ hx)) (buf ++ b) ns1
    refine ⟨b ++ ext, ns2, buf.length :: offs, ?_, by simp [hoffs], ?_⟩
    · simp only [writeNames, hname, hb, hw, List.append_assoc]
    · intro hsize h12 hok
      have hsz : buf.length + b.length + ext.length ≤ 16384 := by
        simpa [Nat.add_assoc] using hsize
      obtain ⟨⟨n1, henc1⟩, hok1, hlen1⟩ :=
        hsound buf (u16_of_lt _ (by omega)) h12 (by omega) hok
      obtain ⟨n2, hall⟩ := hrest (by simpa [Nat.add_assoc] using hsize)
        (by rw [List.length_append]; omega) hok1
      refine ⟨max n1 n2, ?_⟩
      intro p hp
      simp only [List.zip_cons_cons, List.mem_cons] at hp
      rcases hp with hp | hp
      · subst hp
        refine ⟨ls, buf.length + b.length, n1, hname, hls, ?_, le_max_left _ _, ?_⟩
        · rw [← List.append_assoc]
          exact henc1.enc_extend ext
        · simp only [hname, List.length_append]
          omega
      · obtain ⟨ls2, e2, m2, h1, h2, h3, h4, h5⟩ := hall p hp
        refine ⟨ls2, e2, m2, h1, h2, ?_, le_trans h4 (le_max_right _ _), ?_⟩
        · rw [← List.append_assoc]; exact h3
        · rw [← List.append_assoc]; exact h5

/-- C2. Names of the data model (dot-terminated, labels of 1 to 63 ASCII
bytes) written one after another through `labelBytes` with `compress = true`
and one shared, initially empty table, after a prefix of at least 12 bytes:
the run returns, and when the buffer has at most 2^14 bytes, `parseLabel` at
the start offset of every name returns the lower-cased name, which is also
what `parseLabel` returns on the uncompressed encoding of that name
(`labelBytes` with `compress = false`). -/
theorem compression_sound (ul : Str → Str) (names : List Str) (pre : List Nat)
    (hwf : ∀ name ∈ names, ∃ ls : List Str, ls ≠ [] ∧ (∀ l ∈ ls, WfLabel l) ∧ name = joinLabels ls)
    (hpre : 12 ≤ pre.length) :
    ∃ out ns offs, writeNames names pre (fun _ => none) = .ok (out, ns, offs) ∧
      offs.length = names.length ∧
      (out.length ≤ 16384 → ∃ n, ∀ fuel, n ≤ fuel → ∀ p ∈ names.zip offs,
        ∃ k plain ns3,
          parseLabel ul fuel p.2 out = .ok (p.1.map lowerByte, k) ∧
          labelBytes p.1 (fun _ => none) false 0 = .ok (plain, ns3) ∧
          parseLabel ul fuel 0 plain = .ok (p.1.map lowerByte, plain.length)) := by
  obtain ⟨ext, ns2, offs, hw, hoffs, hsound⟩ := writeNames_sound names
    (fun name hn => by
      obtain ⟨ls, _, h1, h2⟩ := hwf name hn
      exact ⟨ls, h1, h2⟩) pre (fun _ => none)
  refine ⟨pre ++ ext, ns2, offs, hw, hoffs, ?_⟩
  intro hsize
  obtain ⟨n, hall⟩ := hsound hsize hpre (fun key v hk => by simp at hk)
  refine ⟨max n 16384, ?_⟩
  intro fuel hfuel p hp
  obtain ⟨ls, e, m, hname, hls, henc, hm, hlen⟩ := hall p hp
  obtain ⟨ns3, hplain⟩ := labelBytes_plain ls hls (fun _ => none) 0
  have hpl := plainEncode_length ls
  have hencp := Enc_plainEncode [] ls hls []
  simp only [List.nil_append, List.append_nil, List.length_nil, Nat.zero_add] at hencp
  have hlsl : ls.length ≤ (joinLabels ls).length := by
    clear hencp hplain henc hname hlen hpl
    induction ls with
    | nil => simp
    | cons l ls ih =>
      have := ih (fun x hx => hls x (List.mem_cons_of_mem _ hx))
      rw [joinLabels_cons_length]
      simp only [List.length_cons]
      omega
  rw [hname] at hlen
  refine ⟨e - p.2, plainEncode ls, ns3, ?_, ?_, ?_⟩
  · rw [hname]
    exact parseLabel_of_Enc ul henc (by omega) fuel (by omega)
  · rw [hname]; exact hplain
  · rw [hname]
    have := parseLabel_of_Enc ul hencp (by omega) fuel (by omega)
    simpa using this

theorem compression_sound_witness :
    (12 ≤ (List.replicate 12 0).length) ∧
    ∃ out ns offs, writeNames sampleNames (List.replicate 12 0) (fun _ => none)
        = .ok (out, ns, offs) ∧ offs.length = sampleNames.length ∧
      (out.length ≤ 16384 → ∃ n, ∀ fuel, n ≤ fuel → ∀ p ∈ sampleNames.zip offs,
        ∃ k plain ns3,
          parseLabel id fuel p.2 out = .ok (p.1.map lowerByte, k) ∧
          labelBytes p.1 (fun _ => none) false 0 = .ok (plain, ns3) ∧
          parseLabel id fuel 0 plain = .ok (p.1.map lowerByte, plain.length)) :=
  ⟨by decide, compression_sound id sampleNames (List.replicate 12 0)
    (by
      intro name hn
      simp only [sampleNames, List.mem_cons, List.mem_singleton, List.not_mem_nil, or_false] at hn
      rcases hn with h | h | h
      · exact ⟨[str "www", str "Example", str "com"], by decide, by decide, by rw [h]; decide⟩
      · exact ⟨[str "example", str "com"], by decide, by decide, by rw [h]; decide⟩
      · exact ⟨[str "mail", str "example", str "COM"], by decide, by decide, by rw [h]; decide⟩)
    (by decide)⟩

/-! ## dns.go : parseLabel and pointer chains -/

theorem parseLabelLoop_loopBuf (ul : Str → Str) (fuel : Nat) (acc : Str) :
    parseLabelLoop ul loopBuf fuel 12 acc = .error .outOfFuel := by
  induction fuel generalizing acc with
  | zero => rfl
  | succ k ih =>
    have h1 : loopBuf.get? 12 = some 192 := rfl
    have h2 : slice loopBuf (u16sub (u16 (12 + 1)) 1) (u16 (u16 (12 + 1) + 1)) = .ok [192, 12] := rfl
    rw [parseLabelLoop]
    simp only [h1, h2, beUint16]
    have h3 : (192 * 256 + 12) % 16384 = 12 := rfl
    rw [h3, ih []]
    simp

theorem chainBuf_length (d : Nat) : (chainBuf d).length = 15 + 2 * d := by
  induction d with
  | zero => rfl
  | succ d ih =>
    have : chainBuf (d + 1) = chainBuf d ++ be16 (chainStart d + 49152) := by
      simp [chainBuf, chainPtrs]
    rw [this, List.length_append, ih]
    simp [be16]
    omega

theorem Enc_chainBuf (d : Nat) (hd : chainStart d < 16384) :
    Enc (chainBuf d) (chainStart d) [[97]] (chainStart d + (if d = 0 then 3 else 2)) (d + 2) := by
  induction d with
  | zero =>
    have hnil : Enc (chainBuf 0) 14 [] 15 1 :=
      Enc.nil 14 ⟨List.replicate 12 0 ++ [1, 97], [], rfl, by decide⟩
    exact Enc.label 12 [97] [] 15 1 (by decide) ⟨List.replicate 12 0, [0], rfl, by decide⟩ hnil
  | succ d ih =>
    have hprev : chainStart d < 16384 := by
      unfold chainStart at hd ⊢
      split at hd <;> split <;> omega
    have hbuf : chainBuf (d + 1) = chainBuf d ++ be16 (chainStart d + 49152) := by
      simp [chainBuf, chainPtrs]
    have hstart : chainStart (d + 1) = (chainBuf d).length := by
      rw [chainBuf_length]; unfold chainStart; simp; omega
    have henc := (ih hprev).enc_extend (be16 (chainStart d + 49152))
    rw [← hbuf] at henc
    have hat : IsAt (chainBuf (d + 1)) (chainStart (d + 1))
        [192 + chainStart d / 256, chainStart d % 256] := by
      rw [hbuf, hstart, be16_pointer _ hprev]
      exact IsAt.self _ _
    have := Enc.ptr (chainStart (d + 1)) (chainStart d) [[97]] _ (d + 2) hprev hat henc
    simpa using this

/-- C3 (as stated, refuted). On a pointer at offset 12 that points to offset
12 `parseLabel` returns nothing, whatever the fuel (the recursion of the Go
code does not end, and no error is reported); and a chain of 129 pointers is
followed to its end, not rejected. -/
theorem parseLabel_no_depth_limit :
    (∀ fuel, parseLabel id fuel 12 loopBuf = .error .outOfFuel) ∧
    parseLabel id 131 (chainStart 129) (chainBuf 129) = .ok (str "a.", 2) := by
  constructor
  · intro fuel
    unfold parseLabel
    rw [parseLabelLoop_loopBuf]
  · have h := parseLabel_of_Enc id (Enc_chainBuf 129 (by decide))
      (by rw [chainBuf_length]; decide) 131 (by decide)
    rw [h]
    rfl

/-- C3 (amended). `parseLabel` follows chained pointers to any depth:
wherever a name is encoded in a buffer of at most 65535 bytes, as labels
closed by a zero byte or by a pointer to such an encoding, it returns the
lower-cased name and the length of the occurrence, given fuel for every
label, pointer and terminator on the way; in particular a chain of `d`
pointers is followed for every `d`. -/
theorem parseLabel_follows_pointers (ul : Str → Str) :
    (∀ (buf : List Nat) (pos : Nat) (ls : List Str) (e n fuel : Nat),
      Enc buf pos ls e n → buf.length ≤ 65535 → n ≤ fuel →
      parseLabel ul fuel pos buf = .ok ((joinLabels ls).map lowerByte, e - pos)) ∧
    (∀ d fuel, 1 ≤ d → chainStart d < 16384 → d + 2 ≤ fuel →
      parseLabel ul fuel (chainStart d) (chainBuf d) = .ok (str "a.", 2)) := by
  constructor
  · intro buf pos ls e n fuel henc hlen hfuel
    exact parseLabel_of_Enc ul henc hlen fuel hfuel
  · intro d fuel hd hlt hfuel
    have hlen : (chainBuf d).length ≤ 65535 := by
      rw [chainBuf_length]
      unfold chainStart at hlt
      split at hlt <;> omega
    have h := parseLabel_of_Enc ul (Enc_chainBuf d hlt) hlen fuel hfuel
    rw [h]
    have hd0 : d ≠ 0 := by omega
    simp only [hd0, if_false]
    have : chainStart d + 2 - chainStart d = 2 := by omega
    rw [this]
    rfl

theorem parseLabel_follows_pointers_witness :
    parseLabel id 200 (chainStart 3) (chainBuf 3) = .ok (str "a.", 2) :=
  (parseLabel_follows_pointers id).2 3 200 (by decide) (by decide) (by decide)

/-! ## dns.go : fixed-width fields -/

theorem readU16_of_IsAt {buf : List Nat} {pos v : Nat} (h : IsAt buf pos (be16 v))
    (hv : v < 65536) (hlen : buf.length ≤ 65535) : readU16 buf pos = .ok v := by
  have hb := h.bound
  have hs := h.slice_eq
  simp only [be16, List.length_cons, List.length_nil] at hb hs
  unfold readU16
  rw [u16_of_lt _ (by omega), hs]
  simp only [beUint16, be16]
  congr 1
  omega

theorem readU32_of_IsAt {buf : List Nat} {pos w : Nat} (h : IsAt buf pos (be32 w))
    (hw : w < 4294967296) (hlen : buf.length ≤ 65535) : readU32 buf pos = .ok w := by
  have hb := h.bound
  have hs := h.slice_eq
  simp only [be32, List.length_cons, List.length_nil] at hb hs
  unfold readU32
  rw [u16_of_lt _ (by omega), hs]
  simp only [beUint32, be32]
  congr 1
  omega

theorem int32Bits_lt (t : Int) : int32Bits t < 4294967296 := by
  unfold int32Bits
  have h1 : 0 ≤ t % 4294967296 := Int.emod_nonneg t (by norm_num)
  have h2 : t % 4294967296 < 4294967296 := Int.emod_lt_of_pos t (by norm_num)
  omega

/-- One iteration of the loop of `parseRRs` on a record whose fields stand in
the buffer. -/
theorem parseRRsLoop_step (ul : Str → Str) (ip : IPLib) (fuel : Nat) (buf : List Nat)
    (k pos nl ty cl w rdl : Nat) (nm data : Str)
    (hname : parseLabel ul fuel pos buf = .ok (nm, nl))
    (hat : IsAt buf (pos + nl) (be16 ty ++ be16 cl ++ be32 w ++ be16 rdl))
    (hty : ty < 65536) (hcl : cl < 65536) (hw : w < 4294967296) (hrdl : rdl < 65536)
    (hlen : buf.length ≤ 65535) (hend : pos + nl + 10 + rdl ≤ buf.length)
    (hdata : parseRData ul ip fuel buf (pos + nl + 10) rdl ty = .ok data)
    (hsup : supportedTypes ty = true) :
    parseRRsLoop ul ip fuel buf (k + 1) pos =
      consRR { Name := nm, Data := data, Class := cl, Type_ := ty, Ttl := toInt32 w }
        (parseRRsLoop ul ip fuel buf k (pos + nl + 10 + rdl)) := by
  have h1 : IsAt buf (pos + nl) (be16 ty) := hat.left.left.left
  have h2 : IsAt buf (pos + nl + 2) (be16 cl) := by
    have := hat.left.left.right
    simpa [be16] using this
  have h3 : IsAt buf (pos + nl + 2 + 2) (be32 w) := by
    have := hat.left.right
    simpa [be16, Nat.add_assoc] using this
  have h4 : IsAt buf (pos + nl + 2 + 2 + 4) (be16 rdl) := by
    have := hat.right
    simpa [be16, be32, Nat.add_assoc] using this
  rw [parseRRsLoop]
  simp only [hname]
  rw [u16_of_lt (pos + nl) (by omega), readU16_of_IsAt h1 hty hlen]
  simp only []
  rw [u16_of_lt (pos + nl + 2) (by omega), readU16_of_IsAt h2 hcl hlen]
  simp only []
  rw [u16_of_lt (pos + nl + 2 + 2) (by omega), readU32_of_IsAt h3 hw hlen]
  simp only []
  rw [u16_of_lt (pos + nl + 2 + 2 + 4) (by omega), readU16_of_IsAt h4 hrdl hlen]
  simp only []
  rw [u16_of_lt (pos + nl + 2 + 2 + 4 + 2) (by omega)]
  have e1 : pos + nl + 2 + 2 + 4 + 2 = pos + nl + 10 := by omega
  rw [e1, hdata]
  simp only []
  rw [u16_of_lt (pos + nl + 10 + rdl) (by omega)]
  simp only [hsup, if_true]
  generalize parseRRsLoop ul ip fuel buf k (pos + nl + 10 + rdl) = r
  cases r with
  | error e => rfl
  | ok v => rfl

/-- One iteration of the loop of `parseQuestion` on a question whose fields
stand in the buffer. -/
theorem parseQuestionLoop_step (ul : Str → Str) (fuel : Nat) (buf : List Nat)
    (k pos nl ty cl : Nat) (nm : Str)
    (hname : parseLabel ul fuel pos buf = .ok (nm, nl))
    (hat : IsAt buf (pos + nl) (be16 ty ++ be16 cl))
    (hty : ty < 65536) (hcl : cl < 65536) (hlen : buf.length ≤ 65535) :
    parseQuestionLoop ul fuel buf (k + 1) pos =
      consQ { Name := nm, Type_ := ty, Class := cl }
        (parseQuestionLoop ul fuel buf k (pos + nl + 4)) := by
  have h1 : IsAt buf (pos + nl) (be16 ty) := hat.left
  have h2 : IsAt buf (pos + nl + 2) (be16 cl) := by
    have := hat.right
    simpa [be16] using this
  have hb := h2.bound
  simp only [be16, List.length_cons, List.length_nil] at hb
  rw [parseQuestionLoop]
  simp only [hname]
  rw [u16_of_lt (pos + nl) (by omega), readU16_of_IsAt h1 hty hlen]
  simp only []
  rw [u16_of_lt (pos + nl + 2) (by omega), readU16_of_IsAt h2 hcl hlen]
  simp only []
  rw [u16_of_lt (pos + nl + 2 + 2) (by omega)]
  have e1 : pos + nl + 2 + 2 = pos + nl + 4 := by omega
  rw [e1]
  generalize parseQuestionLoop ul fuel buf k (pos + nl + 4) = r
  cases r with
  | error e => rfl
  | ok v => rfl

/-! ## dns.go : one record, written and read back -/

/-- Reading back a record whose owner name is encoded at the end of `buf` and
whose fixed fields and data follow. -/
theorem parseRRsLoop_record (ul : Str → Str) (ip : IPLib) (buf nb rd post : List Nat)
    (ls : List Str) (n fuel k ty cl w : Nat) (data : Str)
    (henc : Enc (buf ++ nb) buf.length ls (buf.length + nb.length) n) (hfuel : n ≤ fuel)
    (hty : ty < 65536) (hcl : cl < 65536) (hw : w < 4294967296)
    (hlen : (buf ++ nb ++ (be16 ty ++ be16 cl ++ be32 w ++ be16 rd.length) ++ rd ++ post).length
      ≤ 65535)
    (hdata : parseRData ul ip fuel
      (buf ++ nb ++ (be16 ty ++ be16 cl ++ be32 w ++ be16 rd.length) ++ rd ++ post)
      (buf.length + nb.length + 10) rd.length ty = .ok data)
    (hsup : supportedTypes ty = true) :
    parseRRsLoop ul ip fuel
        (buf ++ nb ++ (be16 ty ++ be16 cl ++ be32 w ++ be16 rd.length) ++ rd ++ post) (k + 1)
        buf.length =
      consRR { Name := (joinLabels ls).map lowerByte, Data := data, Class := cl, Type_ := ty,
               Ttl := toInt32 w }
        (parseRRsLoop ul ip fuel
          (buf ++ nb ++ (be16 ty ++ be16 cl ++ be32 w ++ be16 rd.length) ++ rd ++ post) k
          (buf.length + nb.length + 10 + rd.length)) := by
  have hXlen : (buf ++ nb ++ (be16 ty ++ be16 cl ++ be32 w ++ be16 rd.length) ++ rd ++ post).length
      = buf.length + nb.length + 10 + rd.length + post.length := by
    simp only [List.length_append, be16, be32, List.length_cons, List.length_nil]
  have hX : buf ++ nb ++ (be16 ty ++ be16 cl ++ be32 w ++ be16 rd.length) ++ rd ++ post
      = (buf ++ nb) ++ ((be16 ty ++ be16 cl ++ be32 w ++ be16 rd.length) ++ rd ++ post) := by
    simp only [List.append_assoc]
  have hname := parseLabel_of_Enc ul (henc.enc_extend
    ((be16 ty ++ be16 cl ++ be32 w ++ be16 rd.length) ++ rd ++ post)) (by rw [← hX]; exact hlen)
    fuel hfuel
  rw [← hX] at hname
  have e1 : buf.length + nb.length - buf.length = nb.length := by omega
  rw [e1] at hname
  have hat : IsAt (buf ++ nb ++ (be16 ty ++ be16 cl ++ be32 w ++ be16 rd.length) ++ rd ++ post)
      (buf.length + nb.length) (be16 ty ++ be16 cl ++ be32 w ++ be16 rd.length) :=
    ⟨buf ++ nb, rd ++ post, by simp only [List.append_assoc], by simp⟩
  exact parseRRsLoop_step ul ip fuel _ k buf.length nb.length ty cl w rd.length _ data hname hat
    hty hcl hw (by omega) hlen (by rw [hXlen]; omega) hdata hsup

theorem norm_eq_of (rr : resourceRecord) (nm data : Str)
    (h1 : nm = rr.Name.map lowerByte)
    (h2 : data = if rr.Type_ = 2 then rr.Data.map lowerByte else rr.Data)
    (h3 : -2147483648 ≤ rr.Ttl) (h4 : rr.Ttl ≤ 2147483647) :
    ({ Name := nm, Data := data, Class := rr.Class, Type_ := rr.Type_,
       Ttl := toInt32 (int32Bits rr.Ttl) } : resourceRecord) = rr.norm := by
  rw [toInt32_int32Bits _ h3 h4, h1, h2]
  rfl

/-- Soundness of `resourceRecord.WriteTo` on a record of the data model: it
returns, it only appends, and within `2^14` bytes the table stays sound and
the loop of `parseRRs` reads the record back in its parsed form. -/
theorem WriteTo_sound (ul : Str → Str) (ip : IPLib) (rr : resourceRecord) (hwf : WfRR ip rr)
    (buf : List Nat) (ns : NsCache) :
    ∃ ext ns2, rr.WriteTo ip buf ns = .ok (buf ++ ext, ns2) ∧
      ((buf ++ ext).length ≤ 16384 → 12 ≤ buf.length → CacheOK buf ns →
        CacheOK (buf ++ ext) ns2 ∧
        ∃ n, ∀ (post : List Nat) (fuel k : Nat), n ≤ fuel →
          (buf ++ ext ++ post).length ≤ 65535 →
          parseRRsLoop ul ip fuel (buf ++ ext ++ post) (k + 1) buf.length =
            consRR rr.norm (parseRRsLoop ul ip fuel (buf ++ ext ++ post) k (buf ++ ext).length)) := by
  obtain ⟨⟨ls, hls, hname⟩, hcl, httl1, httl2, hty⟩ := hwf
  obtain ⟨nb, ns1, hnb, hnb1, hsound⟩ := labelBytes_sound ls hls ns true (u16 buf.length)
  have hw := int32Bits_lt rr.Ttl
  rcases hty with ⟨hA, hip, hiplen⟩ | ⟨hNS, ⟨ls2, hls2, hdname⟩⟩ | ⟨hOPT, hdata⟩
  · -- A and AAAA
    refine ⟨nb ++ (be16 rr.Type_ ++ be16 rr.Class ++ be32 (int32Bits rr.Ttl)
      ++ be16 (ip.addrSlice rr.Data).length) ++ ip.addrSlice rr.Data, ns1, ?_, ?_⟩
    · simp only [resourceRecord.WriteTo, hname, hnb, hA, if_true, List.append_assoc]
    · intro hsize h12 hok
      have hsz : buf.length + nb.length ≤ 16384 := by
        simp only [List.length_append] at hsize; omega
      obtain ⟨⟨n1, henc⟩, hok1, _⟩ := hsound buf (u16_of_lt _ (by omega)) h12 hsz hok
      refine ⟨?_, n1, ?_⟩
      · have := hok1.table_extend ((be16 rr.Type_ ++ be16 rr.Class ++ be32 (int32Bits rr.Ttl)
          ++ be16 (ip.addrSlice rr.Data).length) ++ ip.addrSlice rr.Data)
        simpa only [List.append_assoc] using this
      · intro post fuel k hfuel hlen
        have hX : buf ++ (nb ++ (be16 rr.Type_ ++ be16 rr.Class ++ be32 (int32Bits rr.Ttl)
            ++ be16 (ip.addrSlice rr.Data).length) ++ ip.addrSlice rr.Data) ++ post
            = buf ++ nb ++ (be16 rr.Type_ ++ be16 rr.Class ++ be32 (int32Bits rr.Ttl)
            ++ be16 (ip.addrSlice rr.Data).length) ++ ip.addrSlice rr.Data ++ post := by
          simp only [List.append_assoc]
        have hXlen : (buf ++ nb ++ (be16 rr.Type_ ++ be16 rr.Class ++ be32 (int32Bits rr.Ttl)
            ++ be16 (ip.addrSlice rr.Data).length) ++ ip.addrSlice rr.Data ++ post).length
            = buf.length + nb.length + 10 + (ip.addrSlice rr.Data).length + post.length := by
          simp only [List.length_append, be16, be32, List.length_cons, List.length_nil]
        have hEnd : (buf ++ (nb ++ (be16 rr.Type_ ++ be16 rr.Class ++ be32 (int32Bits rr.Ttl)
            ++ be16 (ip.addrSlice rr.Data).length) ++ ip.addrSlice rr.Data)).length
            = buf.length + nb.length + 10 + (ip.addrSlice rr.Data).length := by
          simp only [List.length_append, be16, be32, List.length_cons, List.length_nil]
          omega
        rw [hEnd, hX]
        rw [hX] at hlen
        have hdata : parseRData ul ip fuel
            (buf ++ nb ++ (be16 rr.Type_ ++ be16 rr.Class ++ be32 (int32Bits rr.Ttl)
              ++ be16 (ip.addrSlice rr.Data).length) ++ ip.addrSlice rr.Data ++ post)
            (buf.length + nb.length + 10) (ip.addrSlice rr.Data).length rr.Type_
            = .ok rr.Data := by
          have hat : IsAt (buf ++ nb ++ (be16 rr.Type_ ++ be16 rr.Class ++ be32 (int32Bits rr.Ttl)
              ++ be16 (ip.addrSlice rr.Data).length) ++ ip.addrSlice rr.Data ++ post)
              (buf.length + nb.length + 10) (ip.addrSlice rr.Data) :=
            ⟨buf ++ nb ++ (be16 rr.Type_ ++ be16 rr.Class ++ be32 (int32Bits rr.Ttl)
              ++ be16 (ip.addrSlice rr.Data).length), post, rfl,
              by simp only [List.length_append, be16, be32, List.length_cons, List.length_nil]⟩
          simp only [parseRData, hA, if_true]
          rw [u16_of_lt _ (by rw [hXlen] at hlen; omega), hat.slice_eq]
          simp only [hip]
        have hstep := parseRRsLoop_record ul ip buf nb (ip.addrSlice rr.Data) post ls n1 fuel k
          rr.Type_ rr.Class (int32Bits rr.Ttl) rr.Data henc hfuel
          (by rcases hA with h | h <;> omega) hcl hw hlen hdata
          (by rcases hA with h | h <;> simp [supportedTypes, h])
        rw [hstep]
        have hnorm := norm_eq_of rr ((joinLabels ls).map lowerByte) rr.Data (by rw [hname])
          (by
            have : rr.Type_ ≠ 2 := by rcases hA with h | h <;> omega
            simp [this]) httl1 httl2
        rw [hnorm]
  · -- NS
    obtain ⟨b2, ns2, hb2, hb21, hsound2⟩ := labelBytes_sound ls2 hls2 ns1 true
      (u16 ((buf ++ nb ++ be16 rr.Type_ ++ be16 rr.Class ++ be32 (int32Bits rr.Ttl)).length + 2))
    refine ⟨nb ++ (be16 rr.Type_ ++ be16 rr.Class ++ be32 (int32Bits rr.Ttl)
      ++ be16 b2.length) ++ b2, ns2, ?_, ?_⟩
    · have h1 : ¬ (rr.Type_ = 1 ∨ rr.Type_ = 28) := by omega
      unfold resourceRecord.WriteTo
      simp only [hname, hnb]
      rw [if_neg h1, if_pos hNS]
      simp only [hdname, hb2]
      simp only [List.append_assoc]
    · intro hsize h12 hok
      have hsz : buf.length + nb.length + 10 + b2.length ≤ 16384 := by
        simp only [List.length_append, be16, be32, List.length_cons, List.length_nil] at hsize
        omega
      obtain ⟨⟨n1, henc⟩, hok1, _⟩ := hsound buf (u16_of_lt _ (by omega)) h12 (by omega) hok
      have hB0len : (buf ++ nb ++ be16 rr.Type_ ++ be16 rr.Class ++ be32 (int32Bits rr.Ttl)
          ++ be16 b2.length).length = buf.length + nb.length + 10 := by
        simp only [List.length_append, be16, be32, List.length_cons, List.length_nil]
      have hoff : u16 ((buf ++ nb ++ be16 rr.Type_ ++ be16 rr.Class
          ++ be32 (int32Bits rr.Ttl)).length + 2)
          = (buf ++ nb ++ be16 rr.Type_ ++ be16 rr.Class ++ be32 (int32Bits rr.Ttl)
          ++ be16 b2.length).length := by
        rw [hB0len]
        simp only [List.length_append, be16, be32, List.length_cons, List.length_nil]
        exact u16_of_lt _ (by omega)
      have hok1b : CacheOK (buf ++ nb ++ be16 rr.Type_ ++ be16 rr.Class
          ++ be32 (int32Bits rr.Ttl) ++ be16 b2.length) ns1 := by
        have := hok1.table_extend (be16 rr.Type_ ++ be16 rr.Class ++ be32 (int32Bits rr.Ttl)
          ++ be16 b2.length)
        simpa only [List.append_assoc] using this
      obtain ⟨⟨n2, henc2⟩, hok2, _⟩ := hsound2 _ hoff (by rw [hB0len]; omega)
        (by rw [hB0len]; omega) hok1b
      rw [hB0len] at henc2
      refine ⟨?_, max n1 n2, ?_⟩
      · simpa only [List.append_assoc] using hok2
      · intro post fuel k hfuel hlen
        have hX : buf ++ (nb ++ (be16 rr.Type_ ++ be16 rr.Class ++ be32 (int32Bits rr.Ttl)
            ++ be16 b2.length) ++ b2) ++ post
            = buf ++ nb ++ (be16 rr.Type_ ++ be16 rr.Class ++ be32 (int32Bits rr.Ttl)
            ++ be16 b2.length) ++ b2 ++ post := by
          simp only [List.append_assoc]
        have hX2 : buf ++ nb ++ (be16 rr.Type_ ++ be16 rr.Class ++ be32 (int32Bits rr.Ttl)
            ++ be16 b2.length) ++ b2 ++ post
            = (buf ++ nb ++ be16 rr.Type_ ++ be16 rr.Class ++ be32 (int32Bits rr.Ttl)
            ++ be16 b2.length ++ b2) ++ post := by
          simp only [List.append_assoc]
        have hEnd : (buf ++ (nb ++ (be16 rr.Type_ ++ be16 rr.Class ++ be32 (int32Bits rr.Ttl)
            ++ be16 b2.length) ++ b2)).length = buf.length + nb.length + 10 + b2.length := by
          simp only [List.length_append, be16, be32, List.length_cons, List.length_nil]
          omega
        rw [hEnd, hX]
        rw [hX] at hlen
        have hdata : parseRData ul ip fuel
            (buf ++ nb ++ (be16 rr.Type_ ++ be16 rr.Class ++ be32 (int32Bits rr.Ttl)
              ++ be16 b2.length) ++ b2 ++ post)
            (buf.length + nb.length + 10) b2.length rr.Type_
            = .ok (rr.Data.map lowerByte) := by
          have h1 : ¬ (rr.Type_ = 1 ∨ rr.Type_ = 28) := by omega
          have hp := parseLabel_of_Enc ul (henc2.enc_extend post)
            (by rw [← hX2]; exact hlen) fuel (le_trans (le_max_right _ _) hfuel)
          rw [← hX2] at hp
          unfold parseRData
          rw [if_neg h1, if_pos hNS]
          simp only [hp, hdname]
        have hstep := parseRRsLoop_record ul ip buf nb b2 post ls n1 fuel k
          rr.Type_ rr.Class (int32Bits rr.Ttl) (rr.Data.map lowerByte) henc
          (le_trans (le_max_left _ _) hfuel) (by omega) hcl hw hlen hdata
          (by simp [supportedTypes, hNS])
        rw [hstep]
        have hnorm := norm_eq_of rr ((joinLabels ls).map lowerByte) (rr.Data.map lowerByte)
          (by rw [hname]) (by simp [hNS]) httl1 httl2
        rw [hnorm]
  · -- OPT
    refine ⟨nb ++ (be16 rr.Type_ ++ be16 rr.Class ++ be32 (int32Bits rr.Ttl)
      ++ be16 ([] : List Nat).length) ++ [], ns1, ?_, ?_⟩
    · have h1 : ¬ (rr.Type_ = 1 ∨ rr.Type_ = 28) := by omega
      have h2 : ¬ rr.Type_ = 2 := by omega
      unfold resourceRecord.WriteTo
      simp only [hname, hnb]
      rw [if_neg h1, if_neg h2, if_pos hOPT]
      simp only [List.append_assoc, List.append_nil, List.length_nil]
      rfl
    · intro hsize h12 hok
      have hsz : buf.length + nb.length ≤ 16384 := by
        simp only [List.length_append] at hsize; omega
      obtain ⟨⟨n1, henc⟩, hok1, _⟩ := hsound buf (u16_of_lt _ (by omega)) h12 hsz hok
      refine ⟨?_, n1, ?_⟩
      · have := hok1.table_extend ((be16 rr.Type_ ++ be16 rr.Class ++ be32 (int32Bits rr.Ttl)
          ++ be16 ([] : List Nat).length) ++ [])
        simpa only [List.append_assoc] using this
      · intro post fuel k hfuel hlen
        have hX : buf ++ (nb ++ (be16 rr.Type_ ++ be16 rr.Class ++ be32 (int32Bits rr.Ttl)
            ++ be16 ([] : List Nat).length) ++ []) ++ post
            = buf ++ nb ++ (be16 rr.Type_ ++ be16 rr.Class ++ be32 (int32Bits rr.Ttl)
            ++ be16 ([] : List Nat).length) ++ [] ++ post := by
          simp only [List.append_assoc]
        have hEnd : (buf ++ (nb ++ (be16 rr.Type_ ++ be16 rr.Class ++ be32 (int32Bits rr.Ttl)
            ++ be16 ([] : List Nat).length) ++ [])).length
            = buf.length + nb.length + 10 + ([] : List Nat).length := by
          simp only [List.length_append, be16, be32, List.length_cons, List.length_nil]
          omega
        rw [hEnd, hX]
        rw [hX] at hlen
        have hdata : parseRData ul ip fuel
            (buf ++ nb ++ (be16 rr.Type_ ++ be16 rr.Class ++ be32 (int32Bits rr.Ttl)
              ++ be16 ([] : List Nat).length) ++ [] ++ post)
            (buf.length + nb.length + 10) ([] : List Nat).length rr.Type_
            = .ok rr.Data := by
          have h1 : ¬ (rr.Type_ = 1 ∨ rr.Type_ = 28) := by omega
          have h2 : ¬ rr.Type_ = 2 := by omega
          unfold parseRData
          rw [if_neg h1, if_neg h2, hdata]
        have hstep := parseRRsLoop_record ul ip buf nb [] post ls n1 fuel k
          rr.Type_ rr.Class (int32Bits rr.Ttl) rr.Data henc hfuel (by omega) hcl hw hlen hdata
          (by simp [supportedTypes, hOPT])
        rw [hstep]
        have hnorm := norm_eq_of rr ((joinLabels ls).map lowerByte) rr.Data (by rw [hname])
          (by
            have : rr.Type_ ≠ 2 := by omega
            simp [this]) httl1 httl2
        rw [hnorm]

/-! ## dns.go : sections, written and read back -/

/-- Soundness of a run of `resourceRecord.WriteTo` calls: within `2^14` bytes
the loop of `parseRRs` reads the section back. -/
theorem writeRRs_sound (ul : Str → Str) (ip : IPLib) (rrs : List resourceRecord)
    (hwf : ∀ rr ∈ rrs, WfRR ip rr) :
    ∀ (buf : List Nat) (ns : NsCache),
      ∃ ext ns2, writeRRs ip rrs buf ns = .ok (buf ++ ext, ns2) ∧
        ((buf ++ ext).length ≤ 16384 → 12 ≤ buf.length → CacheOK buf ns →
          CacheOK (buf ++ ext) ns2 ∧
          ∃ n, ∀ (post : List Nat) (fuel : Nat), n ≤ fuel →
            (buf ++ ext ++ post).length ≤ 65535 →
            parseRRsLoop ul ip fuel (buf ++ ext ++ post) rrs.length buf.length =
              .ok (rrs.map resourceRecord.norm, (buf ++ ext).length)) := by
  induction rrs with
  | nil =>
    intro buf ns
    refine ⟨[], ns, by simp [writeRRs], ?_⟩
    intro _ _ hok
    refine ⟨by simpa using hok, 0, ?_⟩
    intro post fuel _ _
    simp [parseRRsLoop]
  | cons rr rest ih =>
    intro buf ns
    obtain ⟨ext1, ns1, hw1, hs1⟩ := WriteTo_sound ul ip rr (hwf rr (List.mem_cons_self _ _)) buf ns
    obtain ⟨ext2, ns2, hw2, hs2⟩ :=
      ih (fun x hx => hwf x (List.mem_cons_of_mem _ hx)) (buf ++ ext1) ns1
    refine ⟨ext1 ++ ext2, ns2, ?_, ?_⟩
    · simp only [writeRRs, hw1, hw2, List.append_assoc]
    · intro hsize h12 hok
      have hsz : buf.length + ext1.length + ext2.length ≤ 16384 := by
        simpa [Nat.add_assoc] using hsize
      obtain ⟨hok1, n1, hstep⟩ := hs1 (by rw [List.length_append]; omega) h12 hok
      obtain ⟨hok2, n2, hrest⟩ := hs2 (by simpa [Nat.add_assoc] using hsize)
        (by rw [List.length_append]; omega) hok1
      refine ⟨by simpa only [List.append_assoc] using hok2, max n1 n2, ?_⟩
      intro post fuel hfuel hlen
      have hX : buf ++ (ext1 ++ ext2) ++ post = buf ++ ext1 ++ (ext2 ++ post) := by
        simp only [List.append_assoc]
      have hX2 : buf ++ (ext1 ++ ext2) ++ post = buf ++ ext1 ++ ext2 ++ post := by
        simp only [List.append_assoc]
      have h1 := hstep (ext2 ++ post) fuel rest.length (le_trans (le_max_left _ _) hfuel)
        (by rw [← hX]; exact hlen)
      have h2 := hrest post fuel (le_trans (le_max_right _ _) hfuel) (by rw [← hX2]; exact hlen)
      rw [← hX] at h1
      rw [← hX2] at h2
      simp only [List.length_cons, List.map_cons]
      rw [h1, h2]
      simp only [consRR, List.append_assoc]

theorem question_norm_eq (q : question) (nm : Str) (h : nm = q.Name.map lowerByte) :
    ({ Name := nm, Type_ := q.Type_, Class := q.Class } : question) = q.norm := by
  rw [h]; rfl

/-- Soundness of `question.WriteTo` on a question of the data model. -/
theorem question_WriteTo_sound (ul : Str → Str) (q : question) (hwf : WfQuestion q)
    (buf : List Nat) (ns : NsCache) :
    ∃ ext ns2, q.WriteTo buf ns = .ok (buf ++ ext, ns2) ∧
      ((buf ++ ext).length ≤ 16384 → 12 ≤ buf.length → CacheOK buf ns →
        CacheOK (buf ++ ext) ns2 ∧
        ∃ n, ∀ (post : List Nat) (fuel k : Nat), n ≤ fuel →
          (buf ++ ext ++ post).length ≤ 65535 →
          parseQuestionLoop ul fuel (buf ++ ext ++ post) (k + 1) buf.length =
            consQ q.norm (parseQuestionLoop ul fuel (buf ++ ext ++ post) k (buf ++ ext).length)) := by
  obtain ⟨⟨ls, hls, hname⟩, hty, hcl⟩ := hwf
  obtain ⟨nb, ns1, hnb, hnb1, hsound⟩ := labelBytes_sound ls hls ns false (u16 buf.length)
  refine ⟨nb ++ (be16 q.Type_ ++ be16 q.Class), ns1, ?_, ?_⟩
  · simp only [question.WriteTo, hname, hnb, List.append_assoc]
  · intro hsize h12 hok
    have hsz : buf.length + nb.length + 4 ≤ 16384 := by
      simp only [List.length_append, be16, List.length_cons, List.length_nil] at hsize
      omega
    obtain ⟨⟨n1, henc⟩, hok1, _⟩ := hsound buf (u16_of_lt _ (by omega)) h12 (by omega) hok
    refine ⟨?_, n1, ?_⟩
    · have := hok1.table_extend (be16 q.Type_ ++ be16 q.Class)
      simpa only [List.append_assoc] using this
    · intro post fuel k hfuel hlen
      have hX : buf ++ (nb ++ (be16 q.Type_ ++ be16 q.Class)) ++ post
          = (buf ++ nb) ++ ((be16 q.Type_ ++ be16 q.Class) ++ post) := by
        simp only [List.append_assoc]
      have hEnd : (buf ++ (nb ++ (be16 q.Type_ ++ be16 q.Class))).length
          = buf.length + nb.length + 4 := by
        simp only [List.length_append, be16, List.length_cons, List.length_nil]
        omega
      have hp := parseLabel_of_Enc ul (henc.enc_extend ((be16 q.Type_ ++ be16 q.Class) ++ post))
        (by rw [← hX]; exact hlen) fuel hfuel
      rw [← hX] at hp
      have e1 : buf.length + nb.length - buf.length = nb.length := by omega
      rw [e1] at hp
      have hat : IsAt (buf ++ (nb ++ (be16 q.Type_ ++ be16 q.Class)) ++ post)
          (buf.length + nb.length) (be16 q.Type_ ++ be16 q.Class) :=
        ⟨buf ++ nb, post, by simp only [List.append_assoc], by simp⟩
      rw [hEnd, parseQuestionLoop_step ul fuel _ k buf.length nb.length q.Type_ q.Class _ hp hat
        hty hcl hlen, question_norm_eq q _ (by rw [hname])]

/-- Soundness of a run of `question.WriteTo` calls. -/
theorem writeQuestions_sound (ul : Str → Str) (qs : List question)
    (hwf : ∀ q ∈ qs, WfQuestion q) :
    ∀ (buf : List Nat) (ns : NsCache),
      ∃ ext ns2, writeQuestions qs buf ns = .ok (buf ++ ext, ns2) ∧
        ((buf ++ ext).length ≤ 16384 → 12 ≤ buf.length → CacheOK buf ns →
          CacheOK (buf ++ ext) ns2 ∧
          ∃ n, ∀ (post : List Nat) (fuel : Nat), n ≤ fuel →
            (buf ++ ext ++ post).length ≤ 65535 →
            parseQuestionLoop ul fuel (buf ++ ext ++ post) qs.length buf.length =
              .ok (qs.map question.norm, (buf ++ ext).length)) := by
  induction qs with
  | nil =>
    intro buf ns
    refine ⟨[], ns, by simp [writeQuestions], ?_⟩
    intro _ _ hok
    refine ⟨by simpa using hok, 0, ?_⟩
    intro post fuel _ _
    simp [parseQuestionLoop]
  | cons q rest ih =>
    intro buf ns
    obtain ⟨ext1, ns1, hw1, hs1⟩ :=
      question_WriteTo_sound ul q (hwf q (List.mem_cons_self _ _)) buf ns
    obtain ⟨ext2, ns2, hw2, hs2⟩ :=
      ih (fun x hx => hwf x (List.mem_cons_of_mem _ hx)) (buf ++ ext1) ns1
    refine ⟨ext1 ++ ext2, ns2, ?_, ?_⟩
    · simp only [writeQuestions, hw1, hw2, List.append_assoc]
    · intro hsize h12 hok
      have hsz : buf.length + ext1.length + ext2.length ≤ 16384 := by
        simpa [Nat.add_assoc] using hsize
      obtain ⟨hok1, n1, hstep⟩ := hs1 (by rw [List.length_append]; omega) h12 hok
      obtain ⟨hok2, n2, hrest⟩ := hs2 (by simpa [Nat.add_assoc] using hsize)
        (by rw [List.length_append]; omega) hok1
      refine ⟨by simpa only [List.append_assoc] using hok2, max n1 n2, ?_⟩
      intro post fuel hfuel hlen
      have hX : buf ++ (ext1 ++ ext2) ++ post = buf ++ ext1 ++ (ext2 ++ post) := by
        simp only [List.append_assoc]
      have hX2 : buf ++ (ext1 ++ ext2) ++ post = buf ++ ext1 ++ ext2 ++ post := by
        simp only [List.append_assoc]
      have h1 := hstep (ext2 ++ post) fuel rest.length (le_trans (le_max_left _ _) hfuel)
        (by rw [← hX]; exact hlen)
      have h2 := hrest post fuel (le_trans (le_max_right _ _) hfuel) (by rw [← hX2]; exact hlen)
      rw [← hX] at h1
      rw [← hX2] at h2
      simp only [List.length_cons, List.map_cons]
      rw [h1, h2]
      simp only [consQ, List.append_assoc]

/-! ## dns.go : the message codec round trip -/

theorem readU16_of_IsAt_low {buf : List Nat} {pos v : Nat} (h : IsAt buf pos (be16 v))
    (hv : v < 65536) (hpos : pos + 2 < 65536) : readU16 buf pos = .ok v := by
  have hs := h.slice_eq
  simp only [be16, List.length_cons, List.length_nil] at hs
  unfold readU16
  rw [u16_of_lt _ hpos, hs]
  simp only [beUint16, be16]
  congr 1
  omega

theorem parseHeader_WriteTo (h : header) (rest : List Nat)
    (h1 : h.ID < 65536) (h2 : h.Flags < 65536) (h3 : h.QDCOUNT < 65536) (h4 : h.ANCOUNT < 65536)
    (h5 : h.NSCOUNT < 65536) (h6 : h.ARCOUNT < 65536) :
    parseHeader (h.WriteTo [] ++ rest) = .ok h := by
  have a1 : IsAt (h.WriteTo [] ++ rest) 0 (be16 h.ID) :=
    ⟨[], be16 h.Flags ++ be16 h.QDCOUNT ++ be16 h.ANCOUNT ++ be16 h.NSCOUNT ++ be16 h.ARCOUNT
      ++ rest, by simp [header.WriteTo], rfl⟩
  have a2 : IsAt (h.WriteTo [] ++ rest) 2 (be16 h.Flags) :=
    ⟨be16 h.ID, be16 h.QDCOUNT ++ be16 h.ANCOUNT ++ be16 h.NSCOUNT ++ be16 h.ARCOUNT
      ++ rest, by simp [header.WriteTo], rfl⟩
  have a3 : IsAt (h.WriteTo [] ++ rest) 4 (be16 h.QDCOUNT) :=
    ⟨be16 h.ID ++ be16 h.Flags, be16 h.ANCOUNT ++ be16 h.NSCOUNT ++ be16 h.ARCOUNT
      ++ rest, by simp [header.WriteTo], rfl⟩
  have a4 : IsAt (h.WriteTo [] ++ rest) 6 (be16 h.ANCOUNT) :=
    ⟨be16 h.ID ++ be16 h.Flags ++ be16 h.QDCOUNT, be16 h.NSCOUNT ++ be16 h.ARCOUNT
      ++ rest, by simp [header.WriteTo], rfl⟩
  have a5 : IsAt (h.WriteTo [] ++ rest) 8 (be16 h.NSCOUNT) :=
    ⟨be16 h.ID ++ be16 h.Flags ++ be16 h.QDCOUNT ++ be16 h.ANCOUNT, be16 h.ARCOUNT
      ++ rest, by simp [header.WriteTo], rfl⟩
  have a6 : IsAt (h.WriteTo [] ++ rest) 10 (be16 h.ARCOUNT) :=
    ⟨be16 h.ID ++ be16 h.Flags ++ be16 h.QDCOUNT ++ be16 h.ANCOUNT ++ be16 h.NSCOUNT,
      rest, by simp [header.WriteTo], rfl⟩
  unfold parseHeader
  rw [readU16_of_IsAt_low a1 h1 (by decide), readU16_of_IsAt_low a2 h2 (by decide),
    readU16_of_IsAt_low a3 h3 (by decide), readU16_of_IsAt_low a4 h4 (by decide),
    readU16_of_IsAt_low a5 h5 (by decide), readU16_of_IsAt_low a6 h6 (by decide)]

theorem header_WriteTo_length (h : header) : (h.WriteTo []).length = 12 := by
  simp [header.WriteTo, be16]

/-- The round trip with the final table kept: `message.encode` returns on a
message of the data model, and within `2^14` bytes `parseMessage` reads the
message back in its parsed form. -/
theorem encode_roundtrip (ul : Str → Str) (ip : IPLib) (m : message) (hwf : WfMessage ip m) :
    ∃ b ns, m.encode ip = .ok (b, ns) ∧
      (b.length ≤ 16384 → ∃ n, ∀ fuel, n ≤ fuel →
        parseMessage ul ip fuel b = .ok (m.norm, b.length)) := by
  obtain ⟨hid, hfl, hql, hal, hul, hdl, hq, ha, hu, hd⟩ := hwf
  obtain ⟨eq, nq, hwq, hsq⟩ := writeQuestions_sound ul m.Question hq
    (header.WriteTo
      { m.Header with
        QDCOUNT := u16 m.Question.length, ANCOUNT := u16 m.Answer.length,
        NSCOUNT := u16 m.Authority.length, ARCOUNT := u16 m.Additional.length } [])
    (fun _ => none)
  generalize hhdr : header.WriteTo
      { m.Header with
        QDCOUNT := u16 m.Question.length, ANCOUNT := u16 m.Answer.length,
        NSCOUNT := u16 m.Authority.length, ARCOUNT := u16 m.Additional.length } [] = hb
    at hwq hsq
  have hb12 : hb.length = 12 := by rw [← hhdr]; exact header_WriteTo_length _
  obtain ⟨ea, na, hwa, hsa⟩ := writeRRs_sound ul ip m.Answer ha (hb ++ eq) nq
  obtain ⟨eu, nu, hwu, hsu⟩ := writeRRs_sound ul ip m.Authority hu (hb ++ eq ++ ea) na
  obtain ⟨ed, nd, hwd, hsd⟩ := writeRRs_sound ul ip m.Additional hd (hb ++ eq ++ ea ++ eu) nu
  refine ⟨hb ++ eq ++ ea ++ eu ++ ed, nd, ?_, ?_⟩
  · simp only [message.encode, hhdr, hwq, hwa, hwu, hwd]
  · intro hsize
    have hsz : hb.length + eq.length + ea.length + eu.length + ed.length ≤ 16384 := by
      simpa [Nat.add_assoc] using hsize
    obtain ⟨hokq, n1, hpq⟩ := hsq (by rw [List.length_append]; omega) (by omega)
      (fun key v hk => by simp at hk)
    obtain ⟨hoka, n2, hpa⟩ := hsa (by simp only [List.length_append]; omega)
      (by rw [List.length_append]; omega) hokq
    obtain ⟨hoku, n3, hpu⟩ := hsu (by simp only [List.length_append]; omega)
      (by simp only [List.length_append]; omega) hoka
    obtain ⟨_, n4, hpd⟩ := hsd (by simp only [List.length_append]; omega)
      (by simp only [List.length_append]; omega) hoku
    refine ⟨max (max n1 n2) (max n3 n4), ?_⟩
    intro fuel hfuel
    have hf1 : n1 ≤ fuel := le_trans (le_trans (le_max_left _ _) (le_max_left _ _)) hfuel
    have hf2 : n2 ≤ fuel := le_trans (le_trans (le_max_right _ _) (le_max_left _ _)) hfuel
    have hf3 : n3 ≤ fuel := le_trans (le_trans (le_max_left _ _) (le_max_right _ _)) hfuel
    have hf4 : n4 ≤ fuel := le_trans (le_trans (le_max_right _ _) (le_max_right _ _)) hfuel
    have hlen : (hb ++ eq ++ ea ++ eu ++ ed).length ≤ 65535 := by omega
    have e1 : hb ++ eq ++ ea ++ eu ++ ed = hb ++ (eq ++ ea ++ eu ++ ed) := by
      simp only [List.append_assoc]
    have e2 : hb ++ eq ++ ea ++ eu ++ ed = hb ++ eq ++ (ea ++ eu ++ ed) := by
      simp only [List.append_assoc]
    have e3 : hb ++ eq ++ ea ++ eu ++ ed = hb ++ eq ++ ea ++ (eu ++ ed) := by
      simp only [List.append_assoc]
    have e5 : hb ++ eq ++ ea ++ eu ++ ed = hb ++ eq ++ ea ++ eu ++ ed ++ [] := by simp
    have hhead : parseHeader (hb ++ eq ++ ea ++ eu ++ ed) = .ok
        { m.Header with
          QDCOUNT := m.Question.length, ANCOUNT := m.Answer.length,
          NSCOUNT := m.Authority.length, ARCOUNT := m.Additional.length } := by
      have := parseHeader_WriteTo
        { m.Header with
          QDCOUNT := u16 m.Question.length, ANCOUNT := u16 m.Answer.length,
          NSCOUNT := u16 m.Authority.length, ARCOUNT := u16 m.Additional.length }
        (eq ++ ea ++ eu ++ ed) hid hfl (Nat.mod_lt _ (by norm_num)) (Nat.mod_lt _ (by norm_num))
        (Nat.mod_lt _ (by norm_num)) (Nat.mod_lt _ (by norm_num))
      rw [hhdr, ← e1] at this
      rw [this, u16_of_lt _ hql, u16_of_lt _ hal, u16_of_lt _ hul, u16_of_lt _ hdl]
    have hq2 := hpq (ea ++ eu ++ ed) fuel hf1 (by rw [← e2]; exact hlen)
    rw [← e2, hb12] at hq2
    have ha2 := hpa (eu ++ ed) fuel hf2 (by rw [← e3]; exact hlen)
    rw [← e3] at ha2
    have hu2 := hpu ed fuel hf3 hlen
    have hd2 := hpd [] fuel hf4 (by rw [← e5]; exact hlen)
    rw [← e5] at hd2
    have l1 : (hb ++ eq).length = 12 + eq.length := by rw [List.length_append, hb12]
    have l2 : (hb ++ eq ++ ea).length = 12 + eq.length + ea.length := by
      rw [List.length_append, l1]
    have l3 : (hb ++ eq ++ ea ++ eu).length = 12 + eq.length + ea.length + eu.length := by
      rw [List.length_append, l2]
    have l4 : (hb ++ eq ++ ea ++ eu ++ ed).length
        = 12 + eq.length + ea.length + eu.length + ed.length := by
      rw [List.length_append, l3]
    rw [l1] at hq2 ha2
    rw [l2] at ha2 hu2
    rw [l3] at hu2 hd2
    rw [l4] at hd2
    have s1 : u16sub (12 + eq.length) 12 = eq.length := by
      unfold u16sub; split <;> omega
    have s2 : u16sub (12 + eq.length + ea.length) (12 + eq.length) = ea.length := by
      unfold u16sub; split <;> omega
    have s3 : u16sub (12 + eq.length + ea.length + eu.length) (12 + eq.length + ea.length)
        = eu.length := by
      unfold u16sub; split <;> omega
    have s4 : u16sub (12 + eq.length + ea.length + eu.length + ed.length)
        (12 + eq.length + ea.length + eu.length) = ed.length := by
      unfold u16sub; split <;> omega
    unfold parseMessage
    rw [hhead]
    simp only [parseQuestion, hq2, s1]
    rw [u16_of_lt (12 + eq.length) (by omega)]
    simp only [parseRRs, ha2, s2]
    rw [u16_of_lt (12 + eq.length + ea.length) (by omega)]
    simp only [hu2, s3]
    rw [u16_of_lt (12 + eq.length + ea.length + eu.length) (by omega)]
    simp only [hd2, s4]
    rw [u16_of_lt (12 + eq.length + ea.length + eu.length + ed.length) (by omega), l4]
    rfl

/-- C1 (amended). For every message of the data model built from supported
types (names the root or dot-terminated labels of 1 to 63 ASCII bytes, A and
AAAA data in the form `net.IP.String` prints, NS data a name, OPT data empty,
fields in the range of their Go types, sections of fewer than `2^16`
entries), `m.Bytes()` returns, and when the encoding has at most `2^14` bytes
`parseMessage` reads back, given enough fuel, the message with the same ID
and Flags, the counts set to the section lengths, and the four sections
element by element in order, names in lower case and TTLs unchanged; it
consumes the whole buffer. -/
theorem codec_roundtrip (ul : Str → Str) (ip : IPLib) (m : message) (hwf : WfMessage ip m) :
    ∃ b, m.Bytes ip = .ok b ∧
      (b.length ≤ 16384 → ∃ n, ∀ fuel, n ≤ fuel →
        parseMessage ul ip fuel b = .ok (m.norm, b.length)) := by
  obtain ⟨b, ns, henc, hparse⟩ := encode_roundtrip ul ip m hwf
  exact ⟨b, by simp only [message.Bytes, henc], hparse⟩

theorem sampleMessage_wf : WfMessage sampleIP sampleMessage := by
  refine ⟨by decide, by decide, by decide, by decide, by decide, by decide, ?_, ?_, ?_, ?_⟩
  · intro q hq
    simp only [sampleMessage, List.mem_singleton] at hq
    subst hq
    exact ⟨⟨[str "Example", str "com"], by decide, by decide⟩, by decide, by decide⟩
  · intro rr hrr
    simp only [sampleMessage, List.mem_singleton] at hrr
    subst hrr
    exact ⟨⟨[str "example", str "com"], by decide, by decide⟩, by decide, by decide, by decide,
      Or.inl ⟨by decide, by decide, by decide⟩⟩
  · intro rr hrr
    simp only [sampleMessage, List.mem_singleton] at hrr
    subst hrr
    exact ⟨⟨[str "com"], by decide, by decide⟩, by decide, by decide, by decide,
      Or.inr (Or.inl ⟨by decide, [str "ns", str "Example", str "com"], by decide, by decide⟩)⟩
  · intro rr hrr
    simp only [sampleMessage, List.mem_cons, List.mem_singleton, List.not_mem_nil, or_false] at hrr
    rcases hrr with h | h
    · subst h
      exact ⟨⟨[], by decide, by decide⟩, by decide, by decide, by decide,
        Or.inr (Or.inr ⟨by decide, by decide⟩)⟩
    · subst h
      exact ⟨⟨[str "ns", str "Example", str "com"], by decide, by decide⟩, by decide, by decide,
        by decide, Or.inl ⟨by decide, by decide, by decide⟩⟩

theorem codec_roundtrip_witness :
    WfMessage sampleIP sampleMessage ∧
    ∃ b, sampleMessage.Bytes sampleIP = .ok b ∧
      (b.length ≤ 16384 → ∃ n, ∀ fuel, n ≤ fuel →
        parseMessage id sampleIP fuel b = .ok (sampleMessage.norm, b.length)) :=
  ⟨sampleMessage_wf, codec_roundtrip id sampleIP sampleMessage sampleMessage_wf⟩

/-! ## dns.go : where the round trip stops -/

theorem writeQuestions_root (n : Nat) (buf : List Nat) (ns : NsCache) :
    writeQuestions (List.replicate n rootQuestion) buf ns
      = .ok (buf ++ (List.replicate n [0, 0, 1, 0, 1]).flatten, ns) := by
  induction n generalizing buf with
  | zero => simp [writeQuestions]
  | succ n ih =>
    have h1 : rootQuestion.WriteTo buf ns = .ok (buf ++ [0, 0, 1, 0, 1], ns) := by
      simp [question.WriteTo, rootQuestion, labelBytes, be16]
    simp only [List.replicate_succ, writeQuestions, h1, ih, List.flatten_cons, List.append_assoc]

/-- With `2^16` questions the count field wraps to 0 and nothing is read back. -/
theorem many_roundtrip (n : Nat) (hn : n = 65536) :
    ∃ b, message.Bytes sampleIP { message.zero with Question := List.replicate n rootQuestion }
        = .ok b ∧
      ∀ fuel, parseMessage id sampleIP fuel b = .ok (message.zero, 12) := by
  refine ⟨header.WriteTo message.zero.Header []
    ++ (List.replicate n [0, 0, 1, 0, 1]).flatten, ?_, ?_⟩
  · have e1 : u16 (List.replicate n rootQuestion).length = 0 := by
      rw [List.length_replicate, hn]; rfl
    have e3 : (u16 ([] : List resourceRecord).length) = 0 := rfl
    simp only [message.Bytes, message.encode, message.zero, e1, e3, writeQuestions_root, writeRRs]
  · intro fuel
    have hh := parseHeader_WriteTo message.zero.Header
      (List.replicate n [0, 0, 1, 0, 1]).flatten (by decide) (by decide) (by decide)
      (by decide) (by decide) (by decide)
    unfold parseMessage
    rw [hh]
    rfl

set_option maxRecDepth 16384 in
theorem longLabel_never_parses (fuel : Nat) (r : message × Nat) :
    ∀ b, longLabelMessage.Bytes sampleIP = .ok b → parseMessage id sampleIP fuel b ≠ .ok r := by
  intro b hb
  have hb2 : b = [0, 0, 0, 0, 0, 1, 0, 0, 0, 0, 0, 0] ++ ([200] ++ List.replicate 200 97 ++ [0])
      ++ [0, 1, 0, 1] := by
    have : longLabelMessage.Bytes sampleIP = .ok ([0, 0, 0, 0, 0, 1, 0, 0, 0, 0, 0, 0]
      ++ ([200] ++ List.replicate 200 97 ++ [0]) ++ [0, 1, 0, 1]) := rfl
    rw [this] at hb
    exact (Except.ok.inj hb).symm
  subst hb2
  have hlabel : ∀ acc, ∃ e, parseLabelLoop id ([0, 0, 0, 0, 0, 1, 0, 0, 0, 0, 0, 0]
      ++ ([200] ++ List.replicate 200 97 ++ [0]) ++ [0, 1, 0, 1]) fuel 12 acc = .error e := by
    intro acc
    cases fuel with
    | zero => exact ⟨_, rfl⟩
    | succ k =>
      cases k with
      | zero => exact ⟨_, rfl⟩
      | succ j => exact ⟨_, rfl⟩
  obtain ⟨e, he⟩ := hlabel []
  have hhead : parseHeader ([0, 0, 0, 0, 0, 1, 0, 0, 0, 0, 0, 0]
      ++ ([200] ++ List.replicate 200 97 ++ [0]) ++ [0, 1, 0, 1])
      = .ok { ID := 0, Flags := 0, QDCOUNT := 1, ANCOUNT := 0, NSCOUNT := 0, ARCOUNT := 0 } := rfl
  simp only [parseMessage, hhead, parseQuestion, parseQuestionLoop, parseLabel, he]
  simp

theorem flatten_replicate_length (n : Nat) :
    ((List.replicate n [0, 0, 1, 0, 1]).flatten : List Nat).length = 5 * n := by
  induction n with
  | zero => rfl
  | succ n ih => simp only [List.replicate_succ, List.flatten_cons, List.length_append, ih,
      List.length_cons, List.length_nil]; omega

/-- Reading back a run of root-name questions. -/
theorem parseQuestionLoop_root (ul : Str → Str) (fuel : Nat) (hfuel : 1 ≤ fuel) (n : Nat) :
    ∀ (pre post : List Nat),
      (pre ++ (List.replicate n [0, 0, 1, 0, 1]).flatten ++ post).length ≤ 65535 →
      parseQuestionLoop ul fuel (pre ++ (List.replicate n [0, 0, 1, 0, 1]).flatten ++ post) n
          pre.length
        = .ok (List.replicate n rootQuestion, pre.length + 5 * n) := by
  induction n with
  | zero => intro pre post _; simp [parseQuestionLoop]
  | succ n ih =>
    intro pre post hlen
    have hX : pre ++ (List.replicate (n + 1) [0, 0, 1, 0, 1]).flatten ++ post
        = (pre ++ [0, 0, 1, 0, 1]) ++ (List.replicate n [0, 0, 1, 0, 1]).flatten ++ post := by
      simp [List.replicate_succ]
    rw [hX] at hlen ⊢
    have hrest := ih (pre ++ [0, 0, 1, 0, 1]) post hlen
    have henc : Enc ((pre ++ [0, 0, 1, 0, 1]) ++ (List.replicate n [0, 0, 1, 0, 1]).flatten ++ post)
        pre.length [] (pre.length + 1) 1 :=
      Enc.nil _ ⟨pre, [0, 1, 0, 1] ++ (List.replicate n [0, 0, 1, 0, 1]).flatten ++ post,
        by simp, rfl⟩
    have hname := parseLabel_of_Enc ul henc hlen fuel hfuel
    have e1 : pre.length + 1 - pre.length = 1 := by omega
    rw [e1] at hname
    have hat : IsAt ((pre ++ [0, 0, 1, 0, 1]) ++ (List.replicate n [0, 0, 1, 0, 1]).flatten ++ post)
        (pre.length + 1) (be16 1 ++ be16 1) :=
      ⟨pre ++ [0], (List.replicate n [0, 0, 1, 0, 1]).flatten ++ post, by simp [be16], by simp⟩
    rw [parseQuestionLoop_step ul fuel _ n pre.length 1 1 1 _ hname hat (by decide) (by decide) hlen]
    have e2 : (pre ++ [0, 0, 1, 0, 1]).length = pre.length + 1 + 4 := by simp
    rw [e2] at hrest
    rw [hrest]
    simp only [consQ, joinLabels, List.map_nil, List.replicate_succ, rootQuestion]
    congr 2
    omega

theorem sampleA_b_WriteTo_first (buf : List Nat) (hlen : buf.length = 16397) :
    ∃ ns1, (sampleA "b." 60).WriteTo sampleIP buf (fun _ => none)
        = .ok (buf ++ [1, 98, 0] ++ (be16 1 ++ be16 1 ++ be32 60 ++ be16 4) ++ [192, 0, 2, 1], ns1) ∧
      ns1 (str "b.") = some 49165 := by
  have hl : ∃ ns1, labelBytes (str "b.") (fun _ => none) true (u16 16397) = .ok ([1, 98, 0], ns1) ∧
      ns1 (str "b.") = some 49165 := ⟨_, rfl, rfl⟩
  obtain ⟨ns1, h1, h2⟩ := hl
  refine ⟨ns1, ?_, h2⟩
  have hname : (sampleA "b." 60).Name = str "b." := rfl
  have hty : (sampleA "b." 60).Type_ = 1 := rfl
  have hcl : (sampleA "b." 60).Class = 1 := rfl
  have httl : int32Bits (sampleA "b." 60).Ttl = 60 := rfl
  have hdata : sampleIP.addrSlice (sampleA "b." 60).Data = [192, 0, 2, 1] := rfl
  unfold resourceRecord.WriteTo
  rw [hname, hlen, h1]
  simp only [hty, hcl, httl, hdata, true_or, if_true, List.length_cons, List.length_nil,
    List.append_assoc]

theorem sampleA_b_WriteTo_second (buf : List Nat) (ns1 : NsCache)
    (h : ns1 (str "b.") = some 49165) :
    (sampleA "b." 60).WriteTo sampleIP buf ns1
      = .ok (buf ++ [192, 13] ++ (be16 1 ++ be16 1 ++ be32 60 ++ be16 4) ++ [192, 0, 2, 1], ns1) := by
  have hne : str "b." ≠ [] := by decide
  have hl : labelBytes (str "b.") ns1 true (u16 buf.length) = .ok ([192, 13], ns1) := by
    simp only [labelBytes, hne, if_false, if_true, h]
    rfl
  have hname : (sampleA "b." 60).Name = str "b." := rfl
  have hty : (sampleA "b." 60).Type_ = 1 := rfl
  have hcl : (sampleA "b." 60).Class = 1 := rfl
  have httl : int32Bits (sampleA "b." 60).Ttl = 60 := rfl
  have hdata : sampleIP.addrSlice (sampleA "b." 60).Data = [192, 0, 2, 1] := rfl
  unfold resourceRecord.WriteTo
  rw [hname, hl]
  simp only [hty, hcl, httl, hdata, true_or, if_true, List.length_cons, List.length_nil,
    List.append_assoc]

theorem big_encode (n : Nat) (hn : n = 3277) :
    ∃ ns1, ns1 (str "b.") = some 49165 ∧ message.encode sampleIP
        { message.zero with
          Question := List.replicate n rootQuestion
          Answer := [sampleA "b." 60, sampleA "b." 60] }
      = .ok (header.WriteTo
          { ID := 0, Flags := 0, QDCOUNT := n, ANCOUNT := 2, NSCOUNT := 0, ARCOUNT := 0 } []
        ++ (List.replicate n [0, 0, 1, 0, 1]).flatten
        ++ [1, 98, 0] ++ (be16 1 ++ be16 1 ++ be32 60 ++ be16 4) ++ [192, 0, 2, 1]
        ++ [192, 13] ++ (be16 1 ++ be16 1 ++ be32 60 ++ be16 4) ++ [192, 0, 2, 1], ns1) := by
  have hlen1 : (header.WriteTo
      { ID := 0, Flags := 0, QDCOUNT := n, ANCOUNT := 2, NSCOUNT := 0, ARCOUNT := 0 } []
      ++ (List.replicate n [0, 0, 1, 0, 1]).flatten).length = 16397 := by
    rw [List.length_append, header_WriteTo_length, flatten_replicate_length]
    omega
  obtain ⟨ns1, hw1, hns1⟩ := sampleA_b_WriteTo_first _ hlen1
  have hw2 := sampleA_b_WriteTo_second
    (header.WriteTo
      { ID := 0, Flags := 0, QDCOUNT := n, ANCOUNT := 2, NSCOUNT := 0, ARCOUNT := 0 } []
      ++ (List.replicate n [0, 0, 1, 0, 1]).flatten
      ++ [1, 98, 0] ++ (be16 1 ++ be16 1 ++ be32 60 ++ be16 4) ++ [192, 0, 2, 1]) ns1 hns1
  refine ⟨ns1, hns1, ?_⟩
  have e1 : u16 (List.replicate n rootQuestion).length = n := by
    rw [List.length_replicate]; exact u16_of_lt _ (by omega)
  have e2 : (u16 [sampleA "b." 60, sampleA "b." 60].length) = 2 := rfl
  have e3 : (u16 ([] : List resourceRecord).length) = 0 := rfl
  simp only [message.encode, message.zero, e1, e2, e3, writeQuestions_root, writeRRs, hw1, hw2]

/-- Reading back the two answers of the over-size message, for any header
bytes `hb` and question bytes `Q` that end at offset 16397. -/
theorem big_parse_core (hb Q : List Nat) (n fuel : Nat) (hfuel : 2 ≤ fuel)
    (hhb : hb.length = 12) (hQ : Q.length = 16385) (hn5 : 5 * n = 16385)
    (hQ13 : IsAt (hb ++ Q) 13 [0])
    (hhead : ∀ rest, parseHeader (hb ++ Q ++ rest)
      = .ok { ID := 0, Flags := 0, QDCOUNT := n, ANCOUNT := 2, NSCOUNT := 0, ARCOUNT := 0 })
    (hquest : ∀ post, (hb ++ Q ++ post).length ≤ 65535 →
      parseQuestionLoop id fuel (hb ++ Q ++ post) n hb.length
        = .ok (List.replicate n rootQuestion, hb.length + 5 * n)) :
    parseMessage id sampleIP fuel
        (hb ++ Q ++ [1, 98, 0] ++ (be16 1 ++ be16 1 ++ be32 60 ++ be16 4) ++ [192, 0, 2, 1]
          ++ [192, 13] ++ (be16 1 ++ be16 1 ++ be32 60 ++ be16 4) ++ [192, 0, 2, 1])
      = .ok ({ Header := { ID := 0, Flags := 0, QDCOUNT := n, ANCOUNT := 2, NSCOUNT := 0,
                           ARCOUNT := 0 }
               Question := List.replicate n rootQuestion
               Answer := [sampleA "b." 60, { sampleA "b." 60 with Name := [] }]
               Authority := []
               Additional := [] }, 16430) := by
  have hbQ : (hb ++ Q).length = 16397 := by rw [List.length_append, hhb, hQ]
  -- the whole buffer, in the shapes the lemmas expect
  have hB0 : hb ++ Q ++ [1, 98, 0] ++ (be16 1 ++ be16 1 ++ be32 60 ++ be16 4) ++ [192, 0, 2, 1]
      ++ [192, 13] ++ (be16 1 ++ be16 1 ++ be32 60 ++ be16 4) ++ [192, 0, 2, 1]
      = hb ++ Q ++ ([1, 98, 0] ++ (be16 1 ++ be16 1 ++ be32 60 ++ be16 4) ++ [192, 0, 2, 1]
      ++ [192, 13] ++ (be16 1 ++ be16 1 ++ be32 60 ++ be16 4) ++ [192, 0, 2, 1]) := by
    simp only [List.append_assoc]
  have hB1 : hb ++ Q ++ [1, 98, 0] ++ (be16 1 ++ be16 1 ++ be32 60 ++ be16 4) ++ [192, 0, 2, 1]
      ++ [192, 13] ++ (be16 1 ++ be16 1 ++ be32 60 ++ be16 4) ++ [192, 0, 2, 1]
      = (hb ++ Q) ++ [1, 98, 0]
      ++ (be16 1 ++ be16 1 ++ be32 60 ++ be16 ([192, 0, 2, 1] : List Nat).length) ++ [192, 0, 2, 1]
      ++ ([192, 13] ++ (be16 1 ++ be16 1 ++ be32 60 ++ be16 4) ++ [192, 0, 2, 1]) := by
    simp only [List.append_assoc, List.length_cons, List.length_nil]
  have hB2 : hb ++ Q ++ [1, 98, 0] ++ (be16 1 ++ be16 1 ++ be32 60 ++ be16 4) ++ [192, 0, 2, 1]
      ++ [192, 13] ++ (be16 1 ++ be16 1 ++ be32 60 ++ be16 4) ++ [192, 0, 2, 1]
      = (hb ++ Q ++ [1, 98, 0] ++ (be16 1 ++ be16 1 ++ be32 60 ++ be16 4) ++ [192, 0, 2, 1])
      ++ [192, 13]
      ++ (be16 1 ++ be16 1 ++ be32 60 ++ be16 ([192, 0, 2, 1] : List Nat).length) ++ [192, 0, 2, 1]
      ++ [] := by
    simp only [List.append_assoc, List.append_nil, List.length_cons, List.length_nil]
  generalize hBdef : hb ++ Q ++ [1, 98, 0] ++ (be16 1 ++ be16 1 ++ be32 60 ++ be16 4)
      ++ [192, 0, 2, 1] ++ [192, 13] ++ (be16 1 ++ be16 1 ++ be32 60 ++ be16 4) ++ [192, 0, 2, 1]
      = B at hB0 hB1 hB2
  have hBlen : B.length = 16430 := by
    rw [hB1]
    simp only [List.length_append, hbQ, be16, be32, List.length_cons, List.length_nil]
  have hR1len : (hb ++ Q ++ [1, 98, 0] ++ (be16 1 ++ be16 1 ++ be32 60 ++ be16 4)
      ++ [192, 0, 2, 1]).length = 16414 := by
    simp only [List.length_append, hhb, hQ, be16, be32, List.length_cons, List.length_nil]
  -- header and questions
  have hh := hhead ([1, 98, 0] ++ (be16 1 ++ be16 1 ++ be32 60 ++ be16 4) ++ [192, 0, 2, 1]
      ++ [192, 13] ++ (be16 1 ++ be16 1 ++ be32 60 ++ be16 4) ++ [192, 0, 2, 1])
  rw [← hB0] at hh
  have hq := hquest ([1, 98, 0] ++ (be16 1 ++ be16 1 ++ be32 60 ++ be16 4) ++ [192, 0, 2, 1]
      ++ [192, 13] ++ (be16 1 ++ be16 1 ++ be32 60 ++ be16 4) ++ [192, 0, 2, 1])
      (by rw [← hB0, hBlen]; decide)
  rw [← hB0, hhb, hn5] at hq
  -- first answer
  have henc1 : Enc ((hb ++ Q) ++ [1, 98, 0]) (hb ++ Q).length [[98]] ((hb ++ Q).length + 3) 2 := by
    refine Enc.label _ [98] [] _ 1 (by decide) ⟨hb ++ Q, [0], by simp, rfl⟩ ?_
    exact Enc.nil _ ⟨hb ++ Q ++ [1, 98], [], by simp, by rw [List.length_append]; rfl⟩
  have hdata1 : parseRData id sampleIP fuel B ((hb ++ Q).length + 3 + 10) 4 1
      = .ok (str "192.0.2.1") := by
    have hat : IsAt B ((hb ++ Q).length + 3 + 10) [192, 0, 2, 1] := by
      rw [hB1]
      exact ⟨(hb ++ Q) ++ [1, 98, 0]
          ++ (be16 1 ++ be16 1 ++ be32 60 ++ be16 ([192, 0, 2, 1] : List Nat).length),
        [192, 13] ++ (be16 1 ++ be16 1 ++ be32 60 ++ be16 4) ++ [192, 0, 2, 1], rfl,
        by simp only [List.length_append, be16, be32, List.length_cons, List.length_nil]⟩
    have hs := hat.slice_eq
    simp only [List.length_cons, List.length_nil] at hs
    have hu : u16 ((hb ++ Q).length + 3 + 10 + 4) = (hb ++ Q).length + 3 + 10 + 4 := by
      rw [hbQ]; rfl
    simp only [parseRData, true_or, if_true, hu]
    rw [hs]
    rfl
  have h1 : parseRRsLoop id sampleIP fuel B 2 (hb ++ Q).length
      = consRR (sampleA "b." 60) (parseRRsLoop id sampleIP fuel B 1 ((hb ++ Q).length + 3 + 10 + 4)) := by
    have := parseRRsLoop_record id sampleIP (hb ++ Q) [1, 98, 0] [192, 0, 2, 1]
      ([192, 13] ++ (be16 1 ++ be16 1 ++ be32 60 ++ be16 4) ++ [192, 0, 2, 1]) [[98]] 2 fuel 1
      1 1 60 (str "192.0.2.1") henc1 hfuel (by decide) (by decide) (by decide)
      (by rw [← hB1, hBlen]; decide) (by rw [← hB1]; exact hdata1) (by decide)
    rw [← hB1] at this
    exact this
  -- second answer: a pointer to offset 13
  have henc2 : Enc ((hb ++ Q ++ [1, 98, 0] ++ (be16 1 ++ be16 1 ++ be32 60 ++ be16 4)
      ++ [192, 0, 2, 1]) ++ [192, 13])
      (hb ++ Q ++ [1, 98, 0] ++ (be16 1 ++ be16 1 ++ be32 60 ++ be16 4) ++ [192, 0, 2, 1]).length
      [] ((hb ++ Q ++ [1, 98, 0] ++ (be16 1 ++ be16 1 ++ be32 60 ++ be16 4)
        ++ [192, 0, 2, 1]).length + 2) 2 := by
    refine Enc.ptr _ 13 [] 14 1 (by decide) (IsAt.self _ _) ?_
    have h13 : IsAt ((hb ++ Q ++ [1, 98, 0] ++ (be16 1 ++ be16 1 ++ be32 60 ++ be16 4)
        ++ [192, 0, 2, 1]) ++ [192, 13]) 13 [0] := by
      have := hQ13.append_right ([1, 98, 0] ++ (be16 1 ++ be16 1 ++ be32 60 ++ be16 4)
        ++ [192, 0, 2, 1] ++ [192, 13])
      simpa only [List.append_assoc] using this
    exact Enc.nil 13 h13
  have hdata2 : parseRData id sampleIP fuel B 16426 4 1 = .ok (str "192.0.2.1") := by
    have hat : IsAt B 16426 [192, 0, 2, 1] := by
      rw [hB2]
      exact ⟨(hb ++ Q ++ [1, 98, 0] ++ (be16 1 ++ be16 1 ++ be32 60 ++ be16 4) ++ [192, 0, 2, 1])
        ++ [192, 13]
        ++ (be16 1 ++ be16 1 ++ be32 60 ++ be16 ([192, 0, 2, 1] : List Nat).length), [],
        by simp only [List.append_assoc, List.append_nil],
        by simp only [List.length_append, hhb, hQ, be16, be32, List.length_cons, List.length_nil]⟩
    have hs := hat.slice_eq
    simp only [List.length_cons, List.length_nil] at hs
    have hu : u16 (16426 + 4) = 16426 + 4 := rfl
    simp only [parseRData, true_or, if_true, hu]
    rw [hs]
    rfl
  have h2 : parseRRsLoop id sampleIP fuel B 1 16414
      = consRR { sampleA "b." 60 with Name := [] } (parseRRsLoop id sampleIP fuel B 0 16430) := by
    have := parseRRsLoop_record id sampleIP
      (hb ++ Q ++ [1, 98, 0] ++ (be16 1 ++ be16 1 ++ be32 60 ++ be16 4) ++ [192, 0, 2, 1])
      [192, 13] [192, 0, 2, 1] [] [] 2 fuel 0 1 1 60 (str "192.0.2.1") henc2 hfuel (by decide)
      (by decide) (by decide) (by rw [← hB2, hBlen]; decide)
      (by rw [← hB2, hR1len]; exact hdata2) (by decide)
    rw [← hB2, hR1len] at this
    exact this
  rw [hbQ] at h1
  have h0 : parseRRsLoop id sampleIP fuel B 0 16430 = .ok ([], 16430) := rfl
  have hRR : parseRRsLoop id sampleIP fuel B 2 16397
      = .ok ([sampleA "b." 60, { sampleA "b." 60 with Name := [] }], 16430) := by
    rw [h1, show 16397 + 3 + 10 + 4 = 16414 from rfl, h2, h0]
    rfl
  unfold parseMessage
  rw [hh]
  simp only [parseQuestion, hq]
  have s1 : u16sub (12 + 16385) 12 = 16385 := by decide
  have s2 : u16 (12 + 16385) = 16397 := by decide
  rw [s1, s2]
  simp only [parseRRs, hRR]
  have s3 : u16sub 16430 16397 = 33 := by decide
  have s4 : u16 (16397 + 33) = 16430 := by decide
  rw [s3, s4]
  simp only [parseRRsLoop]
  have s5 : u16sub 16430 16430 = 0 := by decide
  have s6 : u16 (16430 + 0) = 16430 := by decide
  rw [s5, s6]
  rw [s5, s6]

/-- The over-size message: it is written, the table entry of `b.` holds
`49165` (offset 13 once masked, where a zero byte stands), and the second
answer is read back with the root name. -/
theorem big_roundtrip (n : Nat) (hn : n = 3277) :
    ∃ b ns1, message.encode sampleIP
        { message.zero with
          Question := List.replicate n rootQuestion
          Answer := [sampleA "b." 60, sampleA "b." 60] } = .ok (b, ns1) ∧
      ns1 (str "b.") = some 49165 ∧ IsAt b 13 [0] ∧ b.length = 16430 ∧
      ∀ fuel, parseMessage id sampleIP (fuel + 2) b
        = .ok ({ Header := { ID := 0, Flags := 0, QDCOUNT := n, ANCOUNT := 2, NSCOUNT := 0,
                             ARCOUNT := 0 }
                 Question := List.replicate n rootQuestion
                 Answer := [sampleA "b." 60, { sampleA "b." 60 with Name := [] }]
                 Authority := []
                 Additional := [] }, 16430) := by
  obtain ⟨ns1, hns1, henc⟩ := big_encode n hn
  have hQ : ((List.replicate n [0, 0, 1, 0, 1]).flatten : List Nat).length = 16385 := by
    rw [flatten_replicate_length, hn]
  have hhb : (header.WriteTo
      { ID := 0, Flags := 0, QDCOUNT := n, ANCOUNT := 2, NSCOUNT := 0, ARCOUNT := 0 } []).length
      = 12 := header_WriteTo_length _
  have h13 : IsAt (header.WriteTo
      { ID := 0, Flags := 0, QDCOUNT := n, ANCOUNT := 2, NSCOUNT := 0, ARCOUNT := 0 } []
      ++ (List.replicate n [0, 0, 1, 0, 1]).flatten) 13 [0] := by
    obtain ⟨k, hk⟩ : ∃ k, n = k + 1 := ⟨3276, hn⟩
    rw [hk, List.replicate_succ, List.flatten_cons]
    exact ⟨header.WriteTo
        { ID := 0, Flags := 0, QDCOUNT := k + 1, ANCOUNT := 2, NSCOUNT := 0, ARCOUNT := 0 } []
        ++ [0], [1, 0, 1] ++ (List.replicate k [0, 0, 1, 0, 1]).flatten,
      by simp only [List.append_assoc, List.singleton_append, List.cons_append, List.nil_append],
      by rw [List.length_append, header_WriteTo_length]; rfl⟩
  refine ⟨_, ns1, henc, hns1, ?_, ?_, ?_⟩
  · have := h13.append_right ([1, 98, 0] ++ (be16 1 ++ be16 1 ++ be32 60 ++ be16 4)
      ++ [192, 0, 2, 1] ++ [192, 13] ++ (be16 1 ++ be16 1 ++ be32 60 ++ be16 4) ++ [192, 0, 2, 1])
    simpa only [List.append_assoc] using this
  · simp only [List.length_append, hhb, hQ, be16, be32, List.length_cons, List.length_nil]
  · intro fuel
    refine big_parse_core _ _ n (fuel + 2) (by omega) hhb hQ (by omega) h13 ?_ ?_
    · intro rest
      rw [List.append_assoc]
      exact parseHeader_WriteTo
        { ID := 0, Flags := 0, QDCOUNT := n, ANCOUNT := 2, NSCOUNT := 0, ARCOUNT := 0 } _
        (by show 0 < 65536; decide) (by show 0 < 65536; decide) (by show n < 65536; omega)
        (by show 2 < 65536; decide) (by show 0 < 65536; decide) (by show 0 < 65536; decide)
    · intro post hlen
      exact parseQuestionLoop_root id (fuel + 2) (by omega) n _ post hlen

set_option maxRecDepth 16384 in
theorem longLabel_roundtrip :
    ∃ b, longLabelMessage.Bytes sampleIP = .ok b ∧
      ∀ fuel r, parseMessage id sampleIP fuel b ≠ .ok r :=
  ⟨_, rfl, fun fuel r => longLabel_never_parses fuel r _ rfl⟩

theorem manyQuestions_roundtrip :
    ∃ b, manyQuestionsMessage.Bytes sampleIP = .ok b ∧
      ∀ fuel, parseMessage id sampleIP fuel b = .ok (message.zero, 12) :=
  many_roundtrip 65536 rfl

theorem Bytes_of_encode (ip : IPLib) (m : message) (b : List Nat) (ns : NsCache)
    (h : m.encode ip = .ok (b, ns)) : m.Bytes ip = .ok b := by
  unfold message.Bytes
  rw [h]

theorem bigMessage_roundtrip :
    ∃ b ns1, message.encode sampleIP bigMessage = .ok (b, ns1) ∧
      ns1 (str "b.") = some 49165 ∧ IsAt b 13 [0] ∧ b.length = 16430 ∧
      ∀ fuel, ∃ r l, parseMessage id sampleIP (fuel + 2) b = .ok (r, l) ∧
        r.Answer.map (fun rr => rr.Name) = [str "b.", []] := by
  obtain ⟨b, ns1, henc, hns, h13, hlen, hparse⟩ := big_roundtrip 3277 rfl
  exact ⟨b, ns1, henc, hns, h13, hlen, fun fuel => ⟨_, _, hparse fuel, rfl⟩⟩

/-- C1 (counterexample): four messages of the data model with supported
record types only for which the round trip does not hold. An OPT record with
data `x` is read back with empty data; a name with a 200-byte label is written
but the bytes are never read back as a message; with `2^16` questions the
count wraps to 0 and no question is read back; in a message longer than `2^14`
bytes the second owner name `b.` is read back as the root name. -/
theorem codec_roundtrip_fails :
    (∃ b r l, optDataMessage.Bytes sampleIP = .ok b ∧
      parseMessage id sampleIP 10 b = .ok (r, l) ∧
      r.Additional = [{ Name := [], Data := [], Class := 4096, Type_ := 41, Ttl := 0 }]) ∧
    (∃ b, longLabelMessage.Bytes sampleIP = .ok b ∧
      ∀ fuel r, parseMessage id sampleIP fuel b ≠ .ok r) ∧
    (∃ b, manyQuestionsMessage.Bytes sampleIP = .ok b ∧
      ∀ fuel, parseMessage id sampleIP fuel b = .ok (message.zero, 12)) ∧
    (∃ b, bigMessage.Bytes sampleIP = .ok b ∧
      ∀ fuel, ∃ r l, parseMessage id sampleIP (fuel + 2) b = .ok (r, l) ∧
        r.Answer.map (fun rr => rr.Name) = [str "b.", []]) := by
  refine ⟨⟨_, _, _, rfl, rfl, rfl⟩, longLabel_roundtrip, manyQuestions_roundtrip, ?_⟩
  obtain ⟨b, ns1, henc, -, -, -, hparse⟩ := bigMessage_roundtrip
  exact ⟨b, Bytes_of_encode _ _ _ _ henc, hparse⟩

/-! ## dns.go : header flags -/

theorem flag_bit (w s : Nat) : (((w >>> s) &&& 0b1) == 1) = w.testBit s := by
  rw [Nat.testBit_to_div_mod, Nat.shiftRight_eq_div_pow, Nat.and_one_is_mod, Bool.eq_iff_iff]
  simp

theorem field_bits (w s len : Nat) : (w >>> s) &&& (2 ^ len - 1) = w / 2 ^ s % 2 ^ len := by
  rw [Nat.shiftRight_eq_div_pow, Nat.and_pow_two_sub_one_eq_mod]

theorem bit_testBit (w s : Nat) : bit (w.testBit s) = w / 2 ^ s % 2 := by
  rw [Nat.testBit_to_div_mod]
  unfold bit
  by_cases h : w / 2 ^ s % 2 = 1
  · simp [h]
  · have : w / 2 ^ s % 2 = 0 := by omega
    simp [this]

theorem QR_testBit (h : header) (hw : h.Flags < 65536) : h.QR = h.Flags.testBit 15 := by
  unfold header.QR
  rw [Nat.testBit_to_div_mod, Nat.shiftRight_eq_div_pow, Bool.eq_iff_iff]
  simp only [beq_iff_eq, decide_eq_true_eq]
  have : (2 : Nat) ^ 15 = 32768 := by norm_num
  rw [this]
  omega

theorem OPCODE_bits (h : header) : h.OPCODE = h.Flags / 2 ^ 11 % 2 ^ 4 := by
  unfold header.OPCODE
  rw [show (0b1111 : Nat) = 2 ^ 4 - 1 from rfl, field_bits]
  have : h.Flags / 2 ^ 11 % 2 ^ 4 < 16 := Nat.mod_lt _ (by norm_num)
  omega

theorem Z_bits (h : header) : h.Z = h.Flags / 2 ^ 4 % 2 ^ 3 := by
  unfold header.Z
  rw [show (0b111 : Nat) = 2 ^ 3 - 1 from rfl, field_bits]
  have : h.Flags / 2 ^ 4 % 2 ^ 3 < 8 := Nat.mod_lt _ (by norm_num)
  omega

theorem RCODE_bits (h : header) : h.RCODE = h.Flags % 2 ^ 4 := by
  unfold header.RCODE
  rw [show (0b1111 : Nat) = 2 ^ 4 - 1 from rfl, Nat.and_pow_two_sub_one_eq_mod]
  have : h.Flags % 2 ^ 4 < 16 := Nat.mod_lt _ (by norm_num)
  omega

/-- C12. Header flag layout: on a 16-bit Flags word the accessors read
QR = bit 15, OPCODE = bits 14..11, AA = bit 10, TC = bit 9, RD = bit 8,
RA = bit 7, Z = bits 6..4 and RCODE = bits 3..0, and the word is the sum of
the eight fields, each at its place. -/
theorem header_flag_layout (h : header) (hw : h.Flags < 65536) :
    h.QR = h.Flags.testBit 15 ∧ h.OPCODE = h.Flags / 2 ^ 11 % 2 ^ 4 ∧
    h.AA = h.Flags.testBit 10 ∧ h.TC = h.Flags.testBit 9 ∧ h.RD = h.Flags.testBit 8 ∧
    h.RA = h.Flags.testBit 7 ∧ h.Z = h.Flags / 2 ^ 4 % 2 ^ 3 ∧ h.RCODE = h.Flags % 2 ^ 4 ∧
    h.Flags = bit h.QR * 2 ^ 15 + h.OPCODE * 2 ^ 11 + bit h.AA * 2 ^ 10 + bit h.TC * 2 ^ 9
      + bit h.RD * 2 ^ 8 + bit h.RA * 2 ^ 7 + h.Z * 2 ^ 4 + h.RCODE := by
  have hQR := QR_testBit h hw
  have hAA : h.AA = h.Flags.testBit 10 := flag_bit _ _
  have hTC : h.TC = h.Flags.testBit 9 := flag_bit _ _
  have hRD : h.RD = h.Flags.testBit 8 := flag_bit _ _
  have hRA : h.RA = h.Flags.testBit 7 := flag_bit _ _
  refine ⟨hQR, OPCODE_bits h, hAA, hTC, hRD, hRA, Z_bits h, RCODE_bits h, ?_⟩
  rw [hQR, hAA, hTC, hRD, hRA, OPCODE_bits, Z_bits, RCODE_bits]
  simp only [bit_testBit]
  norm_num
  omega

theorem header_flag_layout_witness :
    sampleMessage.Header.Flags < 65536 ∧
    sampleMessage.Header.QR = true ∧ sampleMessage.Header.OPCODE = 0 ∧
    sampleMessage.Header.AA = false ∧ sampleMessage.Header.RD = true ∧
    sampleMessage.Header.RA = true ∧ sampleMessage.Header.RCODE = 0 ∧
    sampleMessage.Header.Flags
      = bit sampleMessage.Header.QR * 2 ^ 15 + sampleMessage.Header.OPCODE * 2 ^ 11
        + bit sampleMessage.Header.AA * 2 ^ 10 + bit sampleMessage.Header.TC * 2 ^ 9
        + bit sampleMessage.Header.RD * 2 ^ 8 + bit sampleMessage.Header.RA * 2 ^ 7
        + sampleMessage.Header.Z * 2 ^ 4 + sampleMessage.Header.RCODE :=
  ⟨by decide, by decide, by decide, by decide, by decide, by decide, by decide,
    (header_flag_layout sampleMessage.Header (by decide)).2.2.2.2.2.2.2.2⟩

theorem testBit_u16_high (w i : Nat) (hw : w < 65536) (hi : 16 ≤ i) : w.testBit i = false := by
  apply Nat.testBit_lt_two_pow
  calc w < 2 ^ 16 := hw
    _ ≤ 2 ^ i := Nat.pow_le_pow_right (by norm_num) hi

theorem testBit_mask_RD (i : Nat) : (0b1111111011111111 : Nat).testBit i = decide (i < 16 ∧ i ≠ 8) := by
  by_cases hi : i < 16
  · interval_cases i <;> rfl
  · rw [testBit_u16_high _ i (by norm_num) (by omega)]
    simp [hi]

theorem testBit_mask_RA (i : Nat) : (0b1111111101111111 : Nat).testBit i = decide (i < 16 ∧ i ≠ 7) := by
  by_cases hi : i < 16
  · interval_cases i <;> rfl
  · rw [testBit_u16_high _ i (by norm_num) (by omega)]
    simp [hi]

/-- The bits of the Flags word after `SetQR(v)` with `v` in `{0, 1}`. -/
theorem SetQR_testBit (h : header) (hw : h.Flags < 65536) (v i : Nat) (hv : v ≤ 1) :
    (h.SetQR v).Flags.testBit i = if i = 15 then decide (v = 1) else h.Flags.testBit i := by
  have hv2 : v = 0 ∨ v = 1 := by omega
  rcases hv2 with rfl | rfl
  · have e : (h.SetQR 0).Flags = h.Flags &&& (2 ^ 15 - 1) := rfl
    rw [e, Nat.testBit_and, Nat.testBit_two_pow_sub_one]
    by_cases h15 : i = 15
    · simp [h15]
    · by_cases hlt : i < 15
      · simp [h15, hlt]
      · rw [testBit_u16_high _ i hw (by omega)]
        simp [h15]
  · have e : (h.SetQR 1).Flags = h.Flags ||| 2 ^ 15 := rfl
    rw [e, Nat.testBit_or, Nat.testBit_two_pow]
    by_cases h15 : i = 15
    · simp [h15]
    · have : ¬ 15 = i := fun hh => h15 hh.symm
      simp [h15, this]

/-- The bits of the Flags word after `SetRD(v)` with `v` in `{0, 1}`. -/
theorem SetRD_testBit (h : header) (hw : h.Flags < 65536) (v i : Nat) (hv : v ≤ 1) :
    (h.SetRD v).Flags.testBit i = if i = 8 then decide (v = 1) else h.Flags.testBit i := by
  have hv2 : v = 0 ∨ v = 1 := by omega
  rcases hv2 with rfl | rfl
  · have e : (h.SetRD 0).Flags = h.Flags &&& 0b1111111011111111 := rfl
    rw [e, Nat.testBit_and, testBit_mask_RD]
    by_cases h8 : i = 8
    · simp [h8]
    · by_cases hlt : i < 16
      · simp [h8, hlt]
      · rw [testBit_u16_high _ i hw (by omega)]
        simp [h8]
  · have e : (h.SetRD 1).Flags = h.Flags ||| 2 ^ 8 := rfl
    rw [e, Nat.testBit_or, Nat.testBit_two_pow]
    by_cases h8 : i = 8
    · simp [h8]
    · have : ¬ 8 = i := fun hh => h8 hh.symm
      simp [h8, this]

/-- The bits of the Flags word after `SetRA(v)` with `v` in `{0, 1}`. -/
theorem SetRA_testBit (h : header) (hw : h.Flags < 65536) (v i : Nat) (hv : v ≤ 1) :
    (h.SetRA v).Flags.testBit i = if i = 7 then decide (v = 1) else h.Flags.testBit i := by
  have hv2 : v = 0 ∨ v = 1 := by omega
  rcases hv2 with rfl | rfl
  · have e : (h.SetRA 0).Flags = h.Flags &&& 0b1111111101111111 := rfl
    rw [e, Nat.testBit_and, testBit_mask_RA]
    by_cases h7 : i = 7
    · simp [h7]
    · by_cases hlt : i < 16
      · simp [h7, hlt]
      · rw [testBit_u16_high _ i hw (by omega)]
        simp [h7]
  · have e : (h.SetRA 1).Flags = h.Flags ||| 2 ^ 7 := rfl
    rw [e, Nat.testBit_or, Nat.testBit_two_pow]
    by_cases h7 : i = 7
    · simp [h7]
    · have : ¬ 7 = i := fun hh => h7 hh.symm
      simp [h7, this]

/-- A word all of whose bits from 16 on are clear is a 16-bit word. -/
theorem lt_of_testBit_frame (w w1 : Nat) (hw : w < 65536)
    (hb : ∀ i, 16 ≤ i → w1.testBit i = w.testBit i) : w1 < 65536 := by
  have := Nat.lt_pow_two_of_testBit (n := 16) w1 (fun i hi => by
    rw [hb i hi]; exact testBit_u16_high w i hw hi)
  simpa using this

/-- A field of `len` bits at shift `s` depends on the bits `s` to
`s + len - 1` only. -/
theorem field_frame (w w1 s len : Nat)
    (hb : ∀ i, s ≤ i → i < s + len → w1.testBit i = w.testBit i) :
    (w1 >>> s) &&& (2 ^ len - 1) = (w >>> s) &&& (2 ^ len - 1) := by
  apply Nat.eq_of_testBit_eq
  intro j
  rw [Nat.testBit_and, Nat.testBit_and, Nat.testBit_shiftRight, Nat.testBit_shiftRight,
    Nat.testBit_two_pow_sub_one]
  by_cases hj : j < len
  · rw [hb (s + j) (by omega) (by omega)]
  · simp [hj]

/-- The accessors other than QR and RA do not see a change of the bits 15 and 7. -/
theorem accessors_frame (h h2 : header)
    (hb : ∀ i, i ≠ 15 → i ≠ 7 → h2.Flags.testBit i = h.Flags.testBit i) :
    h2.RD = h.RD ∧ h2.OPCODE = h.OPCODE ∧ h2.AA = h.AA ∧ h2.TC = h.TC ∧ h2.Z = h.Z ∧
      h2.RCODE = h.RCODE := by
  have hRD : h2.RD = h.RD := by
    rw [show h2.RD = h2.Flags.testBit 8 from flag_bit _ _,
      show h.RD = h.Flags.testBit 8 from flag_bit _ _]
    exact hb 8 (by decide) (by decide)
  have hAA : h2.AA = h.AA := by
    rw [show h2.AA = h2.Flags.testBit 10 from flag_bit _ _,
      show h.AA = h.Flags.testBit 10 from flag_bit _ _]
    exact hb 10 (by decide) (by decide)
  have hTC : h2.TC = h.TC := by
    rw [show h2.TC = h2.Flags.testBit 9 from flag_bit _ _,
      show h.TC = h.Flags.testBit 9 from flag_bit _ _]
    exact hb 9 (by decide) (by decide)
  have hOP : h2.OPCODE = h.OPCODE := by
    have := field_frame h.Flags h2.Flags 11 4 (fun i h1 h2 => hb i (by omega) (by omega))
    unfold header.OPCODE
    rw [show (0b1111 : Nat) = 2 ^ 4 - 1 from rfl, this]
  have hZ : h2.Z = h.Z := by
    have := field_frame h.Flags h2.Flags 4 3 (fun i h1 h2 => hb i (by omega) (by omega))
    unfold header.Z
    rw [show (0b111 : Nat) = 2 ^ 3 - 1 from rfl, this]
  have hRC : h2.RCODE = h.RCODE := by
    have := field_frame h.Flags h2.Flags 0 4 (fun i h1 h2 => hb i (by omega) (by omega))
    rw [Nat.shiftRight_zero, Nat.shiftRight_zero] at this
    unfold header.RCODE
    rw [show (0b1111 : Nat) = 2 ^ 4 - 1 from rfl, this]
  exact ⟨hRD, hOP, hAA, hTC, hZ, hRC⟩

theorem SetQR_fields (h : header) (v : Nat) : h.SetQR v = { h with Flags := (h.SetQR v).Flags } := by
  unfold header.SetQR
  by_cases h1 : v > 1
  · simp [h1]
  · by_cases h2 : u16 (v <<< 15) = 0 <;> simp [h1, h2]

theorem SetRD_fields (h : header) (v : Nat) : h.SetRD v = { h with Flags := (h.SetRD v).Flags } := by
  unfold header.SetRD
  by_cases h1 : v > 1
  · simp [h1]
  · by_cases h2 : u16 (v <<< 8) = 0 <;> simp [h1, h2]

theorem SetRA_fields (h : header) (v : Nat) : h.SetRA v = { h with Flags := (h.SetRA v).Flags } := by
  unfold header.SetRA
  by_cases h1 : v > 1
  · simp [h1]
  · by_cases h2 : u16 (v <<< 7) = 0 <;> simp [h1, h2]

/-- The loop of `handler` leaves the header and the questions alone. -/
theorem handlerLoop_frame (env : Env) (fuel : Nat) :
    ∀ (qs : List question) (m : message) (w : World) (m1 : message) (w1 : World),
      handlerLoop env fuel qs m w = (.ret m1, w1) →
      m1.Header = m.Header ∧ m1.Question = m.Question := by
  intro qs
  induction qs with
  | nil =>
    intro m w m1 w1 h
    simp only [handlerLoop, Prod.mk.injEq, Outcome.ret.injEq] at h
    rw [← h.1]
    exact ⟨rfl, rfl⟩
  | cons q qs ih =>
    intro m w m1 w1 h
    unfold handlerLoop at h
    generalize hr : resolve env fuel q m.Header.RD w = r at h
    obtain ⟨o, w2⟩ := r
    cases o with
    | ret r1 =>
      have := ih _ _ _ _ h
      exact this
    | fail e => exact ih _ _ _ _ h
    | panic p => simp at h
    | outOfFuel => simp at h

/-- C13. Reply header: after the updates `SetQR(1)` and `SetRA(1)` made by
`handler`, `QR()` and `RA()` are true and the ID, `RD()`, `OPCODE()`, `AA()`,
`TC()`, `Z()` and `RCODE()` are those of the request; the message `handler`
leaves behind has that header and the questions of the request. `SetQR`,
`SetRD` and `SetRA` called with `v` in `{0, 1}` set bit 15, 8 and 7 of Flags to
`v`, leave every other bit and every other field unchanged, and with `v > 1`
they change nothing. -/
theorem reply_header (h : header) (hw : h.Flags < 65536) :
    (((h.SetQR 1).SetRA 1).QR = true ∧ ((h.SetQR 1).SetRA 1).RA = true ∧
      ((h.SetQR 1).SetRA 1).ID = h.ID ∧ ((h.SetQR 1).SetRA 1).RD = h.RD ∧
      ((h.SetQR 1).SetRA 1).OPCODE = h.OPCODE ∧ ((h.SetQR 1).SetRA 1).AA = h.AA ∧
      ((h.SetQR 1).SetRA 1).TC = h.TC ∧ ((h.SetQR 1).SetRA 1).Z = h.Z ∧
      ((h.SetQR 1).SetRA 1).RCODE = h.RCODE) ∧
    (∀ (env : Env) (fuel : Nat) (m : message) (w : World) (m1 : message) (w1 : World),
      m.Header = h → handler env fuel m w = (.ret m1, w1) →
      m1.Header = (h.SetQR 1).SetRA 1 ∧ m1.Question = m.Question) ∧
    (∀ v i, v ≤ 1 →
      (h.SetQR v).Flags.testBit i = (if i = 15 then decide (v = 1) else h.Flags.testBit i) ∧
      (h.SetRD v).Flags.testBit i = (if i = 8 then decide (v = 1) else h.Flags.testBit i) ∧
      (h.SetRA v).Flags.testBit i = (if i = 7 then decide (v = 1) else h.Flags.testBit i)) ∧
    (∀ v, h.SetQR v = { h with Flags := (h.SetQR v).Flags } ∧
      h.SetRD v = { h with Flags := (h.SetRD v).Flags } ∧
      h.SetRA v = { h with Flags := (h.SetRA v).Flags }) ∧
    (∀ v, 1 < v → h.SetQR v = h ∧ h.SetRD v = h ∧ h.SetRA v = h) := by
  have hb1 := fun i => SetQR_testBit h hw 1 i (by decide)
  have hw1 : (h.SetQR 1).Flags < 65536 :=
    lt_of_testBit_frame h.Flags _ hw (fun i hi => by rw [hb1 i, if_neg (by omega)])
  have hb2 := fun i => SetRA_testBit (h.SetQR 1) hw1 1 i (by decide)
  have hw2 : ((h.SetQR 1).SetRA 1).Flags < 65536 :=
    lt_of_testBit_frame (h.SetQR 1).Flags _ hw1 (fun i hi => by rw [hb2 i, if_neg (by omega)])
  have hframe : ∀ i, i ≠ 15 → i ≠ 7 →
      ((h.SetQR 1).SetRA 1).Flags.testBit i = h.Flags.testBit i := by
    intro i h15 h7
    rw [hb2 i, if_neg h7, hb1 i, if_neg h15]
  obtain ⟨hRD, hOP, hAA, hTC, hZ, hRC⟩ := accessors_frame h _ hframe
  refine ⟨⟨?_, ?_, ?_, hRD, hOP, hAA, hTC, hZ, hRC⟩, ?_, ?_, ?_, ?_⟩
  · rw [QR_testBit _ hw2, hb2 15, if_neg (by decide), hb1 15]
    rfl
  · rw [show ((h.SetQR 1).SetRA 1).RA = ((h.SetQR 1).SetRA 1).Flags.testBit 7 from flag_bit _ _,
      hb2 7]
    rfl
  · rw [SetRA_fields, SetQR_fields]
  · intro env fuel m w m1 w1 hm hh
    unfold handler at hh
    have := handlerLoop_frame env fuel _ _ _ _ _ hh
    rw [hm] at this
    exact this
  · intro v i hv
    exact ⟨SetQR_testBit h hw v i hv, SetRD_testBit h hw v i hv, SetRA_testBit h hw v i hv⟩
  · intro v
    exact ⟨SetQR_fields h v, SetRD_fields h v, SetRA_fields h v⟩
  · intro v hv
    have hv2 : v > 1 := hv
    exact ⟨by simp [header.SetQR, hv2], by simp [header.SetRD, hv2], by simp [header.SetRA, hv2]⟩

/-! ## resolve.go : resolve -/

theorem reply_header_witness :
    sampleQuery.Header.Flags < 65536 ∧
    ∃ m1 w1, handler sampleEnv 1 sampleQuery World.init = (.ret m1, w1) ∧
      m1.Header = (sampleQuery.Header.SetQR 1).SetRA 1 ∧ m1.Question = sampleQuery.Question ∧
      m1.Header.QR = true ∧ m1.Header.RA = true ∧ m1.Header.RD = true :=
  ⟨by decide, _, _, rfl,
    ((reply_header sampleQuery.Header (by decide)).2.1 sampleEnv 1 sampleQuery World.init
      _ _ rfl rfl).1,
    ((reply_header sampleQuery.Header (by decide)).2.1 sampleEnv 1 sampleQuery World.init
      _ _ rfl rfl).2, rfl, rfl, rfl⟩

theorem cacheGet_sent (env : Env) (w : World) (domain : Str) :
    (w.cacheGet env domain).2.sent = w.sent := rfl

theorem draw_sent (env : Env) (w : World) (n : Nat) : (w.draw env n).2.sent = w.sent := rfl

theorem draw_lt (env : Env) (w : World) (n : Nat) (hn : n ≠ 0) : (w.draw env n).1 < n :=
  Nat.mod_lt _ (Nat.pos_of_ne_zero hn)

/-- The first steps of `resolve` on a cache miss with the zone of the TLD in
the root store: with a TLD name or without recursion the message of
`resolveTopLevelDomain` is returned as it is. -/
theorem resolve_miss_short (env : Env) (fuel : Nat) (q : question) (rd : Bool) (w : World)
    (zone : Zone) (hmiss : (w.cacheGet env q.Name).1 = .ok none)
    (hzone : env.root.Zones (topLevelDomain q.Name).1 = some zone)
    (hshort : ((topLevelDomain q.Name).2 || !rd) = true) :
    resolve env (fuel + 1) q rd w
      = (.ret { message.zero with
                Authority := [] ++ zone.rrs 2
                Additional := additionalLoop env.root (zone.rrs 2) [] },
          (w.cacheGet env q.Name).2) := by
  have hget : w.cacheGet env q.Name = (.ok none, (w.cacheGet env q.Name).2) := by
    rw [← hmiss]
  unfold resolve run
  rw [hget]
  simp only [resolveTopLevelDomain, hzone, hshort, if_true]

/-- C11 (amended). Short-circuit: for a question that misses the cache and
whose name is a TLD present in the root store, `resolve(q, rd=false)` returns
the message of `resolveTopLevelDomain` as it is, without any upstream request;
its Answer section is empty and its Authority section is the NS record list
of the zone, which is non-empty exactly when the zone has an NS record. -/
theorem resolve_short_circuit (env : Env) (fuel : Nat) (q : question) (w : World) (zone : Zone)
    (hmiss : (w.cacheGet env q.Name).1 = .ok none)
    (htld : topLevelDomain q.Name = (q.Name, true))
    (hzone : env.root.Zones q.Name = some zone) :
    ∃ m, resolveTopLevelDomain env.root q.Name = .ok m ∧
      resolve env (fuel + 1) q false w = (.ret m, (w.cacheGet env q.Name).2) ∧
      (w.cacheGet env q.Name).2.sent = w.sent ∧
      m.Answer = [] ∧ m.Authority = zone.rrs 2 ∧
      (m.Authority ≠ [] ↔ ∃ rrs, zone.RRs 2 = some rrs ∧ rrs ≠ []) := by
  have h1 : (topLevelDomain q.Name).1 = q.Name := by rw [htld]
  have h2 : (topLevelDomain q.Name).2 = true := by rw [htld]
  refine ⟨{ message.zero with
      Authority := [] ++ zone.rrs 2
      Additional := additionalLoop env.root (zone.rrs 2) [] },
    by simp only [resolveTopLevelDomain, hzone], ?_, rfl, rfl, by simp, ?_⟩
  · exact resolve_miss_short env fuel q false w zone hmiss (by rw [h1]; exact hzone)
      (by rw [h2]; rfl)
  · simp only [List.nil_append, Zone.rrs]
    cases hz : zone.RRs 2 with
    | none => simp
    | some rrs => simp

theorem resolve_short_circuit_witness :
    ∃ m, resolve sampleEnv 1 { Name := str "com.", Type_ := 1, Class := 1 } false World.init
        = (.ret m, (World.init.cacheGet sampleEnv (str "com.")).2) ∧
      m.Authority = [sampleNS "com." "a.gtld-servers.net." 172800,
        sampleNS "com." "b.gtld-servers.net." 172800] := by
  obtain ⟨m, h1, h2, -, -, h5, -⟩ := resolve_short_circuit sampleEnv 0
    { Name := str "com.", Type_ := 1, Class := 1 } World.init
    { Name := str "com.",
      RRs := fun t => if t = 2 then
        some [sampleNS "com." "a.gtld-servers.net." 172800,
              sampleNS "com." "b.gtld-servers.net." 172800] else none }
    rfl rfl rfl
  exact ⟨m, h2, h5⟩

/-- C11 (counterexample): the zone `localhost.` of the root store has an
address record and no NS record; the question for that TLD misses the empty
cache, and `resolve(q, rd=false)` returns a message whose Authority section
is empty. -/
theorem resolve_tld_without_ns :
    ∃ m w, (addressOnlyRoot.Zones (str "localhost.")).isSome = true ∧
      topLevelDomain (str "localhost.") = (str "localhost.", true) ∧
      (World.init.cacheGet { sampleEnv with root := addressOnlyRoot } (str "localhost.")).1
        = .ok none ∧
      resolve { sampleEnv with root := addressOnlyRoot } 1
        { Name := str "localhost.", Type_ := 1, Class := 1 } false World.init = (.ret m, w) ∧
      m.Authority = [] ∧ w.sent = [] :=
  ⟨_, _, rfl, by decide, rfl, rfl, rfl, rfl⟩

/-- C15. TypeNotServed: for a question with a non-TLD name that misses the
cache, with `rd=true`, a TLD zone in the root store with at least one NS
record and whose NS targets are zones of the root store, `resolve` chooses an
authority, and if the zone of that authority has no records of type `q.Type`
it fails with TypeNotServed without any upstream request; on a zone that has
records of the types A, NS and AAAA only this is so for every other
`q.Type`. -/
theorem resolve_type_not_served (env : Env) (fuel : Nat) (q : question) (w : World) (zone : Zone)
    (hmiss : (w.cacheGet env q.Name).1 = .ok none)
    (hnot : (topLevelDomain q.Name).2 = false)
    (hzone : env.root.Zones (topLevelDomain q.Name).1 = some zone)
    (hns : zone.rrs 2 ≠ [])
    (htargets : ∀ rr ∈ zone.rrs 2, ∃ z, env.root.Zones rr.Data = some z) :
    ∃ owner z,
      (zone.rrs 2).get? ((w.cacheGet env q.Name).2.draw env (zone.rrs 2).length).1 = some owner ∧
      env.root.Zones owner.Data = some z ∧
      (z.RRs q.Type_ = none →
        ∃ w1, resolve env (fuel + 1) q true w
            = (.fail (.TypeNotServed owner.Name q.Type_), w1) ∧ w1.sent = w.sent) ∧
      ((∀ t, z.RRs t ≠ none → t = 1 ∨ t = 2 ∨ t = 28) →
        q.Type_ ≠ 1 → q.Type_ ≠ 2 → q.Type_ ≠ 28 →
        ∃ w1, resolve env (fuel + 1) q true w
            = (.fail (.TypeNotServed owner.Name q.Type_), w1) ∧ w1.sent = w.sent) := by
  have hlen : (zone.rrs 2).length ≠ 0 := fun h => hns (List.length_eq_zero.mp h)
  have hlt := draw_lt env (w.cacheGet env q.Name).2 _ hlen
  obtain ⟨owner, howner⟩ : ∃ owner,
      (zone.rrs 2).get? ((w.cacheGet env q.Name).2.draw env (zone.rrs 2).length).1 = some owner :=
    ⟨_, List.get?_eq_get hlt⟩
  obtain ⟨z, hz⟩ := htargets owner (List.get?_mem howner)
  have hget : w.cacheGet env q.Name = (.ok none, (w.cacheGet env q.Name).2) := by
    rw [← hmiss]
  have key : z.RRs q.Type_ = none →
      ∃ w1, resolve env (fuel + 1) q true w
          = (.fail (.TypeNotServed owner.Name q.Type_), w1) ∧ w1.sent = w.sent := by
    intro hnone
    refine ⟨((w.cacheGet env q.Name).2.draw env (zone.rrs 2).length).2, ?_, rfl⟩
    unfold resolve run
    rw [hget]
    simp only [resolveTopLevelDomain, hzone, hnot, List.nil_append, Bool.not_true, Bool.or_self,
      Bool.false_eq_true, if_false, hlen, howner, hz, hnone]
  refine ⟨owner, z, howner, hz, key, ?_⟩
  intro hkeys h1 h2 h28
  apply key
  by_contra hne
  rcases hkeys _ hne with h | h | h
  · exact h1 h
  · exact h2 h
  · exact h28 h

theorem resolve_type_not_served_witness :
    ∃ w1, resolve { sampleEnv with root := servedRoot } 1
        { Name := str "example.com.", Type_ := 16, Class := 1 } true World.init
        = (.fail (.TypeNotServed (str "com.") 16), w1) ∧ w1.sent = [] := by
  obtain ⟨owner, z, how, hz, h1, -⟩ := resolve_type_not_served
    { sampleEnv with root := servedRoot } 0
    { Name := str "example.com.", Type_ := 16, Class := 1 } World.init
    { Name := str "com.",
      RRs := fun t => if t = 2 then some [sampleNS "com." "a.gtld-servers.net." 172800] else none }
    rfl rfl rfl (by decide)
    (by
      intro rr hrr
      have : rr = sampleNS "com." "a.gtld-servers.net." 172800 := by
        simpa [Zone.rrs] using hrr
      subst this
      exact ⟨_, rfl⟩)
  have e1 : some (sampleNS "com." "a.gtld-servers.net." 172800) = some owner := how
  have e2 := Option.some.inj e1
  subst e2
  have e3 : some (Zone.mk (str "a.gtld-servers.net.")
      (fun t => if t = 1 then some [sampleA "a.gtld-servers.net." 172800] else none))
      = some z := hz
  have e4 := Option.some.inj e3
  subst e4
  exact h1 rfl

/-! ## resolve.go : ask -/

theorem send_sent (w : World) (addr : Str) (payload : List Nat) :
    (w.send addr payload).sent = w.sent ++ [(addr, payload)] := rfl

/-- The query of `ask` for a question of the data model can be written. -/
theorem askQuery_Bytes (ip : IPLib) (qid : Nat) (q : question) (hq : WfQuestion q) :
    ∃ b, (askQuery qid q true).Bytes ip = .ok b := by
  have hh : (askQuery qid q true).Header
      = { ID := u16 qid, Flags := 256, QDCOUNT := 0, ANCOUNT := 0, NSCOUNT := 0, ARCOUNT := 0 } := by
    simp [askQuery, header.SetQR, header.SetRD, u16]
  have hwf : WfMessage ip (askQuery qid q true) := by
    refine ⟨?_, ?_, ?_, ?_, ?_, ?_, ?_, ?_, ?_, ?_⟩
    · rw [hh]; exact Nat.mod_lt _ (by norm_num)
    · rw [hh]; show 256 < 65536; norm_num
    · show ([q] : List question).length < 65536; simp
    · show ([] : List resourceRecord).length < 65536; simp
    · show ([] : List resourceRecord).length < 65536; simp
    · show ([] : List resourceRecord).length < 65536; simp
    · intro x hx
      have : x = q := by simpa [askQuery] using hx
      rw [this]; exact hq
    · intro x hx; simp [askQuery, message.zero] at hx
    · intro x hx; simp [askQuery, message.zero] at hx
    · intro x hx; simp [askQuery, message.zero] at hx
  obtain ⟨b, ns, h, -⟩ := encode_roundtrip id ip _ hwf
  exact ⟨b, Bytes_of_encode _ _ _ _ h⟩

/-- One step of `ask` below depth 69 on a referral with glue: the query is
sent and `ask` goes on at the address of the glue record, one level deeper. -/
theorem ask_glue_step (env : Env) (fuel : Nat) (addr : Str) (q : question) (depth : Nat)
    (w : World) (payload res : List Nat) (m : message) (n : Nat) (auth rr : resourceRecord)
    (hd : depth < 69)
    (hb : (askQuery (w.draw env 65536).1 q true).Bytes env.ip = .ok payload)
    (hr : env.request addr payload = some res)
    (hp : parseMessage env.ul env.ip env.parseFuel res = .ok (m, n))
    (hans : m.Answer = []) (haut : m.Authority ≠ [])
    (hauth : m.Authority.get?
      (World.draw env ((w.draw env 65536).2.send addr payload) m.Authority.length).1 = some auth)
    (hglue : findGlue auth.Data m.Additional = some rr) :
    ask env (fuel + 1) addr q true depth w
      = ask env fuel rr.Data q true (depth + 1)
          (World.draw env ((w.draw env 65536).2.send addr payload) m.Authority.length).2 := by
  have hlen : ¬ m.Authority.length ≤ 0 := by
    intro h
    exact haut (List.length_eq_zero.mp (by omega))
  unfold ask
  rw [run]
  rw [if_neg (by omega)]
  simp only [hb, hr, hp, hans, List.length_nil, gt_iff_lt, Nat.lt_irrefl, decide_False,
    Bool.not_true, Bool.or_self, Bool.false_or, decide_eq_true_eq, hlen, if_false, hauth, hglue,
    Bool.false_eq_true]

/-- With an upstream that answers every query with a referral with glue,
`ask` at depth `69 - k` sends `k` queries and fails at depth 69. -/
theorem ask_chain (env : Env) (q : question)
    (hq : ∀ id, ∃ b, (askQuery id q true).Bytes env.ip = .ok b)
    (hup : ∀ addr payload, ∃ res m n, env.request addr payload = some res ∧
      parseMessage env.ul env.ip env.parseFuel res = .ok (m, n) ∧ m.Answer = [] ∧
      m.Authority ≠ [] ∧ ∀ auth ∈ m.Authority, ∃ rr, findGlue auth.Data m.Additional = some rr) :
    ∀ k, k ≤ 69 → ∀ (fuel : Nat) (addr : Str) (w : World), k + 1 ≤ fuel →
      ∃ w1, ask env fuel addr q true (69 - k) w = (.fail (.RecursionLimitExceeded q.Name), w1) ∧
        w1.sent.length = w.sent.length + k ∧ w1.answerCache = w.answerCache := by
  intro k
  induction k with
  | zero =>
    intro _ fuel addr w hfuel
    obtain ⟨f, rfl⟩ : ∃ f, fuel = f + 1 := ⟨fuel - 1, by omega⟩
    refine ⟨w, ?_, rfl, rfl⟩
    unfold ask
    rw [run]
    simp
  | succ k ih =>
    intro hk fuel addr w hfuel
    obtain ⟨f, rfl⟩ : ∃ f, fuel = f + 1 := ⟨fuel - 1, by omega⟩
    obtain ⟨payload, hb⟩ := hq (w.draw env 65536).1
    obtain ⟨res, m, n, hr, hp, hans, haut, hglue⟩ := hup addr payload
    have hlen : m.Authority.length ≠ 0 := fun h => haut (List.length_eq_zero.mp h)
    have hlt := draw_lt env ((w.draw env 65536).2.send addr payload) _ hlen
    obtain ⟨auth, hauth⟩ : ∃ auth, m.Authority.get?
        (World.draw env ((w.draw env 65536).2.send addr payload) m.Authority.length).1
        = some auth := ⟨_, List.get?_eq_get hlt⟩
    obtain ⟨rr, hrr⟩ := hglue auth (List.get?_mem hauth)
    rw [ask_glue_step env f addr q (69 - (k + 1)) w payload res m n auth rr (by omega) hb hr hp
      hans haut hauth hrr]
    have e : 69 - (k + 1) + 1 = 69 - k := by omega
    rw [e]
    obtain ⟨w1, h1, h2, h3⟩ := ih (by omega) f rr.Data
      (World.draw env ((w.draw env 65536).2.send addr payload) m.Authority.length).2 (by omega)
    refine ⟨w1, h1, ?_, ?_⟩
    · rw [h2]
      show ((w.draw env 65536).2.send addr payload).sent.length + k = _
      rw [send_sent, List.length_append]
      show w.sent.length + 1 + k = _
      omega
    · rw [h3]; rfl

/-- C14. Recursion bound: `ask` called with a depth of 69 or more fails with
RecursionLimitExceeded and sends nothing. With an upstream that answers every
query with an Authority-only referral every NS target of which has an A glue
record in Additional, `resolve(q, rd=true)` for a question of the data model
with an uncached non-TLD name, whose TLD zone in the root store has NS records
that lead to addresses, fails with RecursionLimitExceeded after exactly 69
upstream requests. -/
theorem recursion_bound (env : Env) :
    (∀ (fuel : Nat) (addr : Str) (q : question) (rd : Bool) (depth : Nat) (w : World),
      69 ≤ depth →
      ask env (fuel + 1) addr q rd depth w = (.fail (.RecursionLimitExceeded q.Name), w)) ∧
    (∀ (q : question) (w : World) (zone : Zone),
      (∀ addr payload, ∃ res m n, env.request addr payload = some res ∧
        parseMessage env.ul env.ip env.parseFuel res = .ok (m, n) ∧ m.Answer = [] ∧
        m.Authority ≠ [] ∧
        ∀ auth ∈ m.Authority, ∃ rr, findGlue auth.Data m.Additional = some rr) →
      WfQuestion q →
      (w.cacheGet env q.Name).1 = .ok none →
      (topLevelDomain q.Name).2 = false →
      env.root.Zones (topLevelDomain q.Name).1 = some zone →
      zone.rrs 2 ≠ [] →
      (∀ rr ∈ zone.rrs 2, ∃ z rrs, env.root.Zones rr.Data = some z ∧
        z.RRs q.Type_ = some rrs ∧ rrs ≠ []) →
      ∀ fuel, 71 ≤ fuel →
        ∃ w1, resolve env fuel q true w = (.fail (.RecursionLimitExceeded q.Name), w1) ∧
          w1.sent.length = w.sent.length + 69) := by
  constructor
  · intro fuel addr q rd depth w hd
    unfold ask
    rw [run]
    rw [if_pos hd]
  · intro q w zone hup hq hmiss hnot hzone hns htargets fuel hfuel
    obtain ⟨f, rfl⟩ : ∃ f, fuel = f + 1 := ⟨fuel - 1, by omega⟩
    have hlen : (zone.rrs 2).length ≠ 0 := fun h => hns (List.length_eq_zero.mp h)
    have hlt := draw_lt env (w.cacheGet env q.Name).2 _ hlen
    obtain ⟨owner, howner⟩ : ∃ owner,
        (zone.rrs 2).get? ((w.cacheGet env q.Name).2.draw env (zone.rrs 2).length).1
          = some owner := ⟨_, List.get?_eq_get hlt⟩
    obtain ⟨z, rrs, hz, hrrs, hne⟩ := htargets owner (List.get?_mem howner)
    have hlen2 : rrs.length ≠ 0 := fun h => hne (List.length_eq_zero.mp h)
    have hlt2 := draw_lt env ((w.cacheGet env q.Name).2.draw env (zone.rrs 2).length).2 _ hlen2
    obtain ⟨owner2, howner2⟩ : ∃ owner2,
        rrs.get? (((w.cacheGet env q.Name).2.draw env (zone.rrs 2).length).2.draw env
          rrs.length).1 = some owner2 := ⟨_, List.get?_eq_get hlt2⟩
    have hget : w.cacheGet env q.Name = (.ok none, (w.cacheGet env q.Name).2) := by
      rw [← hmiss]
    obtain ⟨w1, h1, h2, -⟩ := ask_chain env q (fun qid => askQuery_Bytes env.ip qid q hq) hup 69
      (by omega) f owner2.Data
      (((w.cacheGet env q.Name).2.draw env (zone.rrs 2).length).2.draw env rrs.length).2
      (by omega)
    refine ⟨w1, ?_, by rw [h2]; rfl⟩
    unfold resolve
    rw [run]
    rw [hget]
    have h1r : run env f (.ask owner2.Data q true 0)
        (((w.cacheGet env q.Name).2.draw env (zone.rrs 2).length).2.draw env rrs.length).2
        = (.fail (.RecursionLimitExceeded q.Name), w1) := h1
    simp only [resolveTopLevelDomain, hzone, hnot, List.nil_append, Bool.not_true, Bool.or_self,
      Bool.false_eq_true, if_false, hlen, howner, hz, hrrs, hlen2, howner2, h1r]

theorem recursion_bound_witness :
    ∃ w1, resolve (constEnv (wire glueReferral)) 71
        { Name := str "example.com.", Type_ := 1, Class := 1 } true World.init
        = (.fail (.RecursionLimitExceeded (str "example.com.")), w1) ∧ w1.sent.length = 69 := by
  have h := (recursion_bound (constEnv (wire glueReferral))).2
    { Name := str "example.com.", Type_ := 1, Class := 1 } World.init
    (Zone.mk (str "com.")
      (fun t => if t = 2 then some [sampleNS "com." "a.gtld-servers.net." 172800] else none))
    (by
      intro addr payload
      exact ⟨_, _, _, rfl, rfl, rfl, by decide, by
        intro auth hauth
        have : auth = sampleNS "example.com." "ns.example.com." 3600 := by
          have h0 : auth ∈ [sampleNS "example.com." "ns.example.com." 3600] := hauth
          simpa using h0
        subst this
        exact ⟨_, rfl⟩⟩)
    ⟨⟨[str "example", str "com"], by decide, by decide⟩, by decide, by decide⟩
    rfl rfl rfl (by decide)
    (by
      intro rr hrr
      have : rr = sampleNS "com." "a.gtld-servers.net." 172800 := by
        simpa [Zone.rrs] using hrr
      subst this
      exact ⟨_, _, rfl, rfl, by decide⟩)
    71 (by decide)
  exact h

/-- `resolve` on a cache hit returns the cached message. -/
theorem resolve_hit (env : Env) (fuel : Nat) (q : question) (rd : Bool) (w : World)
    (m : message) (hhit : (w.cacheGet env q.Name).1 = .ok (some m)) :
    resolve env (fuel + 1) q rd w = (.ret m, (w.cacheGet env q.Name).2) := by
  have hget : w.cacheGet env q.Name = (.ok (some m), (w.cacheGet env q.Name).2) := by
    rw [← hhit]
  unfold resolve
  rw [run]
  rw [hget]

/-- A message served from the cache has the zero header. -/
theorem cacheGet_header (env : Env) (w : World) (domain : Str) (m : message)
    (hhit : (w.cacheGet env domain).1 = .ok (some m)) : m.Header = message.zero.Header := by
  unfold World.cacheGet cache.Get at hhit
  simp only at hhit
  split at hhit
  · simp at hhit
  · split at hhit
    · simp at hhit
    · split at hhit
      · simp at hhit
      · simp only [Except.ok.injEq, Option.some.injEq] at hhit
        rw [← hhit]

/-- `resolve` past the root store: on a cache miss for a non-TLD name, with
the chosen authority and its chosen address in the root store, an outcome of
`ask` other than a message is the outcome of `resolve`. -/
theorem resolve_to_ask (env : Env) (fuel : Nat) (q : question) (w : World) (zone z : Zone)
    (owner owner2 : resourceRecord) (rrs : List resourceRecord) (o : Outcome) (w4 : World)
    (hmiss : (w.cacheGet env q.Name).1 = .ok none)
    (hnot : (topLevelDomain q.Name).2 = false)
    (hzone : env.root.Zones (topLevelDomain q.Name).1 = some zone)
    (hns : zone.rrs 2 ≠ [])
    (howner : (zone.rrs 2).get? ((w.cacheGet env q.Name).2.draw env (zone.rrs 2).length).1
      = some owner)
    (hz : env.root.Zones owner.Data = some z) (hrrs : z.RRs q.Type_ = some rrs) (hne : rrs ≠ [])
    (howner2 : rrs.get? (((w.cacheGet env q.Name).2.draw env (zone.rrs 2).length).2.draw env
      rrs.length).1 = some owner2)
    (ho : ∀ m2, o ≠ .ret m2)
    (hask : ask env fuel owner2.Data q true 0
      (((w.cacheGet env q.Name).2.draw env (zone.rrs 2).length).2.draw env rrs.length).2
      = (o, w4)) :
    resolve env (fuel + 1) q true w = (o, w4) := by
  have hlen : (zone.rrs 2).length ≠ 0 := fun h => hns (List.length_eq_zero.mp h)
  have hlen2 : rrs.length ≠ 0 := fun h => hne (List.length_eq_zero.mp h)
  have hget : w.cacheGet env q.Name = (.ok none, (w.cacheGet env q.Name).2) := by
    rw [← hmiss]
  have h1r : run env fuel (.ask owner2.Data q true 0)
      (((w.cacheGet env q.Name).2.draw env (zone.rrs 2).length).2.draw env rrs.length).2
      = (o, w4) := hask
  unfold resolve
  rw [run]
  rw [hget]
  simp only [resolveTopLevelDomain, hzone, hnot, List.nil_append, Bool.not_true, Bool.or_self,
    Bool.false_eq_true, if_false, hlen, howner, hz, hrrs, hlen2, howner2, h1r]
  cases o with
  | ret m2 => exact absurd rfl (ho m2)
  | fail e => rfl
  | panic p => rfl
  | outOfFuel => rfl

/-- One step of `ask` below depth 69 on a referral without glue, when the
sub-resolution does not return a message: its outcome is the outcome of
`ask`. -/
theorem ask_miss_step (env : Env) (fuel : Nat) (addr : Str) (q : question) (depth : Nat)
    (w : World) (payload res : List Nat) (m : message) (n : Nat) (auth : resourceRecord)
    (o : Outcome) (w4 : World)
    (hd : depth < 69)
    (hb : (askQuery (w.draw env 65536).1 q true).Bytes env.ip = .ok payload)
    (hr : env.request addr payload = some res)
    (hp : parseMessage env.ul env.ip env.parseFuel res = .ok (m, n))
    (hans : m.Answer = []) (haut : m.Authority ≠ [])
    (hauth : m.Authority.get?
      (World.draw env ((w.draw env 65536).2.send addr payload) m.Authority.length).1 = some auth)
    (hglue : findGlue auth.Data m.Additional = none)
    (ho : ∀ m2, o ≠ .ret m2)
    (hsub : resolve env fuel { Name := auth.Data, Type_ := 1, Class := 1 } true
      (World.draw env ((w.draw env 65536).2.send addr payload) m.Authority.length).2 = (o, w4)) :
    ask env (fuel + 1) addr q true depth w = (o, w4) := by
  have hlen : ¬ m.Authority.length ≤ 0 := by
    intro h
    exact haut (List.length_eq_zero.mp (by omega))
  have hsub2 : run env fuel (.resolve { Name := auth.Data, Type_ := 1, Class := 1 } true)
      (World.draw env ((w.draw env 65536).2.send addr payload) m.Authority.length).2
      = (o, w4) := hsub
  unfold ask
  rw [run]
  rw [if_neg (by omega)]
  simp only [hb, hr, hp, hans, List.length_nil, gt_iff_lt, Nat.lt_irrefl, decide_False,
    Bool.not_true, Bool.or_self, Bool.false_or, decide_eq_true_eq, hlen, if_false, hauth, hglue,
    Bool.false_eq_true, hsub2]
  cases o with
  | ret m2 => exact absurd rfl (ho m2)
  | fail e => rfl
  | panic p => rfl
  | outOfFuel => rfl

/-- C16. Glue miss: in `ask`, on a referral (no Answer, at least one
Authority) without an A record in Additional named like the target of the
chosen authority, the sub-resolution `resolve({auth target, A, IN}, rd=true)`
is made; when it is served from the cache, the message it returns has
`ANCOUNT = 0` in its header whatever its Answer section holds, and `ask` fails
with AuthorityUnresolvable. -/
theorem ask_glue_miss_cached (env : Env) (fuel : Nat) (addr : Str) (q : question) (depth : Nat)
    (w : World) (payload res : List Nat) (m : message) (n : Nat) (auth : resourceRecord)
    (m2 : message)
    (hd : depth < 69)
    (hb : (askQuery (w.draw env 65536).1 q true).Bytes env.ip = .ok payload)
    (hr : env.request addr payload = some res)
    (hp : parseMessage env.ul env.ip env.parseFuel res = .ok (m, n))
    (hans : m.Answer = []) (haut : m.Authority ≠ [])
    (hauth : m.Authority.get?
      (World.draw env ((w.draw env 65536).2.send addr payload) m.Authority.length).1 = some auth)
    (hglue : findGlue auth.Data m.Additional = none)
    (hhit : (World.cacheGet env
      (World.draw env ((w.draw env 65536).2.send addr payload) m.Authority.length).2
      auth.Data).1 = .ok (some m2)) :
    resolve env (fuel + 1) { Name := auth.Data, Type_ := 1, Class := 1 } true
        (World.draw env ((w.draw env 65536).2.send addr payload) m.Authority.length).2
      = (.ret m2, (World.cacheGet env
          (World.draw env ((w.draw env 65536).2.send addr payload) m.Authority.length).2
          auth.Data).2) ∧
    ask env (fuel + 2) addr q true depth w
      = (.fail (.AuthorityUnresolvable auth.Data), (World.cacheGet env
          (World.draw env ((w.draw env 65536).2.send addr payload) m.Authority.length).2
          auth.Data).2) := by
  have hsub := resolve_hit env fuel { Name := auth.Data, Type_ := 1, Class := 1 } true
    (World.draw env ((w.draw env 65536).2.send addr payload) m.Authority.length).2 m2 hhit
  refine ⟨hsub, ?_⟩
  have hlen : ¬ m.Authority.length ≤ 0 := by
    intro h
    exact haut (List.length_eq_zero.mp (by omega))
  have hsub2 : run env (fuel + 1) (.resolve { Name := auth.Data, Type_ := 1, Class := 1 } true)
      (World.draw env ((w.draw env 65536).2.send addr payload) m.Authority.length).2
      = (.ret m2, (World.cacheGet env
          (World.draw env ((w.draw env 65536).2.send addr payload) m.Authority.length).2
          auth.Data).2) := hsub
  have han : m2.Header.ANCOUNT = 0 := by
    rw [cacheGet_header env _ _ m2 hhit]
    rfl
  unfold ask
  rw [run]
  rw [if_neg (by omega)]
  simp only [hb, hr, hp, hans, List.length_nil, gt_iff_lt, Nat.lt_irrefl, decide_False,
    Bool.not_true, Bool.or_self, Bool.false_or, decide_eq_true_eq, hlen, if_false, hauth, hglue,
    Bool.false_eq_true, hsub2, han, if_true]

theorem ask_glue_miss_cached_witness :
    ∃ m2 w1, resolve (constEnv (wire bareReferral)) 1
        { Name := str "ns.example.com.", Type_ := 1, Class := 1 } true
        (World.draw (constEnv (wire bareReferral))
          ((World.draw (constEnv (wire bareReferral)) glueCachedWorld 65536).2.send
            (str "192.0.2.1") (wire (askQuery 0 sampleQuestion true))) 1).2 = (.ret m2, w1) ∧
      m2.Answer = [sampleA "ns.example.com." 300] ∧
      ask (constEnv (wire bareReferral)) 2 (str "192.0.2.1") sampleQuestion true 0
        glueCachedWorld = (.fail (.AuthorityUnresolvable (str "ns.example.com.")), w1) := by
  have h := ask_glue_miss_cached (constEnv (wire bareReferral)) 0 (str "192.0.2.1")
    sampleQuestion 0 glueCachedWorld (wire (askQuery 0 sampleQuestion true))
    (wire bareReferral) bareReferral.norm 40
    (sampleNS "example.com." "ns.example.com." 3600)
    { message.zero with Answer := [sampleA "ns.example.com." 300] }
    (by decide) rfl rfl rfl rfl (by decide) rfl rfl rfl
  exact ⟨_, _, h.1, rfl, h.2⟩

theorem cacheGet_empty (env : Env) (w : World) (domain : Str)
    (hc : w.answerCache = cache.empty) :
    (w.cacheGet env domain).1 = .ok none ∧ (w.cacheGet env domain).2.answerCache = cache.empty ∧
      (w.cacheGet env domain).2.sent = w.sent := by
  unfold World.cacheGet
  rw [hc]
  exact ⟨rfl, rfl, rfl⟩

/-- The loop of C19, one level: with the root store `servedRoot`, an empty
cache and an upstream that answers every query with the referral to
`ns.example.com.` without glue, neither `resolve` nor `ask` returns within any
number of nested calls, and every second call sends a query. -/
theorem referral_loop (fuel : Nat) :
    (∀ (q : question) (w : World), WfQuestion q → q.Type_ = 1 →
      topLevelDomain q.Name = (str "com.", false) → w.answerCache = cache.empty →
      ∃ w1, resolve (constEnv (wire bareReferral)) fuel q true w = (.outOfFuel, w1) ∧
        w1.sent.length = w.sent.length + fuel / 2 ∧ w1.answerCache = cache.empty) ∧
    (∀ (q : question) (w : World), WfQuestion q → w.answerCache = cache.empty →
      ∃ w1, ask (constEnv (wire bareReferral)) fuel (str "192.0.2.1") q true 0 w
          = (.outOfFuel, w1) ∧
        w1.sent.length = w.sent.length + (fuel + 1) / 2 ∧ w1.answerCache = cache.empty) := by
  induction fuel with
  | zero =>
    constructor
    · intro q w _ _ _ hc
      exact ⟨w, rfl, rfl, hc⟩
    · intro q w _ hc
      exact ⟨w, rfl, rfl, hc⟩
  | succ f ih =>
    obtain ⟨ihR, ihA⟩ := ih
    constructor
    · intro q w hq hty htld hc
      obtain ⟨hmiss, hc1, hs1⟩ := cacheGet_empty (constEnv (wire bareReferral)) w q.Name hc
      have h1 : (topLevelDomain q.Name).1 = str "com." := by rw [htld]
      have h2 : (topLevelDomain q.Name).2 = false := by rw [htld]
      obtain ⟨w1, ha, hs, hc2⟩ := ihA q
        ((((w.cacheGet (constEnv (wire bareReferral)) q.Name).2.draw
          (constEnv (wire bareReferral)) 1).2).draw (constEnv (wire bareReferral)) 1).2 hq hc1
      refine ⟨w1, ?_, ?_, hc2⟩
      · exact resolve_to_ask (constEnv (wire bareReferral)) f q w
          (Zone.mk (str "com.")
            (fun t => if t = 2 then some [sampleNS "com." "a.gtld-servers.net." 172800] else none))
          (Zone.mk (str "a.gtld-servers.net.")
            (fun t => if t = 1 then some [sampleA "a.gtld-servers.net." 172800] else none))
          (sampleNS "com." "a.gtld-servers.net." 172800) (sampleA "a.gtld-servers.net." 172800)
          [sampleA "a.gtld-servers.net." 172800] .outOfFuel w1 hmiss h2 (by rw [h1]; rfl)
          (by decide) rfl rfl (by rw [hty]; rfl) (by decide) rfl (fun m2 h => by cases h) ha
      · rw [hs]
        show (w.cacheGet (constEnv (wire bareReferral)) q.Name).2.sent.length + (f + 1) / 2 = _
        rw [hs1]
    · intro q w hq hc
      obtain ⟨payload, hb⟩ := askQuery_Bytes sampleIP
        (w.draw (constEnv (wire bareReferral)) 65536).1 q hq
      obtain ⟨w1, hr, hs, hc2⟩ := ihR { Name := str "ns.example.com.", Type_ := 1, Class := 1 }
        (World.draw (constEnv (wire bareReferral))
          ((w.draw (constEnv (wire bareReferral)) 65536).2.send (str "192.0.2.1") payload) 1).2
        ⟨⟨[str "ns", str "example", str "com"], by decide, by decide⟩, by decide, by decide⟩
        rfl (by decide) hc
      refine ⟨w1, ?_, ?_, hc2⟩
      · exact ask_miss_step (constEnv (wire bareReferral)) f (str "192.0.2.1") q 0 w payload
          (wire bareReferral) bareReferral.norm 40
          (sampleNS "example.com." "ns.example.com." 3600) .outOfFuel w1 (by decide) hb rfl rfl
          rfl (by decide) rfl rfl (fun m2 h => by cases h) hr
      · rw [hs]
        show (w.sent ++ [(str "192.0.2.1", payload)]).length + f / 2 = _
        rw [List.length_append]
        simp only [List.length_cons, List.length_nil]
        omega

/-- C19. With the root store `servedRoot`, an empty cache and an upstream that
is the total function answering every query with a referral to
`ns.example.com.` without glue, `resolve(q, rd=true)` for `example.com.` does
not return: the glue-miss sub-resolve and `ask` call each other without
bound, `fuel` nested calls are all still running, and `fuel / 2` upstream
requests have been sent by then, for every `fuel`. -/
theorem resolve_does_not_terminate (fuel : Nat) :
    ∃ w1, resolve (constEnv (wire bareReferral)) fuel sampleQuestion true World.init
        = (.outOfFuel, w1) ∧ w1.sent.length = fuel / 2 := by
  obtain ⟨w1, h1, h2, -⟩ := (referral_loop fuel).1 sampleQuestion World.init
    ⟨⟨[str "example", str "com"], by decide, by decide⟩, by decide, by decide⟩ rfl (by decide) rfl
  exact ⟨w1, h1, by rw [h2]; show 0 + fuel / 2 = _; omega⟩

/-! ## dns.go : parseRRs and the records on the wire -/

theorem keptRecords_nil : keptRecords [] = ([], 0) := rfl

theorem keptRecords_cons (rr : resourceRecord) (sz : Nat) (rest : List (resourceRecord × Nat)) :
    keptRecords ((rr, sz) :: rest)
      = (if supportedTypes rr.Type_ then rr :: (keptRecords rest).1 else (keptRecords rest).1,
          sz + (keptRecords rest).2) := by
  unfold keptRecords
  by_cases h : supportedTypes rr.Type_ = true
  · simp [h]
  · simp [h]

/-- The loop of `parseRRs` against the records on the wire: the supported
records, and a cursor that has advanced by the sum of the sizes, as a
`uint16`. -/
theorem parseRRsLoop_wire (ul : Str → Str) (ip : IPLib) (fuel : Nat) (buf : List Nat) :
    ∀ (n pos : Nat),
      parseRRsLoop ul ip fuel buf n pos
        = (wireRecords ul ip fuel buf n pos).map (fun rs =>
            ((keptRecords rs).1, if rs.length = 0 then pos else u16 (pos + (keptRecords rs).2))) := by
  intro n
  induction n with
  | zero => intro pos; rfl
  | succ n ih =>
    intro pos
    rw [parseRRsLoop, wireRecords]
    cases hl : parseLabel ul fuel pos buf with
    | error e => rfl
    | ok r =>
      obtain ⟨label, ll⟩ := r
      have e2 : u16 (u16 (pos + ll) + 2) = u16 (pos + ll + 2) := by unfold u16; omega
      have e3 : u16 (u16 (pos + ll + 2) + 2) = u16 (pos + ll + 4) := by unfold u16; omega
      have e4 : u16 (u16 (pos + ll + 4) + 4) = u16 (pos + ll + 8) := by unfold u16; omega
      have e5 : u16 (u16 (pos + ll + 8) + 2) = u16 (pos + ll + 10) := by unfold u16; omega
      simp only [e2, e3, e4, e5]
      cases h1 : readU16 buf (u16 (pos + ll)) with
      | error e => rfl
      | ok ty =>
        dsimp only
        cases h2 : readU16 buf (u16 (pos + ll + 2)) with
        | error e => rfl
        | ok cl =>
          dsimp only
          cases h3 : readU32 buf (u16 (pos + ll + 4)) with
          | error e => rfl
          | ok ttl =>
            dsimp only
            cases h4 : readU16 buf (u16 (pos + ll + 8)) with
            | error e => rfl
            | ok rdLen =>
              dsimp only
              cases h5 : parseRData ul ip fuel buf (u16 (pos + ll + 10)) rdLen ty with
              | error e => rfl
              | ok data =>
                dsimp only
                have e6 : u16 (u16 (pos + ll + 10) + rdLen) = u16 (pos + (ll + 10 + rdLen)) := by
                  unfold u16; omega
                simp only [e6, ih]
                cases h6 : wireRecords ul ip fuel buf n (u16 (pos + (ll + 10 + rdLen))) with
                | error e => rfl
                | ok rest =>
                  simp only [Except.map, keptRecords_cons, List.length_cons, Nat.succ_ne_zero,
                    if_false]
                  have hcur : (if rest.length = 0 then u16 (pos + (ll + 10 + rdLen))
                      else u16 (u16 (pos + (ll + 10 + rdLen)) + (keptRecords rest).2))
                      = u16 (pos + (ll + 10 + rdLen + (keptRecords rest).2)) := by
                    by_cases hr : rest.length = 0
                    · have : rest = [] := List.length_eq_zero.mp hr
                      subst this
                      simp [keptRecords_nil]
                    · rw [if_neg hr]
                      unfold u16; omega
                  rw [hcur]
                  by_cases hs : supportedTypes ty = true
                  · simp [hs]
                  · simp [hs]

/-- C18 (amended). Unknown record types are parsed past and dropped: for every
buffer, start offset and count, `parseRRs` returns exactly when the `count`
records on the wire can be read, and then the list holds the records whose
type is 1, 2, 28 or 41, in wire order, and the consumed length is the sum over
all `count` records, supported or not, of (encoded owner-name length + 10 +
RDLENGTH), reduced modulo `2^16`. -/
theorem parseRRs_wire (ul : Str → Str) (ip : IPLib) (fuel : Nat) (buf : List Nat)
    (pos count : Nat) :
    parseRRs ul ip fuel pos buf count
      = (wireRecords ul ip fuel buf count pos).map (fun rs =>
          ((keptRecords rs).1, (keptRecords rs).2 % 65536)) := by
  unfold parseRRs
  rw [parseRRsLoop_wire]
  cases h : wireRecords ul ip fuel buf count pos with
  | error e => rfl
  | ok rs =>
    simp only [Except.map]
    by_cases hr : rs.length = 0
    · have : rs = [] := List.length_eq_zero.mp hr
      subst this
      simp [keptRecords_nil, u16sub]
    · rw [if_neg hr]
      congr 2
      unfold u16sub u16
      split <;> omega

/-- C18 (counterexample): one record of the unsupported type 99 at offset 0,
with RDLENGTH 65535 and no data read. `parseRRs` reads within bounds and
returns no record and the consumed length 10, while the size of the record,
owner name (1) + 10 + RDLENGTH, is 65546. -/
theorem parseRRs_length_wraps :
    parseRRs id sampleIP 1 0 wrapBuf 1 = .ok ([], 10) ∧
    (wireRecords id sampleIP 1 wrapBuf 1 0).map keptRecords = .ok ([], 65546) :=
  ⟨rfl, rfl⟩

/-! ## dns.go : the compression table -/

/-- An entry of the table is never overwritten by `addToNsCache`. -/
theorem addToNsCache_keeps (ns : NsCache) (s : Str) (pos : Nat) (k : Str) (v : Nat)
    (h : ns k = some v) : (addToNsCache ns s pos).1 k = some v := by
  unfold addToNsCache
  by_cases hs : s = []
  · simp [hs, h]
  · cases hns : ns s with
    | some c => simp [hs, h]
    | none =>
      by_cases h12 : 12 ≤ pos
      · have hk : k ≠ s := by
          intro hks
          rw [hks, hns] at h
          cases h
        simp [hs, h12, hk, h]
      · simp [hs, h12, h]

/-- A full name found in the table is written as the two bytes of its entry. -/
theorem labelBytes_pointer (ns : NsCache) (label : Str) (off v : Nat) (hne : label ≠ [])
    (h : ns label = some v) : labelBytes label ns true off = .ok (be16 v, ns) := by
  simp only [labelBytes, hne, if_false, if_true, h]

/-- A suffix found in the table is written as the two bytes of its entry,
after the labels before it. -/
theorem labelBytesLoop_pointer (label : Str) (off : Nat) (p : Str) (ps : List Str) (l : Nat)
    (ns : NsCache) (buf : List Nat) (v : Nat) (hp : p ≠ [])
    (hl : ¬ label.length < u16 (l + u16 (u16 p.length + 1)))
    (h : ns (label.drop (u16 (l + u16 (u16 p.length + 1)))) = some v) :
    labelBytesLoop label true off (p :: ps) l ns buf
      = .ok (buf ++ [p.length % 256] ++ p ++ be16 v, ns) := by
  simp only [labelBytesLoop, hp, if_false, hl, if_true, h]

/-- The final compression table of a message of the data model that is
written within `2^14` bytes is sound for the bytes written. -/
theorem encode_table_sound (ip : IPLib) (m : message) (hwf : WfMessage ip m) :
    ∃ b ns, m.encode ip = .ok (b, ns) ∧ (b.length ≤ 16384 → CacheOK b ns) := by
  obtain ⟨hid, hfl, hql, hal, hul, hdl, hq, ha, hu, hd⟩ := hwf
  obtain ⟨eq, nq, hwq, hsq⟩ := writeQuestions_sound id m.Question hq
    (header.WriteTo
      { m.Header with
        QDCOUNT := u16 m.Question.length, ANCOUNT := u16 m.Answer.length,
        NSCOUNT := u16 m.Authority.length, ARCOUNT := u16 m.Additional.length } [])
    (fun _ => none)
  generalize hhdr : header.WriteTo
      { m.Header with
        QDCOUNT := u16 m.Question.length, ANCOUNT := u16 m.Answer.length,
        NSCOUNT := u16 m.Authority.length, ARCOUNT := u16 m.Additional.length } [] = hb
    at hwq hsq
  have hb12 : hb.length = 12 := by rw [← hhdr]; exact header_WriteTo_length _
  obtain ⟨ea, na, hwa, hsa⟩ := writeRRs_sound id ip m.Answer ha (hb ++ eq) nq
  obtain ⟨eu, nu, hwu, hsu⟩ := writeRRs_sound id ip m.Authority hu (hb ++ eq ++ ea) na
  obtain ⟨ed, nd, hwd, hsd⟩ := writeRRs_sound id ip m.Additional hd (hb ++ eq ++ ea ++ eu) nu
  refine ⟨hb ++ eq ++ ea ++ eu ++ ed, nd, ?_, ?_⟩
  · simp only [message.encode, hhdr, hwq, hwa, hwu, hwd]
  · intro hsize
    have hsz : hb.length + eq.length + ea.length + eu.length + ed.length ≤ 16384 := by
      simpa [Nat.add_assoc] using hsize
    obtain ⟨hokq, -⟩ := hsq (by rw [List.length_append]; omega) (by omega)
      (fun key v hk => by simp at hk)
    obtain ⟨hoka, -⟩ := hsa (by simp only [List.length_append]; omega)
      (by rw [List.length_append]; omega) hokq
    obtain ⟨hoku, -⟩ := hsu (by simp only [List.length_append]; omega)
      (by simp only [List.length_append]; omega) hoka
    obtain ⟨hokd, -⟩ := hsd (by simp only [List.length_append]; omega)
      (by simp only [List.length_append]; omega) hoku
    exact hokd

/-- C17 (amended). Compression-table offsets: for every message of the data
model that `message.Bytes` writes within `2^14` bytes, every entry of the
compression table has a non-empty key and a value whose two bytes have the top
two bits set and hold, in the low 14 bits, an offset `t` with `12 ≤ t` at
which the name of the key is encoded in the message, so that `parseLabel`
reads it there. An existing entry is never overwritten, and a 2-byte pointer
emitted by `labelBytes`, for a full name or for a suffix, is the value of the
entry of that name. -/
theorem compression_table_offsets (ip : IPLib) (m : message) (hwf : WfMessage ip m) :
    (∃ b ns, m.encode ip = .ok (b, ns) ∧ m.Bytes ip = .ok b ∧
      (b.length ≤ 16384 → ∀ key v, ns key = some v →
        key ≠ [] ∧ ∃ t ls e n, v = t + 49152 ∧ be16 v = [192 + t / 256, t % 256] ∧
          12 ≤ t ∧ t < 16384 ∧ key = joinLabels ls ∧ Enc b t ls e n ∧
          ∀ (ul : Str → Str) (fuel : Nat), n ≤ fuel →
            parseLabel ul fuel t b = .ok (key.map lowerByte, e - t))) ∧
    (∀ (ns : NsCache) (s : Str) (pos : Nat) (k : Str) (v : Nat),
      ns k = some v → (addToNsCache ns s pos).1 k = some v) ∧
    (∀ (ns : NsCache) (label : Str) (off v : Nat), label ≠ [] → ns label = some v →
      labelBytes label ns true off = .ok (be16 v, ns)) ∧
    (∀ (label : Str) (off : Nat) (p : Str) (ps : List Str) (l : Nat) (ns : NsCache)
      (buf : List Nat) (v : Nat), p ≠ [] →
      ¬ label.length < u16 (l + u16 (u16 p.length + 1)) →
      ns (label.drop (u16 (l + u16 (u16 p.length + 1)))) = some v →
      labelBytesLoop label true off (p :: ps) l ns buf
        = .ok (buf ++ [p.length % 256] ++ p ++ be16 v, ns)) := by
  refine ⟨?_, addToNsCache_keeps, labelBytes_pointer, labelBytesLoop_pointer⟩
  obtain ⟨b, ns, henc, hok⟩ := encode_table_sound ip m hwf
  refine ⟨b, ns, henc, Bytes_of_encode _ _ _ _ henc, ?_⟩
  intro hsize key v hk
  have hv := hok hsize key v hk
  refine ⟨hv.key_ne_nil, ?_⟩
  obtain ⟨ls, t, e, n, _, hkey, hvt, h12, ht, henc2, _⟩ := hv
  refine ⟨t, ls, e, n, hvt, by rw [hvt]; exact be16_pointer t ht, h12, ht, hkey, henc2, ?_⟩
  intro ul fuel hfuel
  rw [hkey]
  exact parseLabel_of_Enc ul henc2 (by omega) fuel hfuel

theorem compression_table_offsets_witness :
    WfMessage sampleIP sampleMessage ∧
    ∃ b ns, sampleMessage.encode sampleIP = .ok (b, ns) ∧
      (b.length ≤ 16384 → ∀ key v, ns key = some v →
        key ≠ [] ∧ ∃ t ls e n, v = t + 49152 ∧ be16 v = [192 + t / 256, t % 256] ∧
          12 ≤ t ∧ t < 16384 ∧ key = joinLabels ls ∧ Enc b t ls e n ∧
          ∀ (ul : Str → Str) (fuel : Nat), n ≤ fuel →
            parseLabel ul fuel t b = .ok (key.map lowerByte, e - t)) := by
  obtain ⟨b, ns, h1, -, h3⟩ := (compression_table_offsets sampleIP sampleMessage sampleMessage_wf).1
  exact ⟨sampleMessage_wf, b, ns, h1, h3⟩

/-- C17 (counterexample): the message `bigMessage`, of 16430 bytes, is written
by `message.Bytes` and the table then holds the entry `b.` with the value
49165, whose low 14 bits are the offset 13; there stands a zero byte, which
`parseLabel` reads as the root name, and not the name `b.`, which was written
at offset 16397; with that table `labelBytes` writes the name `b.` as the
pointer `192, 13`. -/
theorem compression_table_offset_wraps :
    ∃ b ns, message.encode sampleIP bigMessage = .ok (b, ns) ∧ bigMessage.Bytes sampleIP = .ok b ∧
      b.length = 16430 ∧ ns (str "b.") = some 49165 ∧ be16 49165 = [192 + 13 / 256, 13 % 256] ∧
      (∀ off, labelBytes (str "b.") ns true off = .ok ([192, 13], ns)) ∧
      ∀ fuel, parseLabel id (fuel + 1) 13 b = .ok ([], 1) := by
  obtain ⟨b, ns, henc, hns, h13, hlen, -⟩ := bigMessage_roundtrip
  refine ⟨b, ns, henc, Bytes_of_encode _ _ _ _ henc, hlen, hns, rfl,
    fun off => labelBytes_pointer ns (str "b.") off 49165 (by decide) hns, ?_⟩
  intro fuel
  have := parseLabel_of_Enc id (Enc.nil 13 h13) (by omega) (fuel + 1) (by omega)
  simpa [joinLabels] using this

/-! ## cache.go : the TTLs of a hit -/

/-- C20. When `Get d` is a hit (the age of the record chosen as `minTtlCrr`
lies between 0 and the TTL of that record), every record of the returned
Answer is a stored record of the entry with its TTL lowered, and that TTL lies
between 0 and the stored one. -/
theorem cache_Get_ttl_bounds (c : Dns.cache) (now : Int) (d : Str) (crrs : List cachedRR)
    (m : cachedRR) (hc : c.cache d = some crrs) (hm : minTtlCrr crrs = some m)
    (hrange : ∀ x ∈ crrs, -2147483648 ≤ x.rr.Ttl ∧ x.rr.Ttl ≤ 2147483647)
    (h0 : 0 ≤ now - m.createdAt) (h1 : now - m.createdAt ≤ m.rr.Ttl * nsPerSec) :
    ∃ msg, (c.Get now d).1 = .ok (some msg) ∧
      ∀ rr ∈ msg.Answer, ∃ x ∈ crrs, { rr with Ttl := x.rr.Ttl } = x.rr ∧
        0 ≤ rr.Ttl ∧ rr.Ttl ≤ x.rr.Ttl := by
  obtain ⟨_, hmin⟩ := minTtlCrr_spec crrs m hm
  have hdiv : (now - m.createdAt) / nsPerSec ≤ m.rr.Ttl := div_le_of_le_mul _ _ h1
  have hnn : 0 ≤ (now - m.createdAt) / nsPerSec :=
    Int.ediv_nonneg h0 (by unfold nsPerSec; norm_num)
  have hans := answerLoop_eq (now - m.createdAt) crrs h0
    (fun x hx => ⟨le_trans hdiv (hmin x hx), (hrange x hx).2⟩)
  have hnot : ¬ (now - m.createdAt > m.rr.Ttl * nsPerSec) := not_lt.mpr h1
  refine ⟨_, by simp only [cache.Get, hc, hm, hnot, if_false, hans]; rfl, ?_⟩
  intro rr hrr
  simp only [List.mem_map, List.mem_filter] at hrr
  obtain ⟨x, ⟨hx, _⟩, rfl⟩ := hrr
  have := hmin x hx
  exact ⟨x, hx, rfl, by show 0 ≤ x.rr.Ttl - (now - m.createdAt) / nsPerSec; omega,
    by show x.rr.Ttl - (now - m.createdAt) / nsPerSec ≤ x.rr.Ttl; omega⟩

theorem cache_Get_ttl_bounds_witness :
    ∃ msg, (sampleCache.Get 42500000000 (str "example.com.")).1 = .ok (some msg) ∧
      ∀ rr ∈ msg.Answer, ∃ x ∈ [({ rr := sampleA "example.com." 300, createdAt := 0 } : cachedRR),
          { rr := sampleNS "example.com." "ns.example.com." 60, createdAt := 0 }],
        { rr with Ttl := x.rr.Ttl } = x.rr ∧ 0 ≤ rr.Ttl ∧ rr.Ttl ≤ x.rr.Ttl :=
  cache_Get_ttl_bounds sampleCache 42500000000 (str "example.com.")
    [{ rr := sampleA "example.com." 300, createdAt := 0 },
     { rr := sampleNS "example.com." "ns.example.com." 60, createdAt := 0 }]
    { rr := sampleNS "example.com." "ns.example.com." 60, createdAt := 0 }
    (by decide) (by decide) (by decide) (by decide) (by decide)

/-! ## dns.go : SetRCODE -/

theorem RCODE_and (h : header) : h.RCODE = h.Flags &&& 0b1111 := by
  unfold header.RCODE
  have : h.Flags &&& 0b1111 ≤ 0b1111 := Nat.and_le_right
  omega

theorem testBit_mask_RCODE (i : Nat) :
    (0b1111111111110000 : Nat).testBit i = decide (4 ≤ i ∧ i < 16) := by
  by_cases hi : i < 16
  · interval_cases i <;> rfl
  · rw [testBit_u16_high _ i (by norm_num) (by omega)]
    simp [hi]

theorem SetRCODE_Flags (h : header) (v : Nat) (hv : v ≤ 15) :
    (h.SetRCODE v).Flags = h.Flags &&& (v ||| 0b1111111111110000) := by
  have : ¬ v > 15 := by omega
  simp [header.SetRCODE, this]

/-- C21. `SetRCODE(v)` with `v ≤ 15` does not set the response code: it ands
the four RCODE bits with `v`, so that afterwards `RCODE()` returns the old
RCODE and `v`, bit by bit, which is `v` only when every bit of `v` was set
before; the other twelve bits of Flags and the other fields are unchanged,
and with `v > 15` the header is unchanged. -/
theorem SetRCODE_only_clears (h : header) (v : Nat) (hw : h.Flags < 65536) (hv : v ≤ 15) :
    (h.SetRCODE v).RCODE = h.RCODE &&& v ∧
    ((h.SetRCODE v).RCODE = v ↔ h.RCODE &&& v = v) ∧
    (∀ i, 4 ≤ i → (h.SetRCODE v).Flags.testBit i = h.Flags.testBit i) ∧
    h.SetRCODE v = { h with Flags := (h.SetRCODE v).Flags } ∧
    (∀ u, 15 < u → h.SetRCODE u = h) := by
  have hr : (h.SetRCODE v).RCODE = h.RCODE &&& v := by
    rw [RCODE_and, RCODE_and, SetRCODE_Flags h v hv]
    apply Nat.eq_of_testBit_eq
    intro i
    simp only [Nat.testBit_and, Nat.testBit_or, testBit_mask_RCODE]
    rw [show (0b1111 : Nat) = 2 ^ 4 - 1 from rfl, Nat.testBit_two_pow_sub_one]
    by_cases hi : i < 4
    · have h4 : ¬ 4 ≤ i := by omega
      simp [hi, h4]
    · simp [hi]
  refine ⟨hr, by rw [hr], ?_, ?_, ?_⟩
  · intro i hi
    rw [SetRCODE_Flags h v hv, Nat.testBit_and, Nat.testBit_or, testBit_mask_RCODE]
    by_cases h16 : i < 16
    · simp [hi, h16]
    · rw [testBit_u16_high _ i hw (by omega)]
      simp
  · have : ¬ v > 15 := by omega
    simp [header.SetRCODE, this]
  · intro u hu
    have : u > 15 := hu
    simp [header.SetRCODE, this]

theorem SetRCODE_only_clears_witness :
    message.zero.Header.Flags < 65536 ∧ message.zero.Header.RCODE = 0 ∧
    (message.zero.Header.SetRCODE 3).RCODE = 0 ∧ (message.zero.Header.SetRCODE 3).RCODE ≠ 3 := by
  have h := (SetRCODE_only_clears message.zero.Header 3 (by decide) (by decide)).1
  have h0 : message.zero.Header.RCODE = 0 := by decide
  rw [h0] at h
  have h1 : (message.zero.Header.SetRCODE 3).RCODE = 0 := by rw [h]; rfl
  exact ⟨by decide, h0, h1, by rw [h1]; decide⟩

end Dns
